import Mathlib

/-!
# eBottle: the Bag container and its binary codec

A shallow embedding of `src/eBottle.h` / `src/eBottle.cc`.

* An `eValue` is the tagged cell `(type, size, value)`; the payload behind the
  `void *` is carried by the constructor of the matching kind.  A `double` is
  carried as its 64-bit IEEE-754 pattern (the codec only copies it), an `int`
  as an integer, a blob or string as the list of its bytes.  The `size` field
  is written by the blob constructor only, where it is the blob's length.
* An `eBottle` is the `std::vector<eValue *> values`, in order.  Its size and the indices
  (`unsigned int` in the source) are natural numbers: a vector holds fewer than `2^32` cells.
* Memory handed to the codec is a list of bytes addressed from offset `0`;
  an access outside the list has no defined result (`none`).
* The running offset `int &s` is a 32-bit signed integer: every update is
  reduced with `toInt32`.
-/

mutual
/-- The tagged cell `eValue`: one constructor per `ValueType`. -/
inductive eValue where
  | INT (i : Int)
  | DOUBLE (d : Nat)
  | CHARP (blob : List Nat)
  | BOTTLE (b : eBottle)
  | STRING (s : List Nat)
/-- The container `eBottle`: the vector `values`. -/
inductive eBottle where
  | mk (values : List eValue)
end

mutual
/-- Equality of two cells is decidable: same kind and same payload. -/
def eValue.decEq : (a b : eValue) → Decidable (a = b)
  | .INT i, .INT j =>
    if h : i = j then isTrue (by rw [h]) else isFalse (by intro e; cases e; exact h rfl)
  | .DOUBLE i, .DOUBLE j =>
    if h : i = j then isTrue (by rw [h]) else isFalse (by intro e; cases e; exact h rfl)
  | .CHARP i, .CHARP j =>
    if h : i = j then isTrue (by rw [h]) else isFalse (by intro e; cases e; exact h rfl)
  | .STRING i, .STRING j =>
    if h : i = j then isTrue (by rw [h]) else isFalse (by intro e; cases e; exact h rfl)
  | .BOTTLE i, .BOTTLE j =>
    match eBottle.decEq i j with
    | isTrue h => isTrue (by rw [h])
    | isFalse h => isFalse (by intro e; cases e; exact h rfl)
  | .INT _, .DOUBLE _ => isFalse (by intro e; cases e)
  | .INT _, .CHARP _ => isFalse (by intro e; cases e)
  | .INT _, .BOTTLE _ => isFalse (by intro e; cases e)
  | .INT _, .STRING _ => isFalse (by intro e; cases e)
  | .DOUBLE _, .INT _ => isFalse (by intro e; cases e)
  | .DOUBLE _, .CHARP _ => isFalse (by intro e; cases e)
  | .DOUBLE _, .BOTTLE _ => isFalse (by intro e; cases e)
  | .DOUBLE _, .STRING _ => isFalse (by intro e; cases e)
  | .CHARP _, .INT _ => isFalse (by intro e; cases e)
  | .CHARP _, .DOUBLE _ => isFalse (by intro e; cases e)
  | .CHARP _, .BOTTLE _ => isFalse (by intro e; cases e)
  | .CHARP _, .STRING _ => isFalse (by intro e; cases e)
  | .BOTTLE _, .INT _ => isFalse (by intro e; cases e)
  | .BOTTLE _, .DOUBLE _ => isFalse (by intro e; cases e)
  | .BOTTLE _, .CHARP _ => isFalse (by intro e; cases e)
  | .BOTTLE _, .STRING _ => isFalse (by intro e; cases e)
  | .STRING _, .INT _ => isFalse (by intro e; cases e)
  | .STRING _, .DOUBLE _ => isFalse (by intro e; cases e)
  | .STRING _, .CHARP _ => isFalse (by intro e; cases e)
  | .STRING _, .BOTTLE _ => isFalse (by intro e; cases e)
/-- Equality of two Bags is decidable: the same cells in the same order. -/
def eBottle.decEq : (a b : eBottle) → Decidable (a = b)
  | .mk xs, .mk ys =>
    match eBottle.decEqList xs ys with
    | isTrue h => isTrue (by rw [h])
    | isFalse h => isFalse (by intro e; cases e; exact h rfl)
/-- Equality of two sequences of cells is decidable. -/
def eBottle.decEqList : (a b : List eValue) → Decidable (a = b)
  | [], [] => isTrue rfl
  | [], _ :: _ => isFalse (by intro e; cases e)
  | _ :: _, [] => isFalse (by intro e; cases e)
  | x :: xs, y :: ys =>
    match eValue.decEq x y with
    | isTrue h =>
      match eBottle.decEqList xs ys with
      | isTrue h2 => isTrue (by rw [h, h2])
      | isFalse h2 => isFalse (by intro e; cases e; exact h2 rfl)
    | isFalse h => isFalse (by intro e; cases e; exact h rfl)
end

instance : DecidableEq eValue := eValue.decEq

instance : DecidableEq eBottle := eBottle.decEq

/-- The member `values`. -/
def eBottle.values : eBottle → List eValue
  | .mk values => values

/-- The enum `ValueType` : `INT = 1, DOUBLE, CHARP, BOTTLE, STRING`. -/
def eValue.getType : eValue → Int
  | .INT _ => 1
  | .DOUBLE _ => 2
  | .CHARP _ => 3
  | .BOTTLE _ => 4
  | .STRING _ => 5

/-- What `c_str()` shows of a string to a reader of C strings: the bytes before the first NUL. -/
def c_str (s : List Nat) : List Nat :=
  s.takeWhile (fun c => c != 0)

/-- The C function `strlen` on `c_str()`. -/
def strlen (s : List Nat) : Nat :=
  (c_str s).length

/-- The constructor `eBottle::eBottle()`. -/
def eBottle.empty : eBottle :=
  .mk []

/-- The call `values.push_back(p)`. -/
def eBottle.push_back (b : eBottle) (v : eValue) : eBottle :=
  .mk (b.values ++ [v])

/-- The state of the member `toBinaryPointer` of an eBottle: `NULL`, as every constructor
leaves it; the buffer that `toBinary(int *size)` made by `new`; or a buffer that a `delete`
has released already, which the member still points at because no method resets it. -/
inductive Scratch where
  | null
  | live
  | released
deriving DecidableEq

/-- The statement `delete toBinaryPointer`: nothing happens on `NULL`, a live buffer is
released, and there is no defined result on a buffer released before.  The result is the
state of the member afterwards; the pointer itself keeps its value. -/
def Scratch.release : Scratch → Option Scratch
  | .null => some .null
  | .live => some .released
  | .released => none

/-- The method `eBottle::clear` on an object whose member `toBinaryPointer` is in the given
state: the elements are deleted, `delete toBinaryPointer`, `values.clear()`.  The result is
the object after the call, without element, and the state of the member; there is none when
the buffer was released before.  The elements are values here; `Heap.clear` follows their
destructors cell by cell. -/
def eBottle.clear (_b : eBottle) (toBinaryPointer : Scratch) : Option (eBottle × Scratch) :=
  toBinaryPointer.release.map fun after => (.mk [], after)

/-- The methods `eBottle::count` and `eBottle::size`. -/
def eBottle.count (b : eBottle) : Nat :=
  b.values.length

/-- The method `eBottle::addInt`. -/
def eBottle.addInt (b : eBottle) (i : Int) : eBottle :=
  b.push_back (.INT i)

/-- The method `eBottle::addDouble`. -/
def eBottle.addDouble (b : eBottle) (d : Nat) : eBottle :=
  b.push_back (.DOUBLE d)

/-- The three overloads of `eBottle::addString`: each goes through `const char *`,
so `std::string(text)` keeps the bytes before the first NUL. -/
def eBottle.addString (b : eBottle) (s : List Nat) : eBottle :=
  b.push_back (.STRING (c_str s))

/-- The method `eBottle::addBlob(q, size)`; `q` is the list of the `size` bytes at the pointer. -/
def eBottle.addBlob (b : eBottle) (q : List Nat) : eBottle :=
  b.push_back (.CHARP q)

/-- The methods `eBottle::addList` / `eBottle::addListPtr`: a new empty nested eBottle is
appended.  The caller fills it through the returned pointer; `yb` is what the element holds
once the caller is done (`eBottle.empty` when it is left alone). -/
def eBottle.addListPtr (b : eBottle) (yb : eBottle) : eBottle :=
  b.push_back (.BOTTLE yb)

mutual
/-- The operator `eValue::operator=`: the cell installed in `*this` when `p` is assigned to it. -/
def eValue.assign : eValue → eValue
  | .INT i => .INT i
  | .BOTTLE q => .BOTTLE (eBottle.assign q)
  | .DOUBLE d => .DOUBLE d
  | .CHARP blob => .CHARP blob
  | .STRING s => .STRING (c_str s)
/-- The operator `eBottle::operator=` on the new eBottle that `addListPtr()` or `operator=`
of `eValue` has just made, which has no element and a `NULL` `toBinaryPointer`: `clear()`
finds nothing to release, then the loop. -/
def eBottle.assign : eBottle → eBottle
  | .mk values => eBottle.assignLoop values eBottle.empty
/-- The loop of `eBottle::operator=` over the elements of `p`, appending to `this`. -/
def eBottle.assignLoop : List eValue → eBottle → eBottle
  | [], this => this
  | .INT i :: rest, this => eBottle.assignLoop rest (this.addInt i)
  | .DOUBLE d :: rest, this => eBottle.assignLoop rest (this.addDouble d)
  | .CHARP blob :: rest, this => eBottle.assignLoop rest (this.addBlob blob)
  | .BOTTLE q :: rest, this => eBottle.assignLoop rest (this.addListPtr (eBottle.assign q))
  | .STRING s :: rest, this => eBottle.assignLoop rest (this.addString (c_str s))
end

/-- The two overloads of `eBottle::add`: a new cell is assigned from `yv` and pushed. -/
def eBottle.add (b : eBottle) (yv : eValue) : eBottle :=
  b.push_back yv.assign

/-- How a call on an eBottle ends: it returns `r` and leaves the object as `after`; or
`std::vector::at` throws `std::out_of_range`, the object being `after` at the throw; or the
call has no defined behaviour. -/
inductive Outcome (α : Type) where
  | ok (r : α) (after : eBottle)
  | out_of_range (after : eBottle)
  | undefined

/-- Sequencing of two calls on the same object. -/
def Outcome.andThen {α β : Type} : Outcome α → (α → eBottle → Outcome β) → Outcome β
  | .ok r after, f => f r after
  | .out_of_range after, _ => .out_of_range after
  | .undefined, _ => .undefined

/-- The call `values.at(i)`. -/
def eBottle.at (b : eBottle) (i : Nat) : Outcome eValue :=
  match b.values.get? i with
  | some v => .ok v b
  | none => .out_of_range b

/-- The method `eBottle::get` (both overloads). -/
def eBottle.get (b : eBottle) (i : Nat) : Outcome eValue :=
  b.at i

/-- The method `eBottle::remove`: `delete values.at(i)`, then `values.erase(values.begin()+i)`. -/
def eBottle.remove (b : eBottle) (i : Nat) : Outcome Unit :=
  (b.at i).andThen fun _ b => .ok () (.mk (b.values.eraseIdx i))

/-- The method `eBottle::insert`: a new cell is assigned from `p`, then
`values.insert(values.begin()+i, yv)`, whose iterator must lie within `[begin, end]`. -/
def eBottle.insert (b : eBottle) (p : eValue) (i : Nat) : Outcome Unit :=
  if i ≤ b.values.length then
    .ok () (.mk (b.values.take i ++ p.assign :: b.values.drop i))
  else
    .undefined

/-- The method `eBottle::append` for an argument `yb` that is another object:
`this->add(yb.getPtr(i))` for `i = 0 .. yb.count()-1`. -/
def eBottle.append (b : eBottle) (yb : eBottle) : eBottle :=
  yb.values.foldl (fun this yv => this.add yv) b

/-! ## Memory, machine integers -/

/-- The largest `int`. -/
def INT_MAX : Int := 2147483647

/-- Conversion of an integer to the 32-bit two's complement `int`. -/
def toInt32 (x : Int) : Int :=
  (x + 2147483648) % 4294967296 - 2147483648

/-- Conversion of an integer to `unsigned int`. -/
def toUInt32 (x : Int) : Nat :=
  (x % 4294967296).toNat

/-- The `n` bytes of the unsigned number `x`, least significant first (the host's layout). -/
def le : Nat → Nat → List Nat
  | 0, _ => []
  | n + 1, x => x % 256 :: le n (x / 256)

/-- The unsigned number held by a run of bytes, least significant first. -/
def unle : List Nat → Nat
  | [] => 0
  | b :: bs => b + 256 * unle bs

/-- The four bytes of an `int` object. -/
def int32Bytes (x : Int) : List Nat :=
  le 4 (toUInt32 x)

/-- The eight bytes of a `double` object, from its bit pattern. -/
def doubleBytes (d : Nat) : List Nat :=
  le 8 d

/-- Reading `n` bytes at `p + s`; there is no result outside the buffer. -/
def readBytes (p : List Nat) (s : Int) (n : Nat) : Option (List Nat) :=
  if 0 ≤ s ∧ s.toNat + n ≤ p.length then some ((p.drop s.toNat).take n) else none

/-- Writing the bytes `bs` over the cells that follow the first `n` cells of `p`; there is no
result when the cells run out. -/
def writeAt : List Nat → Nat → List Nat → Option (List Nat)
  | p, 0, [] => some p
  | [], 0, _ :: _ => none
  | _ :: p, 0, b :: bs => (writeAt p 0 bs).map fun q => b :: q
  | [], _ + 1, _ => none
  | x :: p, n + 1, bs => (writeAt p n bs).map fun q => x :: q

/-- Writing the bytes `bs` at `p + s`; there is no result outside the buffer. -/
def writeBytes (p : List Nat) (s : Int) (bs : List Nat) : Option (List Nat) :=
  if 0 ≤ s then writeAt p s.toNat bs else none

/-- The load `* (int*) (p+s)`. -/
def readInt (p : List Nat) (s : Int) : Option Int :=
  (readBytes p s 4).map fun bs => toInt32 (unle bs)

/-- The load `* (double*) (p+s)`, as a bit pattern. -/
def readDouble (p : List Nat) (s : Int) : Option Nat :=
  (readBytes p s 8).map unle

/-- The C string at `p + s`: the bytes up to the first NUL, which must lie in the buffer. -/
def readCStr (p : List Nat) (s : Int) : Option (List Nat) :=
  if 0 ≤ s then
    if strlen (p.drop s.toNat) < (p.drop s.toNat).length then some (c_str (p.drop s.toNat))
    else none
  else none

/-- A guarded store `if (p != NULL) ... (p+s) ...` of the bytes `bs`; `p = none` is `NULL`. -/
def store (p : Option (List Nat)) (s : Int) (bs : List Nat) : Option (Option (List Nat)) :=
  match p with
  | none => some none
  | some buf => (writeBytes buf s bs).map some

/-! ## The binary encoder -/

mutual
/-- The method `eBottle::fill(b, s, p)`: the count, then the loop.  The result is the offset
`s` and the buffer after the call. -/
def eBottle.fill : eBottle → Int → Option (List Nat) → Option (Int × Option (List Nat))
  | .mk values, s, p =>
    (store p s (int32Bytes values.length)).bind fun p =>
    eBottle.fillLoop values (toInt32 (s + 4)) p
/-- The `for` loop of `fill` over the elements: the tag, then the `switch`. -/
def eBottle.fillLoop : List eValue → Int → Option (List Nat) → Option (Int × Option (List Nat))
  | [], s, p => some (s, p)
  | v :: rest, s, p =>
    (store p s (int32Bytes v.getType)).bind fun p =>
    (eBottle.fillCase v (toInt32 (s + 4)) p).bind fun r =>
    eBottle.fillLoop rest r.1 r.2
/-- The `switch` of `fill` on the type of one element. -/
def eBottle.fillCase : eValue → Int → Option (List Nat) → Option (Int × Option (List Nat))
  | .INT i, s, p =>
    (store p s (int32Bytes i)).bind fun p =>
    some (toInt32 (s + 4), p)
  | .DOUBLE d, s, p =>
    (store p s (doubleBytes d)).bind fun p =>
    some (toInt32 (s + 8), p)
  | .CHARP blob, s, p =>
    (store p s (int32Bytes blob.length)).bind fun p =>
    (store p (toInt32 (s + 4)) blob).bind fun p =>
    some (toInt32 (toInt32 (s + 4) + blob.length), p)
  | .BOTTLE q, s, p => eBottle.fill q s p
  | .STRING str, s, p =>
    (store p s (int32Bytes (toInt32 (strlen str + 1)))).bind fun p =>
    (store p (toInt32 (s + 4)) (c_str str ++ [0])).bind fun p =>
    some (toInt32 (toInt32 (s + 4) + toInt32 (strlen str + 1)), p)
end

/-- The method `eBottle::getBinarySize`: the measure pass, returned as `unsigned int`. -/
def eBottle.getBinarySize (b : eBottle) : Option Nat :=
  (b.fill 0 none).map fun r => toUInt32 r.1

/-- The method `eBottle::toBinary(char * p)`: the write pass into the caller's buffer; the
result is the buffer after the call. -/
def eBottle.toBinary (b : eBottle) (p : List Nat) : Option (List Nat) :=
  (b.fill 0 (some p)).bind fun r => r.2

/-- The method `eBottle::toBinary(int *size)`: measure, `new char[global_size]` (whose bytes
start as `fresh`), write, report the offset.  The result is the scratch buffer and `*size`. -/
def eBottle.toBinaryOwned (b : eBottle) (fresh : Nat → Nat) : Option (List Nat × Int) :=
  (b.fill 0 none).bind fun m =>
  if 0 ≤ m.1 then
    (b.fill 0 (some ((List.range m.1.toNat).map fresh))).bind fun r =>
    r.2.map fun buf => (buf, r.1)
  else none

/-! ## The binary decoder -/

/-- A `for` loop that runs its body `n` times on a state. -/
def iterate {σ : Type} : Nat → (σ → Option σ) → σ → Option σ
  | 0, _, st => some st
  | n + 1, body, st => (body st).bind (iterate n body)

/-- One turn of the loop of `reconstruct`: the tag, then the `switch`; `nested` is the
recursive call `reconstruct(q, s, p)` on the new nested eBottle. -/
def eBottle.reconstructCase (nested : eBottle → Int → Option (eBottle × Int)) (p : List Nat)
    (st : eBottle × Int) : Option (eBottle × Int) :=
  (readInt p st.2).bind fun j =>
  let s := toInt32 (st.2 + 4)
  if j = 1 then
    (readInt p s).bind fun i => some (st.1.addInt i, toInt32 (s + 4))
  else if j = 2 then
    (readDouble p s).bind fun d => some (st.1.addDouble d, toInt32 (s + 8))
  else if j = 3 then
    (readInt p s).bind fun dim =>
    (readBytes p (toInt32 (s + 4)) (toUInt32 dim)).bind fun blob =>
    some (st.1.addBlob blob, toInt32 (toInt32 (s + 4) + dim))
  else if j = 4 then
    (nested eBottle.empty s).bind fun r => some (st.1.addListPtr r.1, r.2)
  else if j = 5 then
    (readInt p s).bind fun len =>
    (readCStr p (toInt32 (s + 4))).bind fun str =>
    some (st.1.addString str, toInt32 (toInt32 (s + 4) + len))
  else some (st.1, s)

/-- The method `eBottle::reconstruct(b, s, p)`: the count, then the loop.  `depth` bounds the
nesting of recursive calls; there is no result when it is used up. -/
def eBottle.reconstruct : Nat → eBottle → Int → List Nat → Option (eBottle × Int)
  | 0, _, _, _ => none
  | depth + 1, b, s, p =>
    (readBytes p s 4).bind fun n =>
    iterate (unle n) (eBottle.reconstructCase (fun q s => eBottle.reconstruct depth q s p) p)
      (b, toInt32 (s + 4))

/-- The method `eBottle::fromBinary(p, size)`: the object after the call, and whether the
`Reconstruct error` line is printed. -/
def eBottle.fromBinary (depth : Nat) (b : eBottle) (p : List Nat) (size : Int) :
    Option (eBottle × Bool) :=
  (eBottle.reconstruct depth b 0 p).map fun r => (r.1, decide (size ≠ r.2))

/-! ## The wire layout, as the specification words it -/

mutual
/-- The tag-specific body of one element in the per-Bag layout: `Int : int32 value`,
`Double : float64 value`, `Blob : int32 length ; length bytes`, `NestedBag : (recursive Bag
layout)`, `String : int32 length ; length bytes (length includes trailing NUL)`. -/
def eValue.wireBody : eValue → List Nat
  | .INT i => int32Bytes i
  | .DOUBLE d => doubleBytes d
  | .CHARP blob => int32Bytes blob.length ++ blob
  | .BOTTLE q => eBottle.wire q
  | .STRING s => int32Bytes (strlen s + 1) ++ (c_str s ++ [0])
/-- The per-Bag layout: `int32 count`, then the elements. -/
def eBottle.wire : eBottle → List Nat
  | .mk values => int32Bytes values.length ++ eBottle.wireElems values
/-- The part `repeat count times: int32 tag, tag-specific body` of the layout. -/
def eBottle.wireElems : List eValue → List Nat
  | [] => []
  | v :: rest => int32Bytes v.getType ++ (v.wireBody ++ eBottle.wireElems rest)
end

mutual
/-- The number of bytes of the body of one element in the layout. -/
def eValue.bodySize : eValue → Nat
  | .INT _ => 4
  | .DOUBLE _ => 8
  | .CHARP blob => 4 + blob.length
  | .BOTTLE q => eBottle.wireSize q
  | .STRING s => 4 + (strlen s + 1)
/-- The number of bytes of the layout of a Bag: 4 for the count, then for each element 4 for
the tag and the size of its body. -/
def eBottle.wireSize : eBottle → Nat
  | .mk values => 4 + eBottle.elemsSize values
/-- The sum over the elements of `4 + body size`. -/
def eBottle.elemsSize : List eValue → Nat
  | [] => 0
  | v :: rest => (4 + v.bodySize) + eBottle.elemsSize rest
end

mutual
/-- The nesting depth of the Bags inside a value (a value that is no Bag has depth 0). -/
def eValue.depth : eValue → Nat
  | .BOTTLE q => eBottle.depth q
  | _ => 0
/-- The nesting depth of a Bag: 1 for a Bag whose elements hold no Bag. -/
def eBottle.depth : eBottle → Nat
  | .mk values => eBottle.elemsDepth values + 1
/-- The largest depth among the elements. -/
def eBottle.elemsDepth : List eValue → Nat
  | [] => 0
  | v :: rest => max v.depth (eBottle.elemsDepth rest)
end

mutual
/-- Every String inside the value is a C string: it holds no NUL byte. -/
def eValue.nulFree : eValue → Bool
  | .BOTTLE q => eBottle.nulFree q
  | .STRING s => s.all fun c => c != 0
  | _ => true
/-- Every String inside the Bag, at any depth, holds no NUL byte. -/
def eBottle.nulFree : eBottle → Bool
  | .mk values => eBottle.elemsNulFree values
/-- Every String inside the elements holds no NUL byte. -/
def eBottle.elemsNulFree : List eValue → Bool
  | [] => true
  | v :: rest => v.nulFree && eBottle.elemsNulFree rest
end

mutual
/-- The payloads are ones the C++ types hold: an `int` is a 32-bit signed integer, a `double`
a 64-bit pattern, a blob is made of bytes, a String of non-NUL bytes. -/
def eValue.valid : eValue → Bool
  | .INT i => decide (-2147483648 ≤ i ∧ i ≤ 2147483647)
  | .DOUBLE d => decide (d < 18446744073709551616)
  | .CHARP blob => blob.all fun c => decide (c < 256)
  | .BOTTLE q => eBottle.valid q
  | .STRING s => s.all fun c => c != 0 && decide (c < 256)
/-- Every payload inside the Bag, at any depth, is one the C++ types hold. -/
def eBottle.valid : eBottle → Bool
  | .mk values => eBottle.elemsValid values
/-- Every payload inside the elements is one the C++ types hold. -/
def eBottle.elemsValid : List eValue → Bool
  | [] => true
  | v :: rest => v.valid && eBottle.elemsValid rest
end

/-! ## Sequences of appends, and the Bags of the examples -/

/-- One appending call on a Bag. -/
inductive AppendOp where
  | addInt (i : Int)
  | addDouble (d : Nat)
  | addString (s : List Nat)
  | addBlob (q : List Nat)
  | addList
  | add (yv : eValue)

/-- The Bag after one appending call. -/
def AppendOp.run (b : eBottle) : AppendOp → eBottle
  | .addInt i => b.addInt i
  | .addDouble d => b.addDouble d
  | .addString s => b.addString s
  | .addBlob q => b.addBlob q
  | .addList => b.addListPtr eBottle.empty
  | .add yv => b.add yv

/-- The value that an appending call is asked to append: kind and payload. -/
def AppendOp.value : AppendOp → eValue
  | .addInt i => .INT i
  | .addDouble d => .DOUBLE d
  | .addString s => .STRING s
  | .addBlob q => .CHARP q
  | .addList => .BOTTLE eBottle.empty
  | .add yv => yv

/-- The append-flatten law in the words of the specification: `a.add(b[i])` performed for
`i = 0 .. count(b)-1`. -/
def eBottle.addEach (a b : eBottle) : eBottle :=
  (List.range b.count).foldl
    (fun this i =>
      match b.get i with
      | .ok yv _ => this.add yv
      | _ => this)
    a

/-- The Bag of the first seed scenario: `addInt(7); addDouble(0.5); addString("hi")`. -/
def seedBag : eBottle :=
  ((eBottle.empty.addInt 7).addDouble 4602678819172646912).addString [104, 105]

/-- The Bag `eb1` of `main`, element by element as `fromStr` builds it from the tokens of the
text; `6.2` and `3.2` are given by their bit patterns. -/
def eb1 : eBottle :=
  .mk [.INT 1, .INT 2, .INT 3, .INT 4,
    .BOTTLE (.mk [.INT 5, .DOUBLE 4618666597849812173, .INT 7, .INT 8, .CHARP [64, 5, 6, 7],
      .STRING [72, 101, 108, 108, 111]]),
    .BOTTLE (.mk [.STRING [87, 111, 114, 108, 100], .INT 1, .INT 2, .INT 3]),
    .CHARP [4, 5, 6, 7, 87],
    .BOTTLE (.mk [.INT 5, .INT 6, .DOUBLE 4614388178203810202]),
    .INT 1, .INT 2, .INT 4,
    .CHARP [4, 5, 6, 7, 87, 5, 6, 7],
    .BOTTLE (.mk [.INT 3, .INT 4, .INT 5]),
    .INT 1]


/-! ## The printer -/

/-- The decimal digits of `n`, most significant first, as character codes; `fuel` bounds the
number of digits. -/
def digitsAux : Nat → Nat → List Nat → List Nat
  | 0, _, acc => acc
  | fuel + 1, n, acc =>
    if n / 10 = 0 then (48 + n % 10) :: acc
    else digitsAux fuel (n / 10) ((48 + n % 10) :: acc)

/-- The text that `ostream << ` writes for an `unsigned` number: its decimal digits. -/
def decimalNat (n : Nat) : List Nat :=
  digitsAux (n + 1) n []

/-- The text that `ostream << ` writes for an `int`: a `-` for a negative number, then the
decimal digits. -/
def decimal (i : Int) : List Nat :=
  if i < 0 then 45 :: decimalNat i.natAbs else decimalNat i.toNat

/-- The conversion `(int) elem[j]` of a `char`, which is a signed byte. -/
def charToInt (c : Nat) : Int :=
  if c % 256 < 128 then ((c % 256 : Nat) : Int) else ((c % 256 : Nat) : Int) - 256

/-- The value of a byte read as a signed 8-bit number: `u` below 128, `u - 256` from 128 on. -/
def signedByte (u : Nat) : Int :=
  if u < 128 then (u : Int) else (u : Int) - 256

/-- The bytes of a blob from index `j` on, as `fillString` writes them: each but the last
followed by a space, the last by the closing brace. -/
def eBottle.blobItems : Nat → List Nat → List Nat
  | c, [] => decimal (charToInt c) ++ [125]
  | c, d :: rest => decimal (charToInt c) ++ [32] ++ eBottle.blobItems d rest

/-- The case `CHARP` of `fillString`: the opening brace, then the loop `j < getSize()-1` and
the last byte.  On a blob of size 0 the unsigned bound `getSize()-1` wraps and the loop reads
past the blob: there is no defined result. -/
def eBottle.blobText : List Nat → Option (List Nat)
  | [] => none
  | c :: rest => some (123 :: eBottle.blobItems c rest)

mutual
/-- The method `eBottle::fillString(s, b)`: the text appended to the stream.  `fmt` is the
text that `ostream << ` writes for a `double`, given its bit pattern. -/
def eBottle.fillString (fmt : Nat → List Nat) : eBottle → Option (List Nat)
  | .mk values => eBottle.fillStringLoop fmt values.length values 0
/-- The loop of `fillString` from index `i` on; `count` is `b->count()`. -/
def eBottle.fillStringLoop (fmt : Nat → List Nat) (count : Nat) :
    List eValue → Nat → Option (List Nat)
  | [], _ => some []
  | v :: rest, i =>
    (eBottle.fillStringCase fmt v).bind fun r =>
    (eBottle.fillStringLoop fmt count rest (i + 1)).map fun more =>
    r ++ (if i ≠ count - 1 then [32] else []) ++ more
/-- The `switch` of `fillString` on the type of one element. -/
def eBottle.fillStringCase (fmt : Nat → List Nat) : eValue → Option (List Nat)
  | .INT i => some (decimal i)
  | .DOUBLE d => some (fmt d)
  | .CHARP blob => eBottle.blobText blob
  | .BOTTLE c => (eBottle.fillString fmt c).map fun t => 40 :: (t ++ [41])
  | .STRING s => some (c_str s)
end

/-- The method `eBottle::toString`: `fillString` into a new stream. -/
def eBottle.toString (fmt : Nat → List Nat) (b : eBottle) : Option (List Nat) :=
  eBottle.fillString fmt b

/-! ## The transport hooks -/

/-- Modelled from the spec: the byte source of the transport (`ConnectionReader`, not part of
this repository).  `data` is what the source still carries, `error` what `isError()`
returns. -/
structure ConnectionReader where
  data : List Nat
  error : Bool

/-- Modelled from the spec: `appendInt(size)` on the byte sink of the transport
(`ConnectionWriter`, not part of this repository) appends the `int32`. -/
def ConnectionWriter.appendInt (sink : List Nat) (x : Int) : List Nat :=
  sink ++ int32Bytes x

/-- Modelled from the spec: `appendBlock(tmp, size)` appends the `size` bytes at `tmp`. -/
def ConnectionWriter.appendBlock (sink : List Nat) (tmp : List Nat) (size : Nat) : List Nat :=
  sink ++ tmp.take size

/-- Modelled from the spec: `expectInt()` reads an `int32` from a source that carries it. -/
def ConnectionReader.expectInt (c : ConnectionReader) : Option (Int × ConnectionReader) :=
  if 4 ≤ c.data.length then
    some (toInt32 (unle (c.data.take 4)), { c with data := c.data.drop 4 })
  else none

/-- Modelled from the spec: `expectBlock(tmp, size)` reads exactly `size` bytes into `tmp`
from a source that carries them. -/
def ConnectionReader.expectBlock (c : ConnectionReader) (size : Nat) :
    Option (List Nat × ConnectionReader) :=
  if size ≤ c.data.length then
    some (c.data.take size, { c with data := c.data.drop size })
  else none

/-- The method `eBottle::write`: the returned value, the sink after the call and the object
after the call.  `fresh` gives the bytes that `new char[size]` starts with. -/
def eBottle.write (b : eBottle) (fresh : Nat → Nat) (sink : List Nat) :
    Option (Bool × List Nat × eBottle) :=
  b.getBinarySize.bind fun n =>
  let size := toInt32 n
  let sink := ConnectionWriter.appendInt sink size
  if 0 ≤ size then
    (b.toBinary ((List.range size.toNat).map fresh)).bind fun tmp =>
    some (true, ConnectionWriter.appendBlock sink tmp size.toNat, b)
  else none

/-- The method `eBottle::read` on an object whose member `toBinaryPointer` is in the given
state: `clear()` first, then the size, the block and `fromBinary`.  The result is the
returned value, the elements of the object after the call and the source after the call;
there is none when `clear()` has none.  `depth` bounds the nesting of `reconstruct`. -/
def eBottle.read (depth : Nat) (b : eBottle) (toBinaryPointer : Scratch)
    (connection : ConnectionReader) : Option (Bool × eBottle × ConnectionReader) :=
  (b.clear toBinaryPointer).bind fun this =>
  connection.expectInt.bind fun r1 =>
  if 0 ≤ r1.1 then
    (r1.2.expectBlock r1.1.toNat).bind fun r2 =>
    (eBottle.fromBinary depth this.1 r2.1 r1.1).bind fun r3 =>
    some (!r2.2.error, r3.1, r2.2)
  else none

/-! ## The text parser -/

/-- The C function `isspace` in the C locale. -/
def isspace (c : Nat) : Bool :=
  c == 32 || (decide (9 ≤ c) && decide (c ≤ 13))

/-- The number read by the run of decimal digits at the head of `s`, continuing `acc`. -/
def atoiDigits : List Nat → Nat → Nat
  | [], acc => acc
  | c :: rest, acc =>
    if 48 ≤ c ∧ c ≤ 57 then atoiDigits rest (acc * 10 + (c - 48)) else acc

/-- The largest `long`, of 64 bits. -/
def LONG_MAX : Int := 9223372036854775807

/-- The smallest `long`, of 64 bits. -/
def LONG_MIN : Int := -9223372036854775808

/-- The C function `strtol(s, NULL, 10)`: white space is skipped, then an optional sign and
the decimal digits are read; a value outside `long` is replaced by `LONG_MAX` or
`LONG_MIN`. -/
def strtol (s : List Nat) : Int :=
  match s.dropWhile isspace with
  | 45 :: rest =>
    if -(atoiDigits rest 0 : Int) < LONG_MIN then LONG_MIN else -(atoiDigits rest 0 : Int)
  | 43 :: rest =>
    if LONG_MAX < (atoiDigits rest 0 : Int) then LONG_MAX else (atoiDigits rest 0 : Int)
  | rest =>
    if LONG_MAX < (atoiDigits rest 0 : Int) then LONG_MAX else (atoiDigits rest 0 : Int)

/-- The C function `atoi`, which is `(int) strtol(s, NULL, 10)`: the `long` that `strtol`
gives, converted to `int`.  A digit string too long for `long` gives `(int) LONG_MAX`, which
is `-1`. -/
def atoi (s : List Nat) : Int :=
  toInt32 (strtol s)

/-- The conversion of an `int` to the `char` stored by `v.push_back(atoi(ptr))`, as a byte. -/
def intToChar (i : Int) : Nat :=
  (i % 256).toNat

/-- The tokens that successive calls of `strtok` with the delimiter `" "` return, in order,
on the text `s`; `cur` holds the bytes of the token being scanned. -/
def strtokFrom : List Nat → List Nat → List (List Nat)
  | cur, [] => if cur.isEmpty then [] else [cur]
  | cur, c :: rest =>
    if c = 32 then
      if cur.isEmpty then strtokFrom [] rest else cur :: strtokFrom [] rest
    else strtokFrom (cur ++ [c]) rest

/-- The tokens of a text: the maximal runs of bytes other than the space. -/
def strtokAll (s : List Nat) : List (List Nat) :=
  strtokFrom [] s

/-- The test `txt[i]=='(' || txt[i]==')' || txt[i]=='{' || txt[i]=='}'`. -/
def isBracket (c : Nat) : Bool :=
  c == 40 || c == 41 || c == 123 || c == 125

/-- The loop of `fromString` over the bytes of `txt`: a space is put before and after each
bracket. -/
def spaced : List Nat → List Nat
  | [] => []
  | c :: rest => if isBracket c then 32 :: c :: 32 :: spaced rest else c :: spaced rest

/-- The loop `while (ptr != NULL)` of `eBottle::fromStr` with its locals `beginBlob` and `v`,
on the tokens that `strtok` still has to return.  The result is the Bag `b` after the call
and the tokens left for the caller.  `fuel` bounds the number of tokens handled (each turn
takes one); `atof` is the C function, giving the bit pattern of the `double`. -/
def eBottle.fromStrLoop (atof : List Nat → Nat) :
    Nat → eBottle → Bool → List Nat → List (List Nat) → Option (eBottle × List (List Nat))
  | 0, _, _, _, _ => none
  | _ + 1, b, _, _, [] => some (b, [])
  | fuel + 1, b, beginBlob, v, ptr :: rest =>
    if 65 ≤ ptr.headD 0 ∧ ptr.headD 0 ≤ 122 then
      eBottle.fromStrLoop atof fuel (b.addString ptr) beginBlob v rest
    else if ptr.headD 0 = 40 then
      (eBottle.fromStrLoop atof fuel eBottle.empty false [] rest).bind fun r =>
      eBottle.fromStrLoop atof fuel (b.addListPtr r.1) beginBlob v r.2
    else if ptr.headD 0 = 41 then some (b, rest)
    else if ptr.headD 0 = 123 then eBottle.fromStrLoop atof fuel b true v rest
    else if ptr.headD 0 = 125 then eBottle.fromStrLoop atof fuel (b.addBlob v) false v rest
    else if beginBlob then
      eBottle.fromStrLoop atof fuel b beginBlob (v ++ [intToChar (atoi ptr)]) rest
    else if 46 ∈ ptr then eBottle.fromStrLoop atof fuel (b.addDouble (atof ptr)) beginBlob v rest
    else eBottle.fromStrLoop atof fuel (b.addInt (atoi ptr)) beginBlob v rest

/-- The method `eBottle::fromStr(b, s2)`: the first `strtok(NULL, s2)`, `beginBlob=false`, an
empty `v`, then the loop. -/
def eBottle.fromStr (atof : List Nat → Nat) (fuel : Nat) (b : eBottle)
    (tokens : List (List Nat)) : Option (eBottle × List (List Nat)) :=
  eBottle.fromStrLoop atof fuel b false [] tokens

/-- The text `s` that `fromString` builds from `txt`: `"EBOTTLE "`, then the bytes of the C
string `txt` with a space before and after each bracket. -/
def eBottle.fromStringText (txt : List Nat) : List Nat :=
  [69, 66, 79, 84, 84, 76, 69, 32] ++ spaced (c_str txt)

/-- The method `eBottle::fromString(txt)` on the Bag `b`: the first call of `strtok` takes
the first token of `s`, then `fromStr` runs on the tokens after it.  The result is the Bag
after the call. -/
def eBottle.fromString (atof : List Nat → Nat) (b : eBottle) (txt : List Nat) :
    Option eBottle :=
  (eBottle.fromStr atof ((strtokAll (eBottle.fromStringText txt)).length + 1) b
    (strtokAll (eBottle.fromStringText txt)).tail).map fun r => r.1

/-- The kind and payload that the atom branch of `fromStr` gives a token, in the words of the
specification: a String holding the token when its first byte lies in `'A'..'z'`, otherwise
a Double (`atof`) when the token contains `.`, otherwise an Int (`atoi`). -/
def atomValue (atof : List Nat → Nat) (token : List Nat) : eValue :=
  if 65 ≤ token.headD 0 ∧ token.headD 0 ≤ 122 then .STRING token
  else if 46 ∈ token then .DOUBLE (atof token)
  else .INT (atoi token)

/-- The nesting depth of parentheses after the bytes of a text, starting from depth `d`;
there is no depth once a `)` has come with nothing open. -/
def parenDepth : Nat → List Nat → Option Nat
  | d, [] => some d
  | d, c :: rest =>
    if c = 40 then parenDepth (d + 1) rest
    else if c = 41 then (if d = 0 then none else parenDepth (d - 1) rest)
    else parenDepth d rest

/-- The text of `main`, byte by byte. -/
def mainText : List Nat :=
  [49, 32, 50, 32, 51, 32, 52, 32, 40, 53, 32, 54, 46, 50, 32, 55, 32, 56, 32, 123, 54, 52, 32,
    53, 32, 54, 32, 55, 125, 32, 72, 101, 108, 108, 111, 41, 40, 87, 111, 114, 108, 100, 32, 49,
    32, 50, 32, 51, 32, 32, 32, 32, 41, 32, 123, 32, 52, 32, 53, 32, 54, 32, 55, 32, 56, 55,
    125, 32, 40, 53, 32, 54, 32, 51, 46, 50, 41, 32, 49, 32, 50, 32, 52, 32, 123, 53, 32, 54,
    32, 55, 125, 32, 40, 51, 32, 52, 32, 53, 41, 32, 49]

/-- A stand-in for `atof` on the numbers of the examples: `6.2`, `3.2`, `1.5` and `0.5` give
their bit patterns, any other token gives the pattern of `0.0`. -/
def atofExamples (token : List Nat) : Nat :=
  if token = [54, 46, 50] then 4618666597849812173
  else if token = [51, 46, 50] then 4614388178203810202
  else if token = [49, 46, 53] then 4609434218613702656
  else if token = [48, 46, 53] then 4602678819172646912
  else 0

/-- The nesting depth of parentheses after a run of tokens, starting from depth `d`: a token
that begins with `(` opens, one that begins with `)` closes; there is no depth once a `)` has
come with nothing open. -/
def tokenDepth : Nat → List (List Nat) → Option Nat
  | d, [] => some d
  | d, t :: rest =>
    if t.headD 0 = 40 then tokenDepth (d + 1) rest
    else if t.headD 0 = 41 then (if d = 0 then none else tokenDepth (d - 1) rest)
    else tokenDepth d rest

/-- The result of a parsing call placed after the elements that the Bag `b` holds already. -/
def eBottle.onto (b : eBottle) (r : eBottle × List (List Nat)) : eBottle × List (List Nat) :=
  (.mk (b.values ++ r.1.values), r.2)

/-! ## Objects on the heap

The cells that `new` makes, with the pointers between them, for the claims on what two Bags
share.  A heap is the list of its cells in the order of allocation; the address of a cell is
its index, and a cell that `delete` has released is `none`.  A call has the result `none`
when it does not return normally: it reads, writes or releases a cell that is released or is
of another kind (undefined behaviour), `at(i)` throws, or `fuel` is used up. -/

/-- One object made by `new`: an `int`, a `double` (bit pattern), a `char[]`, a
`std::string`, an `eValue` (`type` and the pointer `value`), an `eBottle` (the pointers in
`values`, and `toBinaryPointer`, which is `none` when NULL), or an `eValue` from the default
constructor, whose members are not initialised. -/
inductive Cell where
  | int (i : Int)
  | double (d : Nat)
  | chars (blob : List Nat)
  | string (s : List Nat)
  | value (type : Int) (value : Nat)
  | bottle (values : List Nat) (toBinaryPointer : Option Nat)
  | raw

/-- The heap: the cells by address; `none` is a released cell. -/
abbrev Heap := List (Option Cell)

/-- The pointers that a cell holds. -/
def Cell.ptrs : Cell → List Nat
  | .value _ q => [q]
  | .bottle vs tp => vs ++ tp.toList
  | _ => []

/-- Reading the object at an address; there is none at an address never allocated or
released. -/
def Heap.read (h : Heap) (a : Nat) : Option Cell :=
  (h.get? a).join

/-- The expression `new`: the heap with the new object, and its address. -/
def Heap.alloc (h : Heap) (cell : Cell) : Heap × Nat :=
  (h ++ [some cell], h.length)

/-- Writing the members of the object at an address. -/
def Heap.write (h : Heap) (a : Nat) (cell : Cell) : Option Heap :=
  (h.read a).map fun _ => h.set a (some cell)

/-- The expression `delete` on the object at an address. -/
def Heap.free (h : Heap) (a : Nat) : Option Heap :=
  (h.read a).map fun _ => h.set a none

/-- The typed constructors of `eValue` under `new`: the payload is made by `new`, then the
`eValue` holding `type` and the pointer to it. -/
def Heap.newValue (h : Heap) (type : Int) (payload : Cell) : Heap × Nat :=
  (h.alloc payload).1.alloc (.value type (h.alloc payload).2)

/-- The call `values.push_back(p)` on the eBottle at `this`. -/
def Heap.push_back (h : Heap) (this p : Nat) : Option Heap :=
  match h.read this with
  | some (.bottle values tp) => h.write this (.bottle (values ++ [p]) tp)
  | _ => none

/-- The method `eBottle::addInt` on the eBottle at `this`. -/
def Heap.addInt (h : Heap) (this : Nat) (i : Int) : Option Heap :=
  (h.newValue 1 (.int i)).1.push_back this (h.newValue 1 (.int i)).2

/-- The method `eBottle::addDouble` on the eBottle at `this`. -/
def Heap.addDouble (h : Heap) (this : Nat) (d : Nat) : Option Heap :=
  (h.newValue 2 (.double d)).1.push_back this (h.newValue 2 (.double d)).2

/-- The method `eBottle::addBlob` on the eBottle at `this`. -/
def Heap.addBlob (h : Heap) (this : Nat) (q : List Nat) : Option Heap :=
  (h.newValue 3 (.chars q)).1.push_back this (h.newValue 3 (.chars q)).2

/-- The method `eBottle::addString` on the eBottle at `this`. -/
def Heap.addString (h : Heap) (this : Nat) (s : List Nat) : Option Heap :=
  (h.newValue 5 (.string (c_str s))).1.push_back this (h.newValue 5 (.string (c_str s))).2

/-- The methods `eBottle::addList` / `eBottle::addListPtr` on the eBottle at `this`: the heap
after the call and the address of the new nested eBottle. -/
def Heap.addListPtr (h : Heap) (this : Nat) : Option (Heap × Nat) :=
  ((h.newValue 4 (.bottle [] none)).1.push_back this
    (h.newValue 4 (.bottle [] none)).2).map fun h1 => (h1, (h.alloc (.bottle [] none)).2)

/-- The statement `delete toBinaryPointer` in the eBottle at `b`; on NULL it does nothing. -/
def Heap.deleteScratch (h : Heap) (b : Nat) : Option Heap :=
  match h.read b with
  | some (.bottle _ (some scratch)) => h.free scratch
  | some (.bottle _ none) => some h
  | _ => none

mutual
/-- The expression `delete p` on an `eValue`: the destructor releases the payload according
to `type` (for a list by the destructor of `eBottle`: the loop, then `delete
toBinaryPointer`), then the object is released.  `fuel` bounds the calls. -/
def Heap.deleteValue : Nat → Heap → Nat → Option Heap
  | 0, _, _ => none
  | fuel + 1, h, p =>
    match h.read p with
    | some (.value type value) =>
      if type = 4 then
        (Heap.deleteLoop fuel h value 0).bind fun h1 =>
        (h1.deleteScratch value).bind fun h2 =>
        (h2.free value).bind fun h3 => h3.free p
      else if type = 1 ∨ type = 2 ∨ type = 3 ∨ type = 5 then
        (h.free value).bind fun h1 => h1.free p
      else h.free p
    | _ => none
/-- The loop `for (i ...; i<values.size(); ...) delete values.at(i)` of `clear()` and of the
destructor, from index `i` on, on the eBottle at `b`. -/
def Heap.deleteLoop : Nat → Heap → Nat → Nat → Option Heap
  | 0, _, _, _ => none
  | fuel + 1, h, b, i =>
    match h.read b with
    | some (.bottle values _) =>
      match values.get? i with
      | some p => (Heap.deleteValue fuel h p).bind fun h1 => Heap.deleteLoop fuel h1 b (i + 1)
      | none => some h
    | _ => none
end

/-- The method `eBottle::clear` on the eBottle at `this`: the loop, `delete toBinaryPointer`,
then `values.clear()`; the member `toBinaryPointer` keeps its value. -/
def Heap.clear (fuel : Nat) (h : Heap) (this : Nat) : Option Heap :=
  (Heap.deleteLoop fuel h this 0).bind fun h1 =>
  (h1.deleteScratch this).bind fun h2 =>
  match h2.read this with
  | some (.bottle _ tp) => h2.write this (.bottle [] tp)
  | _ => none

mutual
/-- The operator `eBottle::operator=` on the eBottle at `this`, from the one at `p`:
`clear()`, then the loop. -/
def Heap.opAssign : Nat → Heap → Nat → Nat → Option Heap
  | 0, _, _, _ => none
  | fuel + 1, h, this, p =>
    (Heap.clear fuel h this).bind fun h1 => Heap.assignLoop fuel h1 this p 0
termination_by structural fuel => fuel
/-- The loop of `eBottle::operator=` from index `i` on. -/
def Heap.assignLoop : Nat → Heap → Nat → Nat → Nat → Option Heap
  | 0, _, _, _, _ => none
  | fuel + 1, h, this, p, i =>
    match h.read p with
    | some (.bottle values _) =>
      match values.get? i with
      | none => some h
      | some pv =>
        match h.read pv with
        | some (.value type value) =>
          (if type = 1 then
            match h.read value with
            | some (.int x) => h.addInt this x
            | _ => none
          else if type = 2 then
            match h.read value with
            | some (.double d) => h.addDouble this d
            | _ => none
          else if type = 3 then
            match h.read value with
            | some (.chars blob) => h.addBlob this blob
            | _ => none
          else if type = 4 then
            (h.addListPtr this).bind fun r => Heap.opAssign fuel r.1 r.2 value
          else if type = 5 then
            match h.read value with
            | some (.string s) => h.addString this (c_str s)
            | _ => none
          else some h).bind fun h1 => Heap.assignLoop fuel h1 this p (i + 1)
        | _ => none
    | _ => none
termination_by structural fuel => fuel
end

mutual
/-- The method `eBottle::copy` on the eBottle at `this`, from the one at `p`: `clear()`, then
the loop. -/
def Heap.copy : Nat → Heap → Nat → Nat → Option Heap
  | 0, _, _, _ => none
  | fuel + 1, h, this, p =>
    (Heap.clear fuel h this).bind fun h1 => Heap.copyLoop fuel h1 this p 0
termination_by structural fuel => fuel
/-- The loop of `eBottle::copy` from index `i` on. -/
def Heap.copyLoop : Nat → Heap → Nat → Nat → Nat → Option Heap
  | 0, _, _, _, _ => none
  | fuel + 1, h, this, p, i =>
    match h.read p with
    | some (.bottle values _) =>
      match values.get? i with
      | none => some h
      | some pv =>
        match h.read pv with
        | some (.value type value) =>
          (if type = 1 then
            match h.read value with
            | some (.int x) => h.addInt this x
            | _ => none
          else if type = 2 then
            match h.read value with
            | some (.double d) => h.addDouble this d
            | _ => none
          else if type = 3 then
            match h.read value with
            | some (.chars blob) => h.addBlob this blob
            | _ => none
          else if type = 4 then
            (h.addListPtr this).bind fun r => Heap.copy fuel r.1 r.2 value
          else if type = 5 then
            match h.read value with
            | some (.string s) => h.addString this (c_str s)
            | _ => none
          else some h).bind fun h1 => Heap.copyLoop fuel h1 this p (i + 1)
        | _ => none
    | _ => none
termination_by structural fuel => fuel
end

/-- The copy constructor `eBottle::eBottle(const eBottle & eb)` under `new`: the heap after
the call and the address of the new eBottle. -/
def Heap.copyCtor (fuel : Nat) (h : Heap) (eb : Nat) : Option (Heap × Nat) :=
  (Heap.copy fuel (h.alloc (.bottle [] none)).1 (h.alloc (.bottle [] none)).2 eb).map
    fun h1 => (h1, (h.alloc (.bottle [] none)).2)

/-- The operator `eValue::operator=` on the `eValue` at `this`, from the one at `p`: the
payload is made anew according to `type`.  There is no result for a `type` outside the
enumeration, where `value` is left as it was. -/
def Heap.assignValue (fuel : Nat) (h : Heap) (this p : Nat) : Option Heap :=
  match h.read p with
  | some (.value type value) =>
    if type = 1 then
      match h.read value with
      | some (.int x) => (h.alloc (.int x)).1.write this (.value type (h.alloc (.int x)).2)
      | _ => none
    else if type = 4 then
      (Heap.opAssign fuel (h.alloc (.bottle [] none)).1 (h.alloc (.bottle [] none)).2
        value).bind fun h1 => h1.write this (.value type (h.alloc (.bottle [] none)).2)
    else if type = 2 then
      match h.read value with
      | some (.double d) =>
        (h.alloc (.double d)).1.write this (.value type (h.alloc (.double d)).2)
      | _ => none
    else if type = 3 then
      match h.read value with
      | some (.chars blob) =>
        (h.alloc (.chars blob)).1.write this (.value type (h.alloc (.chars blob)).2)
      | _ => none
    else if type = 5 then
      match h.read value with
      | some (.string s) =>
        (h.alloc (.string (c_str s))).1.write this
          (.value type (h.alloc (.string (c_str s))).2)
      | _ => none
    else none
  | _ => none

/-- The two overloads of `eBottle::add` on the eBottle at `this`, from the `eValue` at
`yv`. -/
def Heap.add (fuel : Nat) (h : Heap) (this yv : Nat) : Option Heap :=
  (Heap.assignValue fuel (h.alloc .raw).1 (h.alloc .raw).2 yv).bind fun h1 =>
    h1.push_back this (h.alloc .raw).2

/-- The method `eBottle::insert` on the eBottle at `this`, from the `eValue` at `p`; there
is no result for an index past the end. -/
def Heap.insert (fuel : Nat) (h : Heap) (this p i : Nat) : Option Heap :=
  (Heap.assignValue fuel (h.alloc .raw).1 (h.alloc .raw).2 p).bind fun h1 =>
    match h1.read this with
    | some (.bottle values tp) =>
      if i ≤ values.length then
        h1.write this (.bottle (values.take i ++ (h.alloc .raw).2 :: values.drop i) tp)
      else none
    | _ => none

/-- The method `eBottle::remove` on the eBottle at `this`; there is no result when
`values.at(i)` throws. -/
def Heap.remove (fuel : Nat) (h : Heap) (this i : Nat) : Option Heap :=
  match h.read this with
  | some (.bottle values tp) =>
    match values.get? i with
    | some p => (Heap.deleteValue fuel h p).bind fun h1 =>
        h1.write this (.bottle (values.eraseIdx i) tp)
    | none => none
  | _ => none

/-- The accessor chain `get(i).asList()` on the eBottle at `this`: the address of the nested
eBottle; there is none when element `i` is absent or is no list. -/
def Heap.asListAt (h : Heap) (this i : Nat) : Option Nat :=
  match h.read this with
  | some (.bottle values _) =>
    match values.get? i with
    | some p =>
      match h.read p with
      | some (.value type value) => if type = 4 then some value else none
      | _ => none
    | none => none
  | _ => none

/-- The nested eBottle reached from the one at `this` by `get(i).asList()` along a path of
indices. -/
def Heap.nested (h : Heap) : Nat → List Nat → Option Nat
  | this, [] => some this
  | this, i :: path => (h.asListAt this i).bind fun q => Heap.nested h q path

/-- One mutating call on an eBottle; `add` and `insert` name the `eValue` they copy by its
address. -/
inductive Mutation where
  | addInt (i : Int)
  | addDouble (d : Nat)
  | addString (s : List Nat)
  | addBlob (q : List Nat)
  | addList
  | add (yv : Nat)
  | insert (yv : Nat) (i : Nat)
  | remove (i : Nat)
  | clear

/-- The heap after one mutating call on the eBottle at `this`. -/
def Heap.mutate (fuel : Nat) (h : Heap) (this : Nat) : Mutation → Option Heap
  | .addInt i => h.addInt this i
  | .addDouble d => h.addDouble this d
  | .addString s => h.addString this s
  | .addBlob q => h.addBlob this q
  | .addList => (h.addListPtr this).map fun r => r.1
  | .add yv => Heap.add fuel h this yv
  | .insert yv i => Heap.insert fuel h this yv i
  | .remove i => Heap.remove fuel h this i
  | .clear => Heap.clear fuel h this

/-- The heap after a sequence of mutating calls, each on the eBottle at `c` or on a nested one
reached from it along a path. -/
def Heap.mutateAll (fuel : Nat) (h : Heap) (c : Nat) : List (List Nat × Mutation) → Option Heap
  | [] => some h
  | m :: rest =>
    (h.nested c m.1).bind fun this =>
    (Heap.mutate fuel h this m.2).bind fun h1 => Heap.mutateAll fuel h1 c rest

/-- The three ways to a copy: the copy constructor, or `copy()` or `operator=` on an eBottle
that exists at `c`. -/
inductive CopyWay where
  | ctor
  | copy (c : Nat)
  | assign (c : Nat)

/-- The heap after making a copy of the eBottle at `b`, and the address of the copy. -/
def Heap.copyOf (fuel : Nat) (h : Heap) (b : Nat) : CopyWay → Option (Heap × Nat)
  | .ctor => Heap.copyCtor fuel h b
  | .copy c => (Heap.copy fuel h c b).map fun h1 => (h1, c)
  | .assign c => (Heap.opAssign fuel h c b).map fun h1 => (h1, c)

/-- The destination of a copy, when it exists beforehand. -/
def CopyWay.into : CopyWay → Option Nat
  | .ctor => none
  | .copy c => some c
  | .assign c => some c

/-- The `eValue` that the pointers from the `eValue` object at `p` show, as `getType()` and the
`as...()` accessors read it; nested lists use up `depth`. -/
def Heap.valueAt : Nat → Heap → Nat → Option eValue
  | 0, _, _ => none
  | depth + 1, h, p =>
    match h.read p with
    | some (.value type value) =>
      match h.read value with
      | some (.int i) => if type = 1 then some (.INT i) else none
      | some (.double d) => if type = 2 then some (.DOUBLE d) else none
      | some (.chars blob) => if type = 3 then some (.CHARP blob) else none
      | some (.string s) => if type = 5 then some (.STRING s) else none
      | some (.bottle values _) =>
        if type = 4 then
          (values.mapM (Heap.valueAt depth h)).map fun l => .BOTTLE (.mk l)
        else none
      | _ => none
    | _ => none

/-- The Bag that the pointers from the eBottle object at `this` show. -/
def Heap.bagAt (depth : Nat) (h : Heap) (this : Nat) : Option eBottle :=
  match h.read this with
  | some (.bottle values _) => (values.mapM (Heap.valueAt depth h)).map .mk
  | _ => none

/-- The method `eBottle::toBinary(int *size)` on the eBottle at `this`: `fill` reads the
elements through `getPtr` and the accessors, so it encodes the Bag that the pointers show.
The result is the bytes with `*size`, and the heap after the call, where `toBinaryPointer`
is the buffer from `new char[global_size]`. -/
def Heap.toBinary (depth : Nat) (h : Heap) (this : Nat) (fresh : Nat → Nat) :
    Option ((List Nat × Int) × Heap) :=
  (Heap.bagAt depth h this).bind fun b =>
  (b.toBinaryOwned fresh).bind fun r =>
  match h.read this with
  | some (.bottle values _) =>
    ((h.alloc (.chars r.1)).1.write this (.bottle values (some (h.alloc (.chars r.1)).2))).map
      fun k => (r, k)
  | _ => none

/-- The pointers held at an address. -/
def Heap.ptrsAt (h : Heap) (a : Nat) : List Nat :=
  match h.read a with
  | some cell => cell.ptrs
  | none => []

/-- The cells at the addresses `F` are owned from inside: they are allocated, their pointers
stay in `F`, and no cell outside `F` points into `F`. -/
def Heap.Owns (h : Heap) (F : List Nat) : Prop :=
  (∀ a ∈ F, a < h.length ∧ ∀ q ∈ h.ptrsAt a, q ∈ F) ∧
  ∀ a, a < h.length → a ∉ F → ∀ q ∈ h.ptrsAt a, q ∉ F

instance (h : Heap) (F : List Nat) : Decidable (h.Owns F) := by
  unfold Heap.Owns; exact inferInstance

/-- The addresses `F` are allocated and no cell outside `F` points into `F`. -/
def Heap.Apart (h : Heap) (F : List Nat) : Prop :=
  (∀ a ∈ F, a < h.length) ∧
  ∀ a cell, a ∉ F → h.read a = some cell → ∀ q ∈ cell.ptrs, q ∉ F

/-- From `h` to `k` the cells at `F` are as they were, and `F` is still apart. -/
def Heap.Keeps (F : List Nat) (h k : Heap) : Prop :=
  k.Apart F ∧ ∀ a ∈ F, k.read a = h.read a

/-- A small heap for the examples: the Bag `7 (8)` at address 0 with its cells at 0..6, and at
address 7 an eBottle without elements whose `toBinaryPointer` is the buffer at address 8. -/
def heapExample : Heap :=
  [some (.bottle [2, 4] none), some (.int 7), some (.value 1 1), some (.bottle [6] none),
   some (.value 4 3), some (.int 8), some (.value 1 5), some (.bottle [] (some 8)),
   some (.chars [0, 0, 0, 0])]


/-- The heap after `operator=` on the eBottle at 7 from the Bag at 0, and the address of the
copy; `clear()` has released the buffer at 8. -/
def heapExampleCopy : Heap × Nat :=
  ([some (.bottle [2, 4] none), some (.int 7), some (.value 1 1), some (.bottle [6] none),
    some (.value 4 3), some (.int 8), some (.value 1 5), some (.bottle [10, 12] (some 8)),
    none, some (.int 7), some (.value 1 9), some (.bottle [14] none), some (.value 4 11),
    some (.int 8), some (.value 1 13)], 7)

/-- A sequence of calls on the copy and on its nested Bags, with every kind of call. -/
def mutationsExample : List (List Nat × Mutation) :=
  [([1], .addInt 9), ([], .remove 0), ([0], .add 2), ([], .insert 4 1), ([], .addDouble 3),
   ([1], .clear), ([], .addList), ([3], .addString [104, 105]), ([], .addBlob [1, 2])]

/-- The heap after those calls. -/
def heapExampleEnd : Heap :=
  [some (.bottle [2, 4] none), some (.int 7), some (.value 1 1), some (.bottle [6] none),
   some (.value 4 3), some (.int 8), some (.value 1 5),
   some (.bottle [12, 19, 24, 26, 30] (some 8)), none, none, none,
   some (.bottle [14, 16, 17] none), some (.value 4 11), some (.int 8), some (.value 1 13),
   some (.int 9), some (.value 1 15), some (.value 1 18), some (.int 7), some (.value 4 20),
   some (.bottle [] none), none, none, some (.double 3), some (.value 2 23),
   some (.bottle [28] none), some (.value 4 25), some (.string [104, 105]),
   some (.value 5 27), some (.chars [1, 2]), some (.value 3 29)]

/-- A heap with two Bags: `7 (8)` at address 0 with its cells at 0..6, and `1 2` at address 7
with its cells at 7..11; both have a `NULL` `toBinaryPointer`. -/
def heapTwo : Heap :=
  [some (.bottle [2, 4] none), some (.int 7), some (.value 1 1), some (.bottle [6] none),
   some (.value 4 3), some (.int 8), some (.value 1 5), some (.bottle [9, 11] none),
   some (.int 1), some (.value 1 8), some (.int 2), some (.value 1 10)]

/-- The heap after `toBinary(int *size)` on the Bag `1 2` at address 7: its
`toBinaryPointer` is the buffer at address 12. -/
def heapTwoBuffer : Heap :=
  [some (.bottle [2, 4] none), some (.int 7), some (.value 1 1), some (.bottle [6] none),
   some (.value 4 3), some (.int 8), some (.value 1 5), some (.bottle [9, 11] (some 12)),
   some (.int 1), some (.value 1 8), some (.int 2), some (.value 1 10),
   some (.chars [2, 0, 0, 0, 1, 0, 0, 0, 1, 0, 0, 0, 1, 0, 0, 0, 2, 0, 0, 0])]

/-- The heap after `operator=` on the eBottle at 7 from the Bag at 0, next: `clear()` has
released the elements and the buffer at 12, which `toBinaryPointer` still points at. -/
def heapTwoAssigned : Heap :=
  [some (.bottle [2, 4] none), some (.int 7), some (.value 1 1), some (.bottle [6] none),
   some (.value 4 3), some (.int 8), some (.value 1 5), some (.bottle [14, 16] (some 12)),
   none, none, none, none, none, some (.int 7), some (.value 1 13), some (.bottle [18] none),
   some (.value 4 15), some (.int 8), some (.value 1 17)]

mutual
/-- A bound on the `fuel` that `Heap.copy` uses on a source showing the Bag: one for the call,
then the loop. -/
def eBottle.copyFuel : eBottle → Nat
  | .mk values => eBottle.copyLoopFuel values + 1
/-- A bound on the `fuel` that the loop of `Heap.copy` uses over the elements. -/
def eBottle.copyLoopFuel : List eValue → Nat
  | [] => 1
  | .INT _ :: rest => eBottle.copyLoopFuel rest + 1
  | .DOUBLE _ :: rest => eBottle.copyLoopFuel rest + 1
  | .CHARP _ :: rest => eBottle.copyLoopFuel rest + 1
  | .BOTTLE q :: rest => eBottle.copyFuel q + eBottle.copyLoopFuel rest + 1
  | .STRING _ :: rest => eBottle.copyLoopFuel rest + 1
end

/-! ## The member `size`, and the last byte that the printer reads -/

/-- The method `eValue::getSize`: the member `size`.  Among the constructors only
`eValue(const char * p, const unsigned int size_p)` writes it (`size = size_p`), and
`operator=` copies it from its source; `none` stands for a member that nothing has written,
whose value is indeterminate. -/
def eValue.getSize : eValue → Option Nat
  | .CHARP blob => some blob.length
  | _ => none

/-- The index of the byte that the case `CHARP` of `fillString` reads last, `elem[j]` after
the loop `for (j=0; j<getSize()-1; j++)`: the bound `getSize()-1`, computed in
`unsigned int`. -/
def eBottle.blobLastIndex (size : Nat) : Nat :=
  toUInt32 ((size : Int) - 1)

/-! ## Appending a Bag to itself -/

/-- The loop of `eBottle::append` on the eBottle at `this`, with the argument at `yb`, from
index `i` on: `for (unsigned int i ...; i<yb.count(); i++) this->add(yb.getPtr(i))`.  The
bound `yb.count()` is read at every turn and is the number of elements as an `unsigned int`;
`fuel` bounds the calls. -/
def Heap.appendLoop : Nat → Heap → Nat → Nat → Nat → Option Heap
  | 0, _, _, _, _ => none
  | fuel + 1, h, this, yb, i =>
    match h.read yb with
    | some (.bottle values _) =>
      if i < values.length % 4294967296 then
        match values.get? i with
        | some p =>
          (Heap.add fuel h this p).bind fun h1 =>
            Heap.appendLoop fuel h1 this yb ((i + 1) % 4294967296)
        | none => none
      else some h
    | _ => none
termination_by structural fuel => fuel

/-- The method `eBottle::append` on the eBottle at `this`, with the argument at `yb`, which
may be the same object. -/
def Heap.append (fuel : Nat) (h : Heap) (this yb : Nat) : Option Heap :=
  Heap.appendLoop fuel h this yb 0

/-- The number of elements in the member `values` of the eBottle at `this`. -/
def Heap.valuesLength (h : Heap) (this : Nat) : Option Nat :=
  match h.read this with
  | some (.bottle values _) => some values.length
  | _ => none

/-- A heap with the Bag `7` at address 0. -/
def heapSeven : Heap :=
  [some (.bottle [2] none), some (.int 7), some (.value 1 1)]

/-- The heap after three turns of the loop of `append` on `heapSeven` with the Bag at 0 as its
own argument: the Bag shows `7 7 7 7`. -/
def heapSevenThree : Heap :=
  [some (.bottle [2, 3, 5, 7] none), some (.int 7), some (.value 1 1), some (.value 1 4),
   some (.int 7), some (.value 1 6), some (.int 7), some (.value 1 8), some (.int 7)]

/-! ## Texts with other spacing, printed numbers, and the fragment of the text round trip -/

/-- A text with every run of spaces replaced by a single space: a space that another space
follows is dropped. -/
def squeeze : List Nat → List Nat
  | [] => []
  | c :: rest => if c = 32 ∧ rest.head? = some 32 then squeeze rest else c :: squeeze rest

/-- A text that the tokenizer returns whole as one token and that stands for itself in a C
string: it is not empty and holds no NUL, no space and none of `(`, `)`, `{`, `}`. -/
def plainToken (t : List Nat) : Bool :=
  !t.isEmpty && t.all fun c => c != 0 && c != 32 && !isBracket c

/-- A stand-in for `ostream << ` on a `double` with the default format (six significant
digits, no point and no zeros after a whole number) on the numbers of the examples, by bit
pattern: `0.5` is written `0.5` and `5.0` is written `5`; the text for any other pattern
is `?`. -/
def fmtExamples (d : Nat) : List Nat :=
  if d = 4602678819172646912 then [48, 46, 53]
  else if d = 4617315517961601024 then [53]
  else [63]

mutual
/-- A value of the fragment without blobs and doubles: an Int, a String that is not empty,
starts with a byte in `'A'..'z'` and holds no space and no bracket, or a nested Bag of the
fragment. -/
def eValue.inFragment : eValue → Bool
  | .INT _ => true
  | .DOUBLE _ => false
  | .CHARP _ => false
  | .BOTTLE q => eBottle.inFragment q
  | .STRING s =>
    !s.isEmpty && decide (65 ≤ s.headD 0 ∧ s.headD 0 ≤ 122) &&
      s.all fun c => c != 32 && !isBracket c
/-- A Bag of the fragment: all its elements are, at any depth. -/
def eBottle.inFragment : eBottle → Bool
  | .mk values => eBottle.elemsInFragment values
/-- Elements of the fragment. -/
def eBottle.elemsInFragment : List eValue → Bool
  | [] => true
  | v :: rest => v.inFragment && eBottle.elemsInFragment rest
end

mutual
/-- The tokens of the text of one element of the fragment: the decimal text of an Int, the
bytes of a String, and for a nested Bag `(`, its tokens, `)`. -/
def eValue.tokens : eValue → List (List Nat)
  | .INT i => [decimal i]
  | .DOUBLE _ => []
  | .CHARP _ => []
  | .BOTTLE q => [40] :: (eBottle.tokens q ++ [[41]])
  | .STRING s => [s]
/-- The tokens of the text of a Bag of the fragment. -/
def eBottle.tokens : eBottle → List (List Nat)
  | .mk values => eBottle.elemsTokens values
/-- The tokens of the texts of the elements, in order. -/
def eBottle.elemsTokens : List eValue → List (List Nat)
  | [] => []
  | v :: rest => v.tokens ++ eBottle.elemsTokens rest
end
/-! ## Bytes and offsets -/

theorem le_length (n x : Nat) : (le n x).length = n := by
  induction n generalizing x with
  | zero => rfl
  | succ n ih => simp [le, ih]

theorem unle_le (n x : Nat) : unle (le n x) = x % 256 ^ n := by
  induction n generalizing x with
  | zero => simp [le, unle, Nat.mod_one]
  | succ n ih =>
    simp only [le, unle, ih]
    rw [pow_succ, Nat.mul_comm (256 ^ n) 256, Nat.mod_mul]

theorem int32Bytes_length (x : Int) : (int32Bytes x).length = 4 := by
  simp [int32Bytes, le_length]

theorem doubleBytes_length (d : Nat) : (doubleBytes d).length = 8 := by
  simp [doubleBytes, le_length]

theorem toInt32_of_range (x : Int) (h1 : -2147483648 ≤ x) (h2 : x ≤ 2147483647) :
    toInt32 x = x := by
  unfold toInt32
  omega

theorem toInt32_unle_int32Bytes (i : Int) (h1 : -2147483648 ≤ i) (h2 : i ≤ 2147483647) :
    toInt32 (unle (int32Bytes i)) = i := by
  simp only [int32Bytes, unle_le, toUInt32, toInt32]
  omega

theorem unle_int32Bytes_nat (n : Nat) (h : n ≤ 2147483647) :
    unle (int32Bytes (n : Int)) = n := by
  simp only [int32Bytes, unle_le, toUInt32]
  omega

theorem unle_doubleBytes (d : Nat) (h : d < 18446744073709551616) :
    unle (doubleBytes d) = d := by
  simp only [doubleBytes, unle_le]
  omega

theorem int32Bytes_toInt32 (x : Int) : int32Bytes (toInt32 x) = int32Bytes x := by
  have : toUInt32 (toInt32 x) = toUInt32 x := by
    simp only [toUInt32, toInt32]
    omega
  simp [int32Bytes, this]

theorem readBytes_frame (p front bs back : List Nat) (hp : p = front ++ (bs ++ back)) :
    readBytes p (front.length : Int) bs.length = some bs := by
  subst hp
  simp [readBytes]

theorem readInt_frame (p front back : List Nat) (i : Int) (hp : p = front ++ (int32Bytes i ++ back))
    (h1 : -2147483648 ≤ i) (h2 : i ≤ 2147483647) :
    readInt p (front.length : Int) = some i := by
  have h := readBytes_frame p front (int32Bytes i) back hp
  rw [int32Bytes_length] at h
  simp [readInt, h, toInt32_unle_int32Bytes i h1 h2]

theorem c_str_append_nul (s more : List Nat) (hs : s.all (fun c => c != 0) = true) :
    c_str (s ++ 0 :: more) = s := by
  induction s with
  | nil => simp [c_str]
  | cons c s ih =>
    simp only [List.all_cons, Bool.and_eq_true] at hs
    have := ih hs.2
    simp only [c_str] at this ⊢
    simp [List.takeWhile, hs.1, this]

theorem c_str_of_nulFree (s : List Nat) (hs : s.all (fun c => c != 0) = true) : c_str s = s := by
  induction s with
  | nil => simp [c_str]
  | cons c s ih =>
    simp only [List.all_cons, Bool.and_eq_true] at hs
    have := ih hs.2
    simp only [c_str] at this ⊢
    simp [List.takeWhile, hs.1, this]

theorem readCStr_frame (p front s more : List Nat) (hp : p = front ++ (s ++ 0 :: more))
    (hs : s.all (fun c => c != 0) = true) :
    readCStr p (front.length : Int) = some s := by
  subst hp
  simp [readCStr, strlen, c_str_append_nul s more hs]

theorem writeAt_zero (rest bs : List Nat) (h : bs.length ≤ rest.length) :
    writeAt rest 0 bs = some (bs ++ rest.drop bs.length) := by
  induction bs generalizing rest with
  | nil => cases rest <;> simp [writeAt]
  | cons b bs ih =>
    cases rest with
    | nil => simp at h
    | cons x rest =>
      simp only [List.length_cons, Nat.add_le_add_iff_right] at h
      simp [writeAt, ih rest h]

theorem writeAt_append (front rest bs : List Nat) :
    writeAt (front ++ rest) front.length bs = (writeAt rest 0 bs).map fun q => front ++ q := by
  induction front with
  | nil => simp
  | cons x front ih =>
    have hstep : writeAt (x :: (front ++ rest)) (front.length + 1) bs
        = (writeAt (front ++ rest) front.length bs).map fun q => x :: q := by
      simp only [writeAt]
    rw [List.cons_append, List.length_cons, hstep, ih, Option.map_map]
    rfl

theorem store_frame (front rest bs : List Nat) (h : bs.length ≤ rest.length) :
    store (some (front ++ rest)) (front.length : Int) bs
      = some (some (front ++ bs ++ rest.drop bs.length)) := by
  simp only [store, writeBytes]
  rw [if_pos (by omega)]
  simp [writeAt_append, writeAt_zero rest bs h]

/-! ## The encoder against the layout -/

mutual
theorem eValue.wireBody_length : ∀ v : eValue, v.wireBody.length = v.bodySize
  | .INT _ => by simp [eValue.wireBody, eValue.bodySize, int32Bytes_length]
  | .DOUBLE _ => by simp [eValue.wireBody, eValue.bodySize, doubleBytes_length]
  | .CHARP _ => by simp [eValue.wireBody, eValue.bodySize, int32Bytes_length]
  | .BOTTLE q => by
    simp only [eValue.wireBody, eValue.bodySize]
    exact eBottle.wire_length q
  | .STRING _ => by
    simp [eValue.wireBody, eValue.bodySize, int32Bytes_length, strlen]
theorem eBottle.wire_length : ∀ b : eBottle, b.wire.length = b.wireSize
  | .mk values => by
    simp [eBottle.wire, eBottle.wireSize, int32Bytes_length, eBottle.wireElems_length values]
theorem eBottle.wireElems_length : ∀ vs : List eValue,
    (eBottle.wireElems vs).length = eBottle.elemsSize vs
  | [] => by simp [eBottle.wireElems, eBottle.elemsSize]
  | v :: rest => by
    simp [eBottle.wireElems, eBottle.elemsSize, int32Bytes_length, eValue.wireBody_length v,
      eBottle.wireElems_length rest]
    omega
end

mutual
theorem eBottle.fillCase_measure : ∀ (v : eValue) (n : Nat), n + v.bodySize ≤ 2147483647 →
    eBottle.fillCase v (n : Int) none = some (((n + v.bodySize : Nat) : Int), none)
  | .INT _, n, h => by
    simp only [eValue.bodySize] at h
    simp only [eBottle.fillCase, store, Option.some_bind, eValue.bodySize]
    rw [toInt32_of_range _ (by omega) (by omega)]
    simp
  | .DOUBLE _, n, h => by
    simp only [eValue.bodySize] at h
    simp only [eBottle.fillCase, store, Option.some_bind, eValue.bodySize]
    rw [toInt32_of_range _ (by omega) (by omega)]
    simp
  | .CHARP blob, n, h => by
    simp only [eValue.bodySize] at h
    simp only [eBottle.fillCase, store, Option.some_bind, eValue.bodySize]
    rw [toInt32_of_range ((n : Int) + 4) (by omega) (by omega)]
    rw [toInt32_of_range _ (by omega) (by omega)]
    simp; omega
  | .BOTTLE q, n, h => by
    simp only [eValue.bodySize] at h
    simp only [eBottle.fillCase, eValue.bodySize]
    exact eBottle.fill_measure q n h
  | .STRING str, n, h => by
    simp only [eValue.bodySize] at h
    simp only [eBottle.fillCase, store, Option.some_bind, eValue.bodySize]
    rw [toInt32_of_range ((n : Int) + 4) (by omega) (by omega)]
    rw [toInt32_of_range ((strlen str : Int) + 1) (by omega) (by omega)]
    rw [toInt32_of_range _ (by omega) (by omega)]
    simp; omega
theorem eBottle.fill_measure : ∀ (b : eBottle) (n : Nat), n + b.wireSize ≤ 2147483647 →
    b.fill (n : Int) none = some (((n + b.wireSize : Nat) : Int), none)
  | .mk values, n, h => by
    simp only [eBottle.wireSize] at h
    simp only [eBottle.fill, store, Option.some_bind, eBottle.wireSize]
    rw [toInt32_of_range _ (by omega) (by omega)]
    have := eBottle.fillLoop_measure values (n + 4) (by omega)
    rw [show ((n : Int) + 4) = ((n + 4 : Nat) : Int) by simp, this]
    simp; omega
theorem eBottle.fillLoop_measure : ∀ (vs : List eValue) (n : Nat),
    n + eBottle.elemsSize vs ≤ 2147483647 →
    eBottle.fillLoop vs (n : Int) none = some (((n + eBottle.elemsSize vs : Nat) : Int), none)
  | [], n, _ => by simp [eBottle.fillLoop, eBottle.elemsSize]
  | v :: rest, n, h => by
    simp only [eBottle.elemsSize] at h
    simp only [eBottle.fillLoop, store, Option.some_bind, eBottle.elemsSize]
    rw [toInt32_of_range _ (by omega) (by omega)]
    have h1 := eBottle.fillCase_measure v (n + 4) (by omega)
    rw [show ((n : Int) + 4) = ((n + 4 : Nat) : Int) by simp, h1]
    simp only [Option.some_bind]
    have h2 := eBottle.fillLoop_measure rest (n + 4 + v.bodySize) (by omega)
    rw [h2]
    simp; omega
end

theorem store_step (front rest bs : List Nat) (k : Nat) (hk : bs.length = k)
    (h : k ≤ rest.length) :
    store (some (front ++ rest)) (front.length : Int) bs
      = some (some ((front ++ bs) ++ rest.drop k)) := by
  subst hk
  exact store_frame front rest bs h

theorem offset_step (front bs : List Nat) (k : Int) (hk : (bs.length : Int) = k)
    (h : front.length + bs.length ≤ 2147483647) :
    toInt32 ((front.length : Int) + k) = ((front ++ bs).length : Int) := by
  subst hk
  rw [toInt32_of_range _ (by omega) (by omega)]
  simp

theorem int32Bytes_length_cast (x : Int) : ((int32Bytes x).length : Int) = 4 := by
  simp [int32Bytes_length]

theorem doubleBytes_length_cast (d : Nat) : ((doubleBytes d).length : Int) = 8 := by
  simp [doubleBytes_length]

mutual
theorem eBottle.fillCase_write : ∀ (v : eValue) (front rest : List Nat),
    v.bodySize ≤ rest.length → front.length + v.bodySize ≤ 2147483647 →
    eBottle.fillCase v (front.length : Int) (some (front ++ rest))
      = some (((front.length + v.bodySize : Nat) : Int),
          some (front ++ v.wireBody ++ rest.drop v.bodySize))
  | .INT i, front, rest, h1, h2 => by
    simp only [eValue.bodySize] at h1 h2
    simp only [eBottle.fillCase, eValue.bodySize, eValue.wireBody]
    have hs := store_step front rest (int32Bytes i) 4 (int32Bytes_length _) h1
    have ho := offset_step front (int32Bytes i) 4 (int32Bytes_length_cast _)
      (by rw [int32Bytes_length]; omega)
    rw [hs, Option.some_bind, ho]
    simp only [List.length_append, int32Bytes_length]
  | .DOUBLE d, front, rest, h1, h2 => by
    simp only [eValue.bodySize] at h1 h2
    simp only [eBottle.fillCase, eValue.bodySize, eValue.wireBody]
    have hs := store_step front rest (doubleBytes d) 8 (doubleBytes_length _) h1
    have ho := offset_step front (doubleBytes d) 8 (doubleBytes_length_cast _)
      (by rw [doubleBytes_length]; omega)
    rw [hs, Option.some_bind, ho]
    simp only [List.length_append, doubleBytes_length]
  | .CHARP blob, front, rest, h1, h2 => by
    simp only [eValue.bodySize] at h1 h2
    simp only [eBottle.fillCase, eValue.bodySize, eValue.wireBody]
    have hs := store_step front rest (int32Bytes (blob.length : Int)) 4 (int32Bytes_length _)
      (by omega)
    have ho := offset_step front (int32Bytes (blob.length : Int)) 4 (int32Bytes_length_cast _)
      (by rw [int32Bytes_length]; omega)
    have hs2 := store_step (front ++ int32Bytes (blob.length : Int)) (rest.drop 4) blob
      blob.length rfl (by rw [List.length_drop]; omega)
    have ho2 := offset_step (front ++ int32Bytes (blob.length : Int)) blob blob.length rfl
      (by rw [List.length_append, int32Bytes_length]; omega)
    rw [hs, Option.some_bind, ho, hs2, Option.some_bind, ho2]
    simp only [List.drop_drop, List.length_append, int32Bytes_length, List.append_assoc]
  | .BOTTLE q, front, rest, h1, h2 => by
    simp only [eValue.bodySize] at h1 h2
    simp only [eBottle.fillCase, eValue.bodySize, eValue.wireBody]
    exact eBottle.fill_write q front rest h1 h2
  | .STRING str, front, rest, h1, h2 => by
    simp only [eValue.bodySize] at h1 h2
    simp only [eBottle.fillCase, eValue.bodySize, eValue.wireBody]
    have hl : toInt32 ((strlen str : Int) + 1) = (strlen str : Int) + 1 :=
      toInt32_of_range _ (by omega) (by omega)
    have hs := store_step front rest (int32Bytes ((strlen str : Int) + 1)) 4
      (int32Bytes_length _) (by omega)
    have ho := offset_step front (int32Bytes ((strlen str : Int) + 1)) 4
      (int32Bytes_length_cast _) (by rw [int32Bytes_length]; omega)
    have hc : (c_str str ++ [0]).length = strlen str + 1 := by simp [strlen]
    have hs2 := store_step (front ++ int32Bytes ((strlen str : Int) + 1)) (rest.drop 4)
      (c_str str ++ [0]) (strlen str + 1) hc (by rw [List.length_drop]; omega)
    have ho2 := offset_step (front ++ int32Bytes ((strlen str : Int) + 1)) (c_str str ++ [0])
      ((strlen str : Int) + 1) (by rw [hc]; simp)
      (by rw [List.length_append, int32Bytes_length, hc]; omega)
    rw [hl, hs, Option.some_bind, ho, hs2, Option.some_bind, ho2]
    simp only [List.drop_drop, List.length_append, int32Bytes_length, List.append_assoc, hc]
theorem eBottle.fill_write : ∀ (b : eBottle) (front rest : List Nat),
    b.wireSize ≤ rest.length → front.length + b.wireSize ≤ 2147483647 →
    b.fill (front.length : Int) (some (front ++ rest))
      = some (((front.length + b.wireSize : Nat) : Int),
          some (front ++ b.wire ++ rest.drop b.wireSize))
  | .mk values, front, rest, h1, h2 => by
    simp only [eBottle.wireSize] at h1 h2
    simp only [eBottle.fill, eBottle.wireSize, eBottle.wire]
    have hs := store_step front rest (int32Bytes (values.length : Int)) 4 (int32Bytes_length _)
      (by omega)
    have ho := offset_step front (int32Bytes (values.length : Int)) 4
      (int32Bytes_length_cast _) (by rw [int32Bytes_length]; omega)
    have hr := eBottle.fillLoop_write values (front ++ int32Bytes (values.length : Int))
      (rest.drop 4) (by rw [List.length_drop]; omega)
      (by rw [List.length_append, int32Bytes_length]; omega)
    rw [hs, Option.some_bind, ho, hr]
    simp only [List.drop_drop, List.length_append, int32Bytes_length, List.append_assoc,
      Nat.add_assoc]
theorem eBottle.fillLoop_write : ∀ (vs : List eValue) (front rest : List Nat),
    eBottle.elemsSize vs ≤ rest.length → front.length + eBottle.elemsSize vs ≤ 2147483647 →
    eBottle.fillLoop vs (front.length : Int) (some (front ++ rest))
      = some (((front.length + eBottle.elemsSize vs : Nat) : Int),
          some (front ++ eBottle.wireElems vs ++ rest.drop (eBottle.elemsSize vs)))
  | [], front, rest, _, _ => by simp [eBottle.fillLoop, eBottle.elemsSize, eBottle.wireElems]
  | v :: more, front, rest, h1, h2 => by
    simp only [eBottle.elemsSize] at h1 h2
    simp only [eBottle.fillLoop, eBottle.elemsSize, eBottle.wireElems]
    have hs := store_step front rest (int32Bytes v.getType) 4 (int32Bytes_length _) (by omega)
    have ho := offset_step front (int32Bytes v.getType) 4 (int32Bytes_length_cast _)
      (by rw [int32Bytes_length]; omega)
    have hc := eBottle.fillCase_write v (front ++ int32Bytes v.getType) (rest.drop 4)
      (by rw [List.length_drop]; omega)
      (by rw [List.length_append, int32Bytes_length]; omega)
    have hlen : (front ++ int32Bytes v.getType).length + v.bodySize
        = (front ++ int32Bytes v.getType ++ v.wireBody).length := by
      simp only [List.length_append, eValue.wireBody_length]
    rw [hlen] at hc
    have hr := eBottle.fillLoop_write more (front ++ int32Bytes v.getType ++ v.wireBody)
      ((rest.drop 4).drop v.bodySize) (by simp only [List.length_drop]; omega)
      (by simp only [List.length_append, int32Bytes_length, eValue.wireBody_length]; omega)
    rw [hs, Option.some_bind, ho, hc, Option.some_bind, hr]
    simp only [List.drop_drop, List.length_append, int32Bytes_length, List.append_assoc,
      eValue.wireBody_length, Nat.add_assoc]
end

/-! ## The decoder on the layout -/

theorem eBottle.length_le_elemsSize : ∀ vs : List eValue, vs.length ≤ eBottle.elemsSize vs
  | [] => by simp [eBottle.elemsSize]
  | v :: rest => by
    have := eBottle.length_le_elemsSize rest
    simp only [eBottle.elemsSize, List.length_cons]
    omega

theorem eBottle.values_mk (vs : List eValue) : (eBottle.mk vs).values = vs := rfl

theorem eBottle.values_empty : eBottle.empty.values = [] := rfl

theorem eBottle.mk_values (b : eBottle) : eBottle.mk b.values = b := by
  cases b
  rfl

theorem all_ne_zero_of_valid (s : List Nat)
    (h : s.all (fun c => c != 0 && decide (c < 256)) = true) :
    s.all (fun c => c != 0) = true := by
  simp only [List.all_eq_true, Bool.and_eq_true] at h ⊢
  exact fun c hc => (h c hc).1

theorem readDouble_frame (p front back : List Nat) (d : Nat)
    (hp : p = front ++ (doubleBytes d ++ back)) (hd : d < 18446744073709551616) :
    readDouble p (front.length : Int) = some d := by
  have h := readBytes_frame p front (doubleBytes d) back hp
  rw [doubleBytes_length] at h
  simp [readDouble, h, unle_doubleBytes d hd]

theorem toUInt32_natCast (n : Nat) (h : n ≤ 2147483647) : toUInt32 (n : Int) = n := by
  simp only [toUInt32]
  omega

theorem iterate_succ {σ : Type} (n : Nat) (body : σ → Option σ) (st : σ) :
    iterate (n + 1) body st = (body st).bind (iterate n body) := rfl

theorem iterate_zero {σ : Type} (body : σ → Option σ) (st : σ) :
    iterate 0 body st = some st := rfl

mutual
theorem eBottle.reconstructCase_wire : ∀ (v : eValue) (depth : Nat) (p front back : List Nat)
    (target : eBottle), v.valid = true → v.depth ≤ depth →
    p = front ++ (int32Bytes v.getType ++ (v.wireBody ++ back)) →
    front.length + (4 + v.bodySize) ≤ 2147483647 →
    eBottle.reconstructCase (fun q s => eBottle.reconstruct depth q s p) p
        (target, (front.length : Int))
      = some (target.push_back v, ((front.length + (4 + v.bodySize) : Nat) : Int))
  | .INT i, depth, p, front, back, target, hv, _, hp, hs => by
    simp only [eValue.getType, eValue.wireBody, eValue.bodySize] at hp hs
    simp only [eValue.valid, decide_eq_true_eq] at hv
    have hj := readInt_frame p front _ 1 hp (by omega) (by omega)
    have ho := offset_step front (int32Bytes 1) 4 (int32Bytes_length_cast _)
      (by rw [int32Bytes_length]; omega)
    have hi := readInt_frame p (front ++ int32Bytes 1) back i
      (by rw [hp, List.append_assoc]) hv.1 hv.2
    have ho2 := offset_step (front ++ int32Bytes 1) (int32Bytes i) 4 (int32Bytes_length_cast _)
      (by simp only [List.length_append, int32Bytes_length]; omega)
    simp only [eBottle.reconstructCase, eValue.bodySize]
    rw [hj, Option.some_bind, ho]
    simp only [if_true]
    rw [hi, Option.some_bind, ho2]
    simp only [eBottle.addInt, List.length_append, int32Bytes_length, Nat.add_assoc]
  | .DOUBLE d, depth, p, front, back, target, hv, _, hp, hs => by
    simp only [eValue.getType, eValue.wireBody, eValue.bodySize] at hp hs
    simp only [eValue.valid, decide_eq_true_eq] at hv
    have hj := readInt_frame p front _ 2 hp (by omega) (by omega)
    have ho := offset_step front (int32Bytes 2) 4 (int32Bytes_length_cast _)
      (by rw [int32Bytes_length]; omega)
    have hi := readDouble_frame p (front ++ int32Bytes 2) back d
      (by rw [hp, List.append_assoc]) hv
    have ho2 := offset_step (front ++ int32Bytes 2) (doubleBytes d) 8 (doubleBytes_length_cast _)
      (by simp only [List.length_append, int32Bytes_length, doubleBytes_length]; omega)
    simp only [eBottle.reconstructCase, eValue.bodySize]
    rw [hj, Option.some_bind, ho]
    simp only [show ((2 : Int) = 1) = False by decide, if_false, if_true]
    rw [hi, Option.some_bind, ho2]
    simp only [eBottle.addDouble, List.length_append, int32Bytes_length, doubleBytes_length,
      Nat.add_assoc]
  | .CHARP blob, depth, p, front, back, target, _, _, hp, hs => by
    simp only [eValue.getType, eValue.wireBody, eValue.bodySize] at hp hs
    have hj := readInt_frame p front _ 3 hp (by omega) (by omega)
    have ho := offset_step front (int32Bytes 3) 4 (int32Bytes_length_cast _)
      (by rw [int32Bytes_length]; omega)
    have hi := readInt_frame p (front ++ int32Bytes 3) (blob ++ back) (blob.length : Int)
      (by rw [hp]; simp only [List.append_assoc]) (by omega) (by omega)
    have ho2 := offset_step (front ++ int32Bytes 3) (int32Bytes (blob.length : Int)) 4
      (int32Bytes_length_cast _)
      (by simp only [List.length_append, int32Bytes_length]; omega)
    have hb := readBytes_frame p (front ++ int32Bytes 3 ++ int32Bytes (blob.length : Int)) blob
      back (by rw [hp]; simp only [List.append_assoc])
    have ho3 := offset_step (front ++ int32Bytes 3 ++ int32Bytes (blob.length : Int)) blob
      (blob.length : Int) rfl
      (by simp only [List.length_append, int32Bytes_length]; omega)
    simp only [eBottle.reconstructCase, eValue.bodySize]
    rw [hj, Option.some_bind, ho]
    simp only [show ((3 : Int) = 1) = False by decide, show ((3 : Int) = 2) = False by decide,
      if_false, if_true]
    rw [hi, Option.some_bind, ho2, toUInt32_natCast _ (by omega), hb, Option.some_bind, ho3]
    simp only [eBottle.addBlob, List.length_append, int32Bytes_length, Nat.add_assoc]
  | .BOTTLE q, depth, p, front, back, target, hv, hd, hp, hs => by
    simp only [eValue.getType, eValue.wireBody, eValue.bodySize] at hp hs
    simp only [eValue.valid] at hv
    simp only [eValue.depth] at hd
    have hj := readInt_frame p front _ 4 hp (by omega) (by omega)
    have ho := offset_step front (int32Bytes 4) 4 (int32Bytes_length_cast _)
      (by rw [int32Bytes_length]; omega)
    have hr := eBottle.reconstruct_wire q depth p (front ++ int32Bytes 4) back eBottle.empty
      hv hd (by rw [hp, List.append_assoc])
      (by simp only [List.length_append, int32Bytes_length]; omega)
    simp only [eBottle.reconstructCase, eValue.bodySize]
    rw [hj, Option.some_bind, ho]
    simp only [show ((4 : Int) = 1) = False by decide, show ((4 : Int) = 2) = False by decide,
      show ((4 : Int) = 3) = False by decide, if_false, if_true]
    rw [hr, Option.some_bind]
    simp only [eBottle.addListPtr, eBottle.values_empty, List.nil_append,
      eBottle.mk_values, List.length_append, int32Bytes_length, Nat.add_assoc]
  | .STRING str, depth, p, front, back, target, hv, _, hp, hs => by
    simp only [eValue.valid] at hv
    have hz := all_ne_zero_of_valid str hv
    have hc := c_str_of_nulFree str hz
    have hl : strlen str = str.length := by rw [strlen, hc]
    simp only [eValue.getType, eValue.wireBody, eValue.bodySize, hc, hl] at hp hs
    have hj := readInt_frame p front _ 5 hp (by omega) (by omega)
    have ho := offset_step front (int32Bytes 5) 4 (int32Bytes_length_cast _)
      (by rw [int32Bytes_length]; omega)
    have hi := readInt_frame p (front ++ int32Bytes 5) (str ++ [0] ++ back)
      ((str.length : Int) + 1)
      (by rw [hp]; simp only [List.append_assoc]) (by omega) (by omega)
    have ho2 := offset_step (front ++ int32Bytes 5) (int32Bytes ((str.length : Int) + 1)) 4
      (int32Bytes_length_cast _)
      (by simp only [List.length_append, int32Bytes_length]; omega)
    have hb := readCStr_frame p (front ++ int32Bytes 5 ++ int32Bytes ((str.length : Int) + 1))
      str back (by rw [hp]; simp only [List.append_assoc, List.singleton_append]) hz
    have ho3 := offset_step (front ++ int32Bytes 5 ++ int32Bytes ((str.length : Int) + 1))
      (str ++ [0]) ((str.length : Int) + 1) (by simp)
      (by simp only [List.length_append, int32Bytes_length, List.length_singleton]; omega)
    simp only [eBottle.reconstructCase, eValue.bodySize, hl]
    rw [hj, Option.some_bind, ho]
    simp only [show ((5 : Int) = 1) = False by decide, show ((5 : Int) = 2) = False by decide,
      show ((5 : Int) = 3) = False by decide, show ((5 : Int) = 4) = False by decide,
      if_false, if_true]
    rw [hi, Option.some_bind, ho2, hb, Option.some_bind, ho3]
    simp only [eBottle.addString, hc, List.length_append, int32Bytes_length,
      List.length_singleton, Nat.add_assoc]
theorem eBottle.reconstruct_wire : ∀ (b : eBottle) (depth : Nat) (p front back : List Nat)
    (target : eBottle), b.valid = true → b.depth ≤ depth →
    p = front ++ (b.wire ++ back) →
    front.length + b.wireSize ≤ 2147483647 →
    eBottle.reconstruct depth target (front.length : Int) p
      = some (.mk (target.values ++ b.values), ((front.length + b.wireSize : Nat) : Int))
  | .mk values, 0, _, _, _, _, _, hd, _, _ => by
    simp only [eBottle.depth] at hd
    omega
  | .mk values, depth + 1, p, front, back, target, hv, hd, hp, hs => by
    simp only [eBottle.wire, eBottle.wireSize] at hp hs
    simp only [eBottle.valid] at hv
    simp only [eBottle.depth] at hd
    have hlen := eBottle.length_le_elemsSize values
    have hn := readBytes_frame p front (int32Bytes (values.length : Int))
      (eBottle.wireElems values ++ back) (by rw [hp]; simp only [List.append_assoc])
    rw [int32Bytes_length] at hn
    have ho := offset_step front (int32Bytes (values.length : Int)) 4 (int32Bytes_length_cast _)
      (by rw [int32Bytes_length]; omega)
    have hr := eBottle.reconstructLoop_wire values depth p
      (front ++ int32Bytes (values.length : Int)) back target hv (by omega)
      (by rw [hp]; simp only [List.append_assoc])
      (by simp only [List.length_append, int32Bytes_length]; omega)
    simp only [eBottle.reconstruct, eBottle.wireSize, eBottle.values_mk]
    rw [hn, Option.some_bind, unle_int32Bytes_nat _ (by omega), ho, hr]
    simp only [List.length_append, int32Bytes_length, Nat.add_assoc]
theorem eBottle.reconstructLoop_wire : ∀ (vs : List eValue) (depth : Nat)
    (p front back : List Nat) (target : eBottle), eBottle.elemsValid vs = true →
    eBottle.elemsDepth vs ≤ depth →
    p = front ++ (eBottle.wireElems vs ++ back) →
    front.length + eBottle.elemsSize vs ≤ 2147483647 →
    iterate vs.length (eBottle.reconstructCase (fun q s => eBottle.reconstruct depth q s p) p)
        (target, (front.length : Int))
      = some (.mk (target.values ++ vs), ((front.length + eBottle.elemsSize vs : Nat) : Int))
  | [], depth, p, front, back, target, _, _, _, _ => by
    simp only [List.length_nil, iterate_zero, List.append_nil, eBottle.mk_values,
      eBottle.elemsSize, Nat.add_zero]
  | v :: more, depth, p, front, back, target, hv, hd, hp, hs => by
    simp only [eBottle.wireElems, eBottle.elemsSize] at hp hs
    simp only [eBottle.elemsValid, Bool.and_eq_true] at hv
    simp only [eBottle.elemsDepth] at hd
    have hc := eBottle.reconstructCase_wire v depth p front (eBottle.wireElems more ++ back)
      target hv.1 (by omega) (by rw [hp]; simp only [List.append_assoc]) (by omega)
    have hlen : front.length + (4 + v.bodySize)
        = (front ++ int32Bytes v.getType ++ v.wireBody).length := by
      simp only [List.length_append, int32Bytes_length, eValue.wireBody_length, Nat.add_assoc]
    rw [hlen] at hc
    have hr := eBottle.reconstructLoop_wire more depth p
      (front ++ int32Bytes v.getType ++ v.wireBody) back (target.push_back v) hv.2 (by omega)
      (by rw [hp]; simp only [List.append_assoc])
      (by rw [← hlen]; omega)
    simp only [List.length_cons, iterate_succ, eBottle.elemsSize]
    rw [hc, Option.some_bind, hr]
    simp only [eBottle.push_back, eBottle.values_mk, List.append_assoc, List.singleton_append,
      List.length_append, int32Bytes_length, eValue.wireBody_length, Nat.add_assoc]
end

/-! ## The encoder and the decoder as the callers use them -/

theorem eBottle.fill_measure_zero (b : eBottle) (hs : b.wireSize ≤ 2147483647) :
    b.fill 0 none = some ((b.wireSize : Int), none) := by
  have h := eBottle.fill_measure b 0 (by omega)
  simpa using h

theorem eBottle.fill_write_zero (b : eBottle) (hs : b.wireSize ≤ 2147483647)
    (buff extra : List Nat) (hb : buff.length = b.wireSize) :
    b.fill 0 (some (buff ++ extra)) = some ((b.wireSize : Int), some (b.wire ++ extra)) := by
  have h := eBottle.fill_write b [] (buff ++ extra)
    (by rw [List.length_append]; omega) (by simpa using hs)
  have hdrop : List.drop b.wireSize (buff ++ extra) = extra := by
    rw [← hb]
    exact List.drop_left buff extra
  simpa [hdrop] using h

theorem eBottle.getBinarySize_eq (b : eBottle) (hs : b.wireSize ≤ 2147483647) :
    b.getBinarySize = some b.wireSize := by
  simp only [eBottle.getBinarySize, eBottle.fill_measure_zero b hs, Option.map_some']
  rw [toUInt32_natCast _ hs]

theorem eBottle.toBinary_eq (b : eBottle) (hs : b.wireSize ≤ 2147483647)
    (buff extra : List Nat) (hb : buff.length = b.wireSize) :
    b.toBinary (buff ++ extra) = some (b.wire ++ extra) := by
  simp only [eBottle.toBinary, eBottle.fill_write_zero b hs buff extra hb, Option.some_bind]

theorem eBottle.toBinaryOwned_eq (b : eBottle) (hs : b.wireSize ≤ 2147483647)
    (fresh : Nat → Nat) :
    b.toBinaryOwned fresh = some (b.wire, (b.wireSize : Int)) := by
  have hw := eBottle.fill_write_zero b hs ((List.range b.wireSize).map fresh) [] (by simp)
  simp only [List.append_nil] at hw
  simp only [eBottle.toBinaryOwned, eBottle.fill_measure_zero b hs, Option.some_bind]
  rw [if_pos (by omega)]
  simp only [Int.toNat_ofNat, hw, Option.some_bind, Option.map_some']

theorem eBottle.reconstruct_eq (b : eBottle) (hv : b.valid = true)
    (hs : b.wireSize ≤ 2147483647) (depth : Nat) (hd : b.depth ≤ depth) (extra : List Nat) :
    eBottle.reconstruct depth eBottle.empty 0 (b.wire ++ extra)
      = some (b, (b.wireSize : Int)) := by
  have h := eBottle.reconstruct_wire b depth (b.wire ++ extra) [] extra eBottle.empty hv hd
    (by simp) (by simpa using hs)
  simpa [eBottle.values_empty, eBottle.mk_values] using h

theorem eBottle.elemsSize_eq_sum (vs : List eValue) :
    eBottle.elemsSize vs = (vs.map fun v => 4 + v.bodySize).sum := by
  induction vs with
  | nil => rfl
  | cons v rest ih => simp only [eBottle.elemsSize, List.map_cons, List.sum_cons, ih]

/-! ## Claims on the binary codec -/

/-- C1 (binary round trip): for a Bag whose payloads are ones the C++ types hold (NUL-free
Strings) and whose layout fits the `int` offset, `toBinary` into a buffer of `getBinarySize`
bytes followed by `fromBinary` into an empty Bag gives back the Bag itself, at any nesting
depth, without the `Reconstruct error` line; so does the variant `toBinary(&size)`. -/
theorem binary_round_trip (b : eBottle) (hv : b.valid = true)
    (hfit : (b.wireSize : Int) ≤ INT_MAX)
    (depth : Nat) (hd : b.depth ≤ depth) (buff : List Nat)
    (hb : b.getBinarySize = some buff.length) (fresh : Nat → Nat) :
    (∃ bytes, b.toBinary buff = some bytes ∧
      eBottle.fromBinary depth eBottle.empty bytes (buff.length : Int) = some (b, false)) ∧
    (∃ bytes size, b.toBinaryOwned fresh = some (bytes, size) ∧
      eBottle.fromBinary depth eBottle.empty bytes size = some (b, false)) := by
  have hs : b.wireSize ≤ 2147483647 := by
    unfold INT_MAX at hfit
    omega
  have hlen : buff.length = b.wireSize := by
    rw [eBottle.getBinarySize_eq b hs] at hb
    exact (Option.some.inj hb).symm
  have hr := eBottle.reconstruct_eq b hv hs depth hd []
  rw [List.append_nil] at hr
  constructor
  · refine ⟨b.wire, ?_, ?_⟩
    · have h := eBottle.toBinary_eq b hs buff [] hlen
      simpa using h
    · simp [eBottle.fromBinary, hr, hlen]
  · refine ⟨b.wire, (b.wireSize : Int), eBottle.toBinaryOwned_eq b hs fresh, ?_⟩
    simp [eBottle.fromBinary, hr]

set_option maxRecDepth 8192 in
/-- Witness of C1 on the Bag `eb1` of `main`, whose layout takes 281 bytes. -/
theorem binary_round_trip_witness :
    eb1.valid = true ∧ (eb1.wireSize : Int) ≤ INT_MAX ∧ eb1.depth ≤ 2 ∧
    eb1.getBinarySize = some (List.replicate 281 0).length ∧
    ((∃ bytes, eb1.toBinary (List.replicate 281 0) = some bytes ∧
      eBottle.fromBinary 2 eBottle.empty bytes ((List.replicate 281 0).length : Int)
        = some (eb1, false)) ∧
    (∃ bytes size, eb1.toBinaryOwned (fun _ => 0) = some (bytes, size) ∧
      eBottle.fromBinary 2 eBottle.empty bytes size = some (eb1, false))) :=
  ⟨by decide, by decide, by decide, by decide,
    binary_round_trip eb1 (by decide) (by decide) 2 (by decide) (List.replicate 281 0)
      (by decide) (fun _ => 0)⟩

/-- C2 (size consistency of the encoder): for a Bag whose layout fits the `int` offset and a
buffer of that many bytes, `getBinarySize` returns the buffer's length, the measure pass and
the write pass of `fill` end at that same offset, the write pass stays inside the buffer and
leaves every byte after it as it was, what it writes does not depend on what the buffer held,
and `toBinary(&size)` reports that same size with the same bytes. -/
theorem size_consistency (b : eBottle) (hfit : (b.wireSize : Int) ≤ INT_MAX)
    (buff extra : List Nat)
    (hb : buff.length = b.wireSize) (fresh : Nat → Nat) :
    ∃ bytes,
      b.getBinarySize = some buff.length ∧
      b.fill 0 none = some ((buff.length : Int), none) ∧
      b.fill 0 (some buff) = some ((buff.length : Int), some bytes) ∧
      bytes.length = buff.length ∧
      b.toBinary (buff ++ extra) = some (bytes ++ extra) ∧
      (∀ other : List Nat, other.length = buff.length → b.toBinary other = some bytes) ∧
      b.toBinaryOwned fresh = some (bytes, (buff.length : Int)) := by
  have hs : b.wireSize ≤ 2147483647 := by
    unfold INT_MAX at hfit
    omega
  refine ⟨b.wire, ?_, ?_, ?_, ?_, ?_, ?_, ?_⟩
  · rw [hb]
    exact eBottle.getBinarySize_eq b hs
  · rw [hb]
    exact eBottle.fill_measure_zero b hs
  · have h := eBottle.fill_write_zero b hs buff [] hb
    simpa [hb] using h
  · rw [hb]
    exact eBottle.wire_length b
  · exact eBottle.toBinary_eq b hs buff extra hb
  · intro other ho
    have h := eBottle.toBinary_eq b hs other [] (by rw [ho, hb])
    simpa using h
  · rw [hb]
    exact eBottle.toBinaryOwned_eq b hs fresh

set_option maxRecDepth 8192 in
/-- Witness of C2 on the Bag `eb1` of `main` and a buffer of 281 bytes. -/
theorem size_consistency_witness :
    (eb1.wireSize : Int) ≤ INT_MAX ∧ (List.replicate 281 9).length = eb1.wireSize ∧
    ∃ bytes,
      eb1.getBinarySize = some (List.replicate 281 9).length ∧
      eb1.fill 0 none = some (((List.replicate 281 9).length : Int), none) ∧
      eb1.fill 0 (some (List.replicate 281 9))
        = some (((List.replicate 281 9).length : Int), some bytes) ∧
      bytes.length = (List.replicate 281 9).length ∧
      eb1.toBinary (List.replicate 281 9 ++ [1, 2, 3]) = some (bytes ++ [1, 2, 3]) ∧
      (∀ other : List Nat, other.length = (List.replicate 281 9).length →
        eb1.toBinary other = some bytes) ∧
      eb1.toBinaryOwned (fun _ => 0) = some (bytes, ((List.replicate 281 9).length : Int)) :=
  ⟨by decide, by decide,
    size_consistency eb1 (by decide) (List.replicate 281 9) [1, 2, 3] (by decide) (fun _ => 0)⟩

/-- C3 (decoder consumption): for a Bag whose payloads are ones the C++ types hold and whose
layout fits the `int` offset, `reconstruct` run on the bytes that `toBinary` wrote into a
buffer of `getBinarySize` bytes returns the Bag with the offset equal to `getBinarySize`, so
`fromBinary` does not print `Reconstruct error`; every read lies inside those bytes (a read
outside them has no result), and bytes placed after them change nothing. -/
theorem decoder_consumption (b : eBottle) (hv : b.valid = true)
    (hfit : (b.wireSize : Int) ≤ INT_MAX)
    (depth : Nat) (hd : b.depth ≤ depth) (buff extra : List Nat)
    (hb : buff.length = b.wireSize) :
    ∃ bytes,
      b.toBinary buff = some bytes ∧
      b.getBinarySize = some bytes.length ∧
      eBottle.reconstruct depth eBottle.empty 0 bytes = some (b, (bytes.length : Int)) ∧
      eBottle.fromBinary depth eBottle.empty bytes (bytes.length : Int) = some (b, false) ∧
      eBottle.reconstruct depth eBottle.empty 0 (bytes ++ extra)
        = some (b, (bytes.length : Int)) := by
  have hs : b.wireSize ≤ 2147483647 := by
    unfold INT_MAX at hfit
    omega
  have hr := eBottle.reconstruct_eq b hv hs depth hd []
  rw [List.append_nil] at hr
  refine ⟨b.wire, ?_, ?_, ?_, ?_, ?_⟩
  · have h := eBottle.toBinary_eq b hs buff [] hb
    simpa using h
  · rw [eBottle.wire_length]
    exact eBottle.getBinarySize_eq b hs
  · rw [eBottle.wire_length]
    exact hr
  · simp [eBottle.fromBinary, hr, eBottle.wire_length]
  · rw [eBottle.wire_length]
    exact eBottle.reconstruct_eq b hv hs depth hd extra

set_option maxRecDepth 8192 in
/-- Witness of C3 on the Bag `eb1` of `main`. -/
theorem decoder_consumption_witness :
    eb1.valid = true ∧ (eb1.wireSize : Int) ≤ INT_MAX ∧ eb1.depth ≤ 2 ∧
    (List.replicate 281 9).length = eb1.wireSize ∧
    ∃ bytes,
      eb1.toBinary (List.replicate 281 9) = some bytes ∧
      eb1.getBinarySize = some bytes.length ∧
      eBottle.reconstruct 2 eBottle.empty 0 bytes = some (eb1, (bytes.length : Int)) ∧
      eBottle.fromBinary 2 eBottle.empty bytes (bytes.length : Int) = some (eb1, false) ∧
      eBottle.reconstruct 2 eBottle.empty 0 (bytes ++ [4, 0, 0, 0])
        = some (eb1, (bytes.length : Int)) :=
  ⟨by decide, by decide, by decide, by decide,
    decoder_consumption eb1 (by decide) (by decide) 2 (by decide) (List.replicate 281 9)
      [4, 0, 0, 0] (by decide)⟩

/-- C4 (wire layout): for a Bag whose layout fits the `int` offset, the bytes that `toBinary`
writes (into the caller's buffer or its own) are exactly the layout of the specification:
`int32 count`, then per element the `int32` tag (Int=1, Double=2, Blob=3, NestedBag=4,
String=5) and its body, a nested Bag inline with no length of its own; and `getBinarySize` is
4 plus, for each element, 4 plus the size of its body. -/
theorem wire_layout (b : eBottle) (hfit : (b.wireSize : Int) ≤ INT_MAX)
    (buff : List Nat)
    (hb : buff.length = b.wireSize) (fresh : Nat → Nat) :
    b.toBinary buff = some b.wire ∧
    b.toBinaryOwned fresh = some (b.wire, (b.wireSize : Int)) ∧
    b.getBinarySize = some b.wireSize ∧
    b.wire.length = b.wireSize ∧
    b.wire = int32Bytes b.count ++ eBottle.wireElems b.values ∧
    b.wireSize = 4 + (b.values.map fun v => 4 + v.bodySize).sum := by
  have hs : b.wireSize ≤ 2147483647 := by
    unfold INT_MAX at hfit
    omega
  refine ⟨?_, eBottle.toBinaryOwned_eq b hs fresh, eBottle.getBinarySize_eq b hs,
    eBottle.wire_length b, ?_, ?_⟩
  · have h := eBottle.toBinary_eq b hs buff [] hb
    simpa using h
  · cases b
    rfl
  · cases b with
    | mk values =>
      simp only [eBottle.wireSize, eBottle.values_mk]
      rw [eBottle.elemsSize_eq_sum]

/-- Witness of C4: the Bag `[Int 7, Double 0.5, String "hi"]` encodes to these 35 bytes. -/
theorem wire_layout_witness :
    (seedBag.wireSize : Int) ≤ INT_MAX ∧ (List.replicate 35 0).length = seedBag.wireSize ∧
    (seedBag.toBinary (List.replicate 35 0) = some seedBag.wire ∧
      seedBag.toBinaryOwned (fun _ => 0) = some (seedBag.wire, (seedBag.wireSize : Int)) ∧
      seedBag.getBinarySize = some seedBag.wireSize ∧
      seedBag.wire.length = seedBag.wireSize ∧
      seedBag.wire = int32Bytes seedBag.count ++ eBottle.wireElems seedBag.values ∧
      seedBag.wireSize = 4 + (seedBag.values.map fun v => 4 + v.bodySize).sum) ∧
    seedBag.wireSize = 35 ∧
    seedBag.wire = [3, 0, 0, 0, 1, 0, 0, 0, 7, 0, 0, 0, 2, 0, 0, 0, 0, 0, 0, 0, 0, 0, 224, 63,
      5, 0, 0, 0, 3, 0, 0, 0, 104, 105, 0] :=
  ⟨by decide, by decide,
    wire_layout seedBag (by decide) (List.replicate 35 0) (by decide) (fun _ => 0),
    by decide, by decide⟩

/-! ## The container -/

mutual
theorem eValue.assign_of_nulFree : ∀ v : eValue, v.nulFree = true → v.assign = v
  | .INT _, _ => rfl
  | .DOUBLE _, _ => rfl
  | .CHARP _, _ => rfl
  | .BOTTLE q, h => by
    simp only [eValue.nulFree] at h
    simp only [eValue.assign, eBottle.assign_bag_of_nulFree q h]
  | .STRING s, h => by
    simp only [eValue.nulFree] at h
    simp only [eValue.assign, c_str_of_nulFree s h]
theorem eBottle.assign_bag_of_nulFree : ∀ b : eBottle, b.nulFree = true → b.assign = b
  | .mk values, h => by
    simp only [eBottle.nulFree] at h
    simp only [eBottle.assign, eBottle.assignLoop_of_nulFree values _ h, eBottle.values_empty,
      eBottle.values_mk, List.nil_append]
theorem eBottle.assignLoop_of_nulFree : ∀ (vs : List eValue) (this : eBottle),
    eBottle.elemsNulFree vs = true → eBottle.assignLoop vs this = .mk (this.values ++ vs)
  | [], this, _ => by
    simp only [eBottle.assignLoop, List.append_nil, eBottle.mk_values]
  | .INT i :: rest, this, h => by
    simp only [eBottle.elemsNulFree, Bool.and_eq_true] at h
    simp only [eBottle.assignLoop, eBottle.assignLoop_of_nulFree rest _ h.2, eBottle.addInt,
      eBottle.push_back, eBottle.values_mk, List.append_assoc, List.singleton_append]
  | .DOUBLE d :: rest, this, h => by
    simp only [eBottle.elemsNulFree, Bool.and_eq_true] at h
    simp only [eBottle.assignLoop, eBottle.assignLoop_of_nulFree rest _ h.2, eBottle.addDouble,
      eBottle.push_back, eBottle.values_mk, List.append_assoc, List.singleton_append]
  | .CHARP blob :: rest, this, h => by
    simp only [eBottle.elemsNulFree, Bool.and_eq_true] at h
    simp only [eBottle.assignLoop, eBottle.assignLoop_of_nulFree rest _ h.2, eBottle.addBlob,
      eBottle.push_back, eBottle.values_mk, List.append_assoc, List.singleton_append]
  | .BOTTLE q :: rest, this, h => by
    simp only [eBottle.elemsNulFree, Bool.and_eq_true, eValue.nulFree] at h
    simp only [eBottle.assignLoop, eBottle.assignLoop_of_nulFree rest _ h.2,
      eBottle.addListPtr, eBottle.assign_bag_of_nulFree q h.1,
      eBottle.push_back, eBottle.values_mk, List.append_assoc, List.singleton_append]
  | .STRING s :: rest, this, h => by
    simp only [eBottle.elemsNulFree, Bool.and_eq_true, eValue.nulFree] at h
    simp only [eBottle.assignLoop, eBottle.assignLoop_of_nulFree rest _ h.2,
      eBottle.addString, c_str_of_nulFree s h.1,
      eBottle.push_back, eBottle.values_mk, List.append_assoc, List.singleton_append]
end

theorem eBottle.at_eq_ok (b : eBottle) (i : Nat) (v : eValue) :
    b.at i = .ok v b ↔ b.values.get? i = some v := by
  unfold eBottle.at
  cases h : b.values.get? i with
  | none => simp
  | some w => simp

theorem eBottle.get_eq_ok (b : eBottle) (i : Nat) (v : eValue) :
    b.get i = .ok v b ↔ b.values.get? i = some v :=
  eBottle.at_eq_ok b i v

theorem AppendOp.run_eq (b : eBottle) (op : AppendOp) (h : op.value.nulFree = true) :
    op.run b = b.push_back op.value := by
  cases op with
  | addInt i => rfl
  | addDouble d => rfl
  | addString s =>
    simp only [AppendOp.value, eValue.nulFree] at h
    simp only [AppendOp.run, AppendOp.value, eBottle.addString, c_str_of_nulFree s h]
  | addBlob q => rfl
  | addList => rfl
  | add yv =>
    simp only [AppendOp.value] at h
    simp only [AppendOp.run, AppendOp.value, eBottle.add, eValue.assign_of_nulFree yv h]

theorem AppendOp.run_values (b : eBottle) (op : AppendOp) :
    ∃ w, (op.run b).values = b.values ++ [w] := by
  cases op <;> exact ⟨_, rfl⟩

theorem AppendOp.foldl_run_values (ops : List AppendOp) (b : eBottle)
    (h : ∀ op ∈ ops, op.value.nulFree = true) :
    (ops.foldl AppendOp.run b).values = b.values ++ ops.map AppendOp.value := by
  induction ops generalizing b with
  | nil => simp
  | cons op rest ih =>
    rw [List.foldl_cons, ih _ (fun o ho => h o (List.mem_cons_of_mem _ ho)),
      AppendOp.run_eq b op (h op (List.mem_cons_self _ _))]
    simp [eBottle.push_back, eBottle.values_mk]

/-- C5 (order preservation): after any finite sequence of appending calls (`addInt`,
`addDouble`, `addString`, `addBlob`, `addList`, `add`) on an empty Bag, the Strings appended
being C strings, `count()` is the number of calls and `get(i)` is the value of the i-th call;
and on any Bag each appending call raises `count()` by exactly 1 and leaves every element
that was there at its index. -/
theorem order_preservation (ops : List AppendOp)
    (hz : ∀ op ∈ ops, op.value.nulFree = true) :
    (ops.foldl AppendOp.run eBottle.empty).count = ops.length ∧
    (∀ (i : Nat) (h : i < ops.length),
      (ops.foldl AppendOp.run eBottle.empty).get i
        = .ok (ops.get ⟨i, h⟩).value (ops.foldl AppendOp.run eBottle.empty)) ∧
    (∀ (b : eBottle) (op : AppendOp),
      (op.run b).count = b.count + 1 ∧
      ∀ (i : Nat) (v : eValue), b.get i = .ok v b → (op.run b).get i = .ok v (op.run b)) := by
  have hvals := AppendOp.foldl_run_values ops eBottle.empty hz
  rw [eBottle.values_empty, List.nil_append] at hvals
  refine ⟨?_, ?_, ?_⟩
  · simp [eBottle.count, hvals]
  · intro i h
    rw [eBottle.get_eq_ok, hvals]
    simp [List.getElem?_map, List.getElem?_eq_getElem h]
  · intro b op
    obtain ⟨w, hw⟩ := AppendOp.run_values b op
    constructor
    · simp [eBottle.count, hw]
    · intro i v hget
      rw [eBottle.get_eq_ok] at hget ⊢
      rw [hw]
      have hlt := (List.get?_eq_some.mp hget).1
      rw [List.get?_eq_getElem?] at hget ⊢
      rw [List.getElem?_append_left hlt]
      exact hget

/-- Witness of C5: the three appends of the first seed scenario, and one of each other kind. -/
theorem order_preservation_witness :
    (∀ op ∈ [AppendOp.addInt 7, .addDouble 4602678819172646912, .addString [104, 105],
        .addBlob [1, 2], .addList, .add (.STRING [97])], op.value.nulFree = true) ∧
    (([AppendOp.addInt 7, .addDouble 4602678819172646912, .addString [104, 105],
        .addBlob [1, 2], .addList, .add (.STRING [97])].foldl AppendOp.run
          eBottle.empty).count = 6) :=
  ⟨by decide,
    (order_preservation [AppendOp.addInt 7, .addDouble 4602678819172646912,
      .addString [104, 105], .addBlob [1, 2], .addList, .add (.STRING [97])] (by decide)).1⟩

theorem eBottle.append_values (a b : eBottle) :
    (a.append b).values = a.values ++ b.values.map eValue.assign := by
  cases b with
  | mk vs =>
    simp only [eBottle.append, eBottle.values_mk]
    induction vs generalizing a with
    | nil => simp
    | cons v rest ih =>
      rw [List.foldl_cons, ih]
      simp [eBottle.add, eBottle.push_back, eBottle.values_mk]

theorem eBottle.map_assign_of_nulFree : ∀ vs : List eValue, eBottle.elemsNulFree vs = true →
    vs.map eValue.assign = vs
  | [], _ => rfl
  | v :: rest, h => by
    simp only [eBottle.elemsNulFree, Bool.and_eq_true] at h
    simp only [List.map_cons, eValue.assign_of_nulFree v h.1,
      eBottle.map_assign_of_nulFree rest h.2]

theorem eBottle.append_values_of_nulFree (a b : eBottle) (h : b.nulFree = true) :
    (a.append b).values = a.values ++ b.values := by
  rw [eBottle.append_values]
  cases b with
  | mk vs =>
    simp only [eBottle.nulFree] at h
    rw [eBottle.values_mk, eBottle.map_assign_of_nulFree vs h]

theorem foldl_range_get? {α β : Type} (l : List β) (f : α → β → α) (a : α) (n : Nat)
    (hn : n ≤ l.length) :
    (List.range n).foldl
      (fun acc i => match l.get? i with
        | some v => f acc v
        | none => acc) a
      = (l.take n).foldl f a := by
  induction n with
  | zero => simp
  | succ n ih =>
    have hlt : n < l.length := hn
    rw [List.range_succ, List.foldl_append, ih (by omega), List.take_succ, List.foldl_append]
    simp [List.getElem?_eq_getElem hlt]

theorem eBottle.addEach_eq (a b : eBottle) : a.addEach b = a.append b := by
  have h := foldl_range_get? b.values (fun this yv => eBottle.add this yv) a b.values.length
    (Nat.le_refl _)
  rw [List.take_length] at h
  simp only [eBottle.addEach, eBottle.append, eBottle.count, eBottle.get, eBottle.at]
  rw [← h]
  congr 1
  funext this i
  cases b.values.get? i <;> rfl

theorem eBottle.not_mem_self (b : eBottle) : eValue.BOTTLE b ∉ b.values := by
  intro h
  have h1 := List.sizeOf_lt_of_mem h
  cases b with
  | mk vs =>
    simp only [eBottle.values_mk, eValue.BOTTLE.sizeOf_spec, eBottle.mk.sizeOf_spec] at h1
    omega

/-- C6 (append-flatten law): for Bags `a` and `b` that are distinct objects, the Strings of
`b` being C strings, `a.append(b)` is the Bag obtained by `a.add(b[i])` for
`i = 0 .. count(b)-1`: the count grows by `count(b)`, the elements of `a` stay at their
indices, the new elements are those of `b` in the order of `b`, and none of them is a nested
Bag holding `b`.  (`b` is read only: the call returns the new state of `a` alone.) -/
theorem append_flatten (a b : eBottle) (hz : b.nulFree = true) :
    a.append b = a.addEach b ∧
    (a.append b).count = a.count + b.count ∧
    (∀ (i : Nat) (v : eValue), a.get i = .ok v a → (a.append b).get i = .ok v (a.append b)) ∧
    (∀ (i : Nat) (v : eValue), b.get i = .ok v b →
      (a.append b).get (a.count + i) = .ok v (a.append b)) ∧
    (∀ (i : Nat), a.count ≤ i → (a.append b).get i ≠ .ok (.BOTTLE b) (a.append b)) := by
  have hvals := eBottle.append_values_of_nulFree a b hz
  refine ⟨(eBottle.addEach_eq a b).symm, ?_, ?_, ?_, ?_⟩
  · simp [eBottle.count, hvals]
  · intro i v hget
    rw [eBottle.get_eq_ok] at hget ⊢
    have hlt := (List.get?_eq_some.mp hget).1
    rw [List.get?_eq_getElem?] at hget ⊢
    rw [hvals, List.getElem?_append_left hlt]
    exact hget
  · intro i v hget
    rw [eBottle.get_eq_ok] at hget ⊢
    rw [List.get?_eq_getElem?] at hget ⊢
    rw [hvals, eBottle.count, List.getElem?_append_right (Nat.le_add_right _ _)]
    simpa using hget
  · intro i hi hget
    rw [eBottle.get_eq_ok, List.get?_eq_getElem?, hvals,
      List.getElem?_append_right hi] at hget
    exact eBottle.not_mem_self b (List.getElem?_mem hget)

/-- Witness of C6: appending the Bag of the seed scenario to a Bag of two elements. -/
theorem append_flatten_witness :
    seedBag.nulFree = true ∧
    (eBottle.mk [.INT 1, .BOTTLE eBottle.empty]).append seedBag
      = (eBottle.mk [.INT 1, .BOTTLE eBottle.empty]).addEach seedBag ∧
    ((eBottle.mk [.INT 1, .BOTTLE eBottle.empty]).append seedBag).count = 2 + 3 :=
  ⟨by decide,
    (append_flatten (eBottle.mk [.INT 1, .BOTTLE eBottle.empty]) seedBag (by decide)).1,
    (append_flatten (eBottle.mk [.INT 1, .BOTTLE eBottle.empty]) seedBag (by decide)).2.1⟩

/-- C7 (insert/remove inverse): for every Bag, every value and every index `i ≤ count()`
(`i = count()` included), `insert(v, i)` followed by `remove(i)` returns normally and leaves
the Bag as it was. -/
theorem insert_remove_inverse (b : eBottle) (v : eValue) (i : Nat) (h : i ≤ b.count) :
    (b.insert v i).andThen (fun _ c => c.remove i) = .ok () b := by
  have hi : i ≤ b.values.length := h
  have hget : (b.values.take i ++ v.assign :: b.values.drop i).get? i = some v.assign := by
    rw [List.get?_eq_getElem?, List.getElem?_append_right (by simp [hi])]
    simp [hi]
  have herase : (b.values.take i ++ v.assign :: b.values.drop i).eraseIdx i = b.values := by
    rw [List.eraseIdx_append_of_length_le (by simp [hi])]
    simp [hi]
  simp only [eBottle.insert, if_pos hi, Outcome.andThen, eBottle.remove, eBottle.at,
    eBottle.values_mk, hget, herase, eBottle.mk_values]

/-- Witness of C7: inserting at the end of the seed Bag, then removing there. -/
theorem insert_remove_inverse_witness :
    3 ≤ seedBag.count ∧
    (seedBag.insert (.INT 9) 3).andThen (fun _ c => c.remove 3) = .ok () seedBag :=
  ⟨by decide, insert_remove_inverse seedBag (.INT 9) 3 (by decide)⟩

/-- C8 (insert position): for a Bag with `n` elements, a value `v` whose Strings are C strings
and `i ≤ n`, `insert(v, i)` returns normally with `n + 1` elements, element `i` equal to `v`,
the elements below `i` at their indices and each old element at `j ≥ i` now at `j + 1`. -/
theorem insert_position (b : eBottle) (v : eValue) (i : Nat) (h : i ≤ b.count)
    (hz : v.nulFree = true) :
    ∃ c, b.insert v i = .ok () c ∧
      c.count = b.count + 1 ∧
      c.get i = .ok v c ∧
      (∀ (j : Nat) (w : eValue), j < i → b.get j = .ok w b → c.get j = .ok w c) ∧
      (∀ (j : Nat) (w : eValue), i ≤ j → b.get j = .ok w b → c.get (j + 1) = .ok w c) := by
  have hi : i ≤ b.values.length := h
  refine ⟨.mk (b.values.take i ++ v :: b.values.drop i), ?_, ?_, ?_, ?_, ?_⟩
  · simp only [eBottle.insert, if_pos hi, eValue.assign_of_nulFree v hz]
  · simp only [eBottle.count, eBottle.values_mk, List.length_append, List.length_take,
      List.length_cons, List.length_drop]
    omega
  · rw [eBottle.get_eq_ok, eBottle.values_mk, List.get?_eq_getElem?,
      List.getElem?_append_right (by simp [hi])]
    simp [hi]
  · intro j w hj hget
    rw [eBottle.get_eq_ok] at hget ⊢
    rw [List.get?_eq_getElem?] at hget ⊢
    rw [eBottle.values_mk, List.getElem?_append_left (by simp; omega), List.getElem?_take_of_lt hj]
    exact hget
  · intro j w hj hget
    rw [eBottle.get_eq_ok] at hget ⊢
    rw [List.get?_eq_getElem?] at hget ⊢
    rw [eBottle.values_mk, List.getElem?_append_right (by simp; omega)]
    have hlen : (List.take i b.values).length = i := by simp [hi]
    rw [hlen, show j + 1 - i = (j - i) + 1 by omega, List.getElem?_cons_succ,
      List.getElem?_drop, show i + (j - i) = j by omega]
    exact hget

/-- Witness of C8: inserting into the middle of the seed Bag. -/
theorem insert_position_witness :
    1 ≤ seedBag.count ∧ (eValue.STRING [97]).nulFree = true ∧
    ∃ c, seedBag.insert (.STRING [97]) 1 = .ok () c ∧
      c.count = seedBag.count + 1 ∧
      c.get 1 = .ok (.STRING [97]) c ∧
      (∀ (j : Nat) (w : eValue), j < 1 → seedBag.get j = .ok w seedBag → c.get j = .ok w c) ∧
      (∀ (j : Nat) (w : eValue), 1 ≤ j → seedBag.get j = .ok w seedBag →
        c.get (j + 1) = .ok w c) :=
  ⟨by decide, by decide, insert_position seedBag (.STRING [97]) 1 (by decide) (by decide)⟩

/-- C11, as amended: `insert(v, i)` with `i = count()` is not rejected: it returns normally
and leaves the Bag with the copy of `v` appended after the elements it had, whose count has
grown by one. -/
theorem insert_at_count_appends (b : eBottle) (v : eValue) :
    b.insert v b.count = .ok () (b.push_back v.assign) ∧
    (b.push_back v.assign).count = b.count + 1 ∧
    (b.push_back v.assign).values = b.values ++ [v.assign] := by
  refine ⟨?_, ?_, ?_⟩
  · simp [eBottle.insert, eBottle.count, eBottle.push_back]
  · simp [eBottle.count, eBottle.push_back, eBottle.values_mk]
  · simp [eBottle.push_back, eBottle.values_mk]

/-- C11, counterexample: on the seed Bag, which has 3 elements, `insert(Int 9, 3)` is not
ended by a bounds error with the Bag unchanged; it returns normally with 4 elements. -/
theorem insert_bounds_counterexample :
    seedBag.count ≤ 3 ∧
    seedBag.insert (.INT 9) 3 ≠ .out_of_range seedBag ∧
    seedBag.insert (.INT 9) 3
      = .ok () (.mk [.INT 7, .DOUBLE 4602678819172646912, .STRING [104, 105], .INT 9]) := by
  refine ⟨by decide, ?_, rfl⟩
  intro h
  have h2 : seedBag.insert (.INT 9) 3
      = .ok () (.mk [.INT 7, .DOUBLE 4602678819172646912, .STRING [104, 105], .INT 9]) := rfl
  rw [h2] at h
  cases h

/-! ## Claims on the printer -/

theorem intercalate_cons_cons (sep x y : List Nat) (rest : List (List Nat)) :
    List.intercalate sep (x :: y :: rest) = x ++ sep ++ List.intercalate sep (y :: rest) := by
  simp [List.intercalate, List.intersperse, List.append_assoc]

theorem intercalate_single (sep x : List Nat) : List.intercalate sep [x] = x := by
  simp [List.intercalate, List.intersperse]

theorem eBottle.fillStringLoop_eq (fmt : Nat → List Nat) (count : Nat) :
    ∀ (vs : List eValue) (i : Nat), i + vs.length = count →
    eBottle.fillStringLoop fmt count vs i
      = (vs.mapM (eBottle.fillStringCase fmt)).map (List.intercalate [32])
  | [], _, _ => by
    simp only [eBottle.fillStringLoop, List.mapM_nil]
    rfl
  | [v], i, h => by
    simp only [List.length_singleton] at h
    have hi : ¬ (i ≠ count - 1) := by omega
    simp only [eBottle.fillStringLoop, if_neg hi, List.mapM_cons, List.mapM_nil]
    cases eBottle.fillStringCase fmt v with
    | none => rfl
    | some r => simp [intercalate_single]
  | v :: w :: rest, i, h => by
    simp only [List.length_cons] at h
    have hi : i ≠ count - 1 := by omega
    have ih := eBottle.fillStringLoop_eq fmt count (w :: rest) (i + 1)
      (by simp only [List.length_cons]; omega)
    rw [eBottle.fillStringLoop, ih]
    simp only [if_pos hi, List.mapM_cons]
    cases eBottle.fillStringCase fmt v with
    | none => rfl
    | some r =>
      cases eBottle.fillStringCase fmt w with
      | none => rfl
      | some r2 =>
        cases List.mapM (eBottle.fillStringCase fmt) rest with
        | none => rfl
        | some rs => simp [intercalate_cons_cons]

theorem eBottle.toString_eq (fmt : Nat → List Nat) (b : eBottle) :
    eBottle.toString fmt b
      = (b.values.mapM (eBottle.fillStringCase fmt)).map (List.intercalate [32]) := by
  cases b with
  | mk vs =>
    simp only [eBottle.toString, eBottle.fillString, eBottle.values_mk]
    exact eBottle.fillStringLoop_eq fmt vs.length vs 0 (by omega)

/-- C14 (printer shape): for every Bag, `toString` is the renderings of its elements, in
order, joined by exactly one space (nothing before the first, nothing after the last, no outer
parentheses; no text at all for the empty Bag), and it has no defined result exactly when the
rendering of some element has none.  An Int renders as its decimal value, a String as its
bytes before the NUL, a nested Bag `c` as `(` followed by `toString(c)` followed by `)`. -/
theorem printer_shape (fmt : Nat → List Nat) (b : eBottle) :
    eBottle.toString fmt b
      = (b.values.mapM (eBottle.fillStringCase fmt)).map (List.intercalate [32]) ∧
    eBottle.toString fmt eBottle.empty = some [] ∧
    (∀ i : Int, eBottle.fillStringCase fmt (.INT i) = some (decimal i)) ∧
    (∀ s : List Nat, eBottle.fillStringCase fmt (.STRING s) = some (c_str s)) ∧
    (∀ c : eBottle, eBottle.fillStringCase fmt (.BOTTLE c)
      = (eBottle.toString fmt c).map fun t => [40] ++ t ++ [41]) := by
  refine ⟨eBottle.toString_eq fmt b, rfl, fun _ => rfl, fun _ => rfl, fun c => ?_⟩
  simp only [eBottle.fillStringCase, eBottle.toString, List.singleton_append, List.cons_append,
    List.nil_append]

/-- Witness of C14: with `0.5` written as `0.5`, the seed Bag `[Int 7, Double 0.5, String hi]`
prints as `7 0.5 hi`. -/
theorem printer_shape_witness :
    eBottle.toString (fun d => if d = 4602678819172646912 then [48, 46, 53] else [63]) seedBag
      = some [55, 32, 48, 46, 53, 32, 104, 105] :=
  (printer_shape (fun d => if d = 4602678819172646912 then [48, 46, 53] else [63])
    seedBag).1.trans (by decide)

theorem eBottle.blobItems_eq : ∀ (c : Nat) (rest : List Nat),
    eBottle.blobItems c rest
      = List.intercalate [32] ((c :: rest).map fun x => decimal (charToInt x)) ++ [125]
  | c, [] => by simp [eBottle.blobItems, intercalate_single]
  | c, d :: rest => by
    rw [eBottle.blobItems, eBottle.blobItems_eq d rest]
    simp only [List.map_cons, intercalate_cons_cons, List.append_assoc]

theorem charToInt_of_byte (c : Nat) (h : c < 256) : charToInt c = signedByte c := by
  simp only [charToInt, signedByte, Nat.mod_eq_of_lt h]

/-- C15 (blob printing): a Blob of length `N ≥ 1` made of bytes renders as an opening brace,
the `N` decimal numbers of its bytes in order separated by single spaces, and a closing brace;
the number of a byte `u` is `u` read as a signed 8-bit value (`u - 256` from 128 on). -/
theorem blob_printing (fmt : Nat → List Nat) (blob : List Nat) (hN : 1 ≤ blob.length)
    (hb : ∀ c ∈ blob, c < 256) :
    eBottle.fillStringCase fmt (.CHARP blob)
      = some ([123] ++ List.intercalate [32]
          (blob.map fun u => decimal (signedByte u))
          ++ [125]) ∧
    eBottle.toString fmt (.mk [.CHARP blob])
      = some ([123] ++ List.intercalate [32]
          (blob.map fun u => decimal (signedByte u))
          ++ [125]) ∧
    (blob.map fun u => decimal (signedByte u)).length
      = blob.length := by
  have hmap : (blob.map fun x => decimal (charToInt x))
      = blob.map fun u => decimal (signedByte u) := by
    apply List.map_congr_left
    intro c hc
    rw [charToInt_of_byte c (hb c hc)]
  have hcase : eBottle.fillStringCase fmt (.CHARP blob)
      = some ([123] ++ List.intercalate [32]
          (blob.map fun u => decimal (signedByte u))
          ++ [125]) := by
    cases blob with
    | nil => simp at hN
    | cons c rest =>
      rw [← hmap]
      simp only [eBottle.fillStringCase, eBottle.blobText, eBottle.blobItems_eq,
        List.singleton_append, List.cons_append, List.nil_append]
  refine ⟨hcase, ?_, by simp⟩
  rw [eBottle.toString_eq, eBottle.values_mk]
  simp only [List.mapM_cons, List.mapM_nil, hcase]
  simp [intercalate_single]

/-- Witness of C15: the Blob `{200, 5, 127, 128}` prints as `{-56 5 127 -128}`. -/
theorem blob_printing_witness :
    1 ≤ [200, 5, 127, 128].length ∧ (∀ c ∈ [200, 5, 127, 128], c < 256) ∧
    eBottle.toString (fun _ => []) (.mk [.CHARP [200, 5, 127, 128]])
      = some [123, 45, 53, 54, 32, 53, 32, 49, 50, 55, 32, 45, 49, 50, 56, 125] :=
  ⟨by decide, by decide,
    (blob_printing (fun _ => []) [200, 5, 127, 128] (by decide) (by decide)).2.1.trans
      (by decide)⟩

/-! ## Claims on the transport hooks -/

theorem eBottle.write_eq (b : eBottle) (hs : b.wireSize ≤ 2147483647) (fresh : Nat → Nat)
    (sink : List Nat) :
    b.write fresh sink = some (true, sink ++ int32Bytes (b.wireSize : Int) ++ b.wire, b) := by
  have hsize : toInt32 ((b.wireSize : Nat) : Int) = (b.wireSize : Int) :=
    toInt32_of_range _ (by omega) (by omega)
  have hw := eBottle.toBinary_eq b hs ((List.range b.wireSize).map fresh) [] (by simp)
  rw [List.append_nil, List.append_nil] at hw
  unfold eBottle.write
  rw [eBottle.getBinarySize_eq b hs, Option.some_bind]
  show (if 0 ≤ toInt32 (b.wireSize : Int) then
        (b.toBinary (List.map fresh (List.range (toInt32 (b.wireSize : Int)).toNat))).bind
          fun tmp => some (true, ConnectionWriter.appendBlock
            (ConnectionWriter.appendInt sink (toInt32 (b.wireSize : Int))) tmp
            (toInt32 (b.wireSize : Int)).toNat, b)
      else none) = _
  rw [hsize, if_pos (Int.ofNat_nonneg _), Int.toNat_ofNat, hw, Option.some_bind,
    ConnectionWriter.appendInt, ConnectionWriter.appendBlock]
  rw [← eBottle.wire_length b, List.take_length]

/-- C19 (frame written by write): for a Bag whose layout fits the `int` size, `write` returns
`true`, leaves the Bag as it was, and appends to the sink exactly the `int32`
`S = getBinarySize()` followed by exactly the `S` bytes that `toBinary` writes into a buffer
of `S` bytes, and nothing else. -/
theorem write_frame (b : eBottle) (hfit : (b.wireSize : Int) ≤ INT_MAX) (fresh : Nat → Nat)
    (sink : List Nat) :
    ∃ (S : Nat) (bytes : List Nat),
      b.getBinarySize = some S ∧
      (∀ buff : List Nat, buff.length = S → b.toBinary buff = some bytes) ∧
      bytes.length = S ∧
      b.write fresh sink = some (true, sink ++ int32Bytes (S : Int) ++ bytes, b) := by
  have hs : b.wireSize ≤ 2147483647 := by
    unfold INT_MAX at hfit
    omega
  refine ⟨b.wireSize, b.wire, eBottle.getBinarySize_eq b hs, ?_, eBottle.wire_length b,
    eBottle.write_eq b hs fresh sink⟩
  intro buff hb
  have h := eBottle.toBinary_eq b hs buff [] hb
  simpa using h

/-- Witness of C19: the seed Bag written after two bytes already in the sink. -/
theorem write_frame_witness :
    (seedBag.wireSize : Int) ≤ INT_MAX ∧
    ∃ (S : Nat) (bytes : List Nat),
      seedBag.getBinarySize = some S ∧
      (∀ buff : List Nat, buff.length = S → seedBag.toBinary buff = some bytes) ∧
      bytes.length = S ∧
      seedBag.write (fun _ => 0) [1, 2]
        = some (true, [1, 2] ++ int32Bytes (S : Int) ++ bytes, seedBag) :=
  ⟨by decide, write_frame seedBag (by decide) (fun _ => 0) [1, 2]⟩

theorem eBottle.clear_some (c : eBottle) (tp : Scratch) (htp : tp ≠ .released) :
    ∃ after, c.clear tp = some (eBottle.empty, after) := by
  cases tp with
  | null => exact ⟨.null, rfl⟩
  | live => exact ⟨.released, rfl⟩
  | released => exact absurd rfl htp

theorem eBottle.read_released (depth : Nat) (c : eBottle) (connection : ConnectionReader) :
    c.read depth .released connection = none := rfl

theorem eBottle.read_frame (b c : eBottle) (hv : b.valid = true)
    (hs : b.wireSize ≤ 2147483647) (depth : Nat) (hd : b.depth ≤ depth) (more : List Nat)
    (err : Bool) (tp : Scratch) (htp : tp ≠ .released) :
    c.read depth tp ⟨int32Bytes (b.wireSize : Int) ++ b.wire ++ more, err⟩
      = some (!err, b, ⟨more, err⟩) := by
  have hint : ConnectionReader.expectInt
      ⟨int32Bytes (b.wireSize : Int) ++ b.wire ++ more, err⟩
      = some ((b.wireSize : Int), ⟨b.wire ++ more, err⟩) := by
    have hlen := int32Bytes_length (b.wireSize : Int)
    simp only [ConnectionReader.expectInt, List.append_assoc, List.length_append, hlen]
    rw [if_pos (by omega)]
    have ht : List.take 4 (int32Bytes (b.wireSize : Int) ++ (b.wire ++ more))
        = int32Bytes (b.wireSize : Int) := by
      rw [← hlen]
      exact List.take_left _ _
    have hdr : List.drop 4 (int32Bytes (b.wireSize : Int) ++ (b.wire ++ more))
        = b.wire ++ more := by
      rw [← hlen]
      exact List.drop_left _ _
    rw [ht, hdr, toInt32_unle_int32Bytes _ (by omega) (by omega)]
  have hblock : ConnectionReader.expectBlock ⟨b.wire ++ more, err⟩ b.wireSize
      = some (b.wire, ⟨more, err⟩) := by
    have hlen := eBottle.wire_length b
    simp only [ConnectionReader.expectBlock, List.length_append, hlen]
    rw [if_pos (by omega)]
    have ht : List.take b.wireSize (b.wire ++ more) = b.wire := by
      rw [← hlen]
      exact List.take_left _ _
    have hdr : List.drop b.wireSize (b.wire ++ more) = more := by
      rw [← hlen]
      exact List.drop_left _ _
    rw [ht, hdr]
  have hr := eBottle.reconstruct_eq b hv hs depth hd []
  rw [List.append_nil] at hr
  have hfrom : eBottle.fromBinary depth eBottle.empty b.wire (b.wireSize : Int)
      = some (b, false) := by
    simp [eBottle.fromBinary, hr]
  obtain ⟨after, hcl⟩ := eBottle.clear_some c tp htp
  unfold eBottle.read
  rw [hcl, Option.some_bind]
  show (ConnectionReader.expectInt
      ⟨int32Bytes (b.wireSize : Int) ++ b.wire ++ more, err⟩).bind (fun r1 =>
    if 0 ≤ r1.1 then
      (r1.2.expectBlock r1.1.toNat).bind fun r2 =>
      (eBottle.fromBinary depth eBottle.empty r2.1 r1.1).bind fun r3 =>
      some (!r2.2.error, r3.1, r2.2)
    else none) = _
  rw [hint, Option.some_bind]
  show (if 0 ≤ (b.wireSize : Int) then
      (ConnectionReader.expectBlock ⟨b.wire ++ more, err⟩ (b.wireSize : Int).toNat).bind
        fun r2 =>
      (eBottle.fromBinary depth eBottle.empty r2.1 (b.wireSize : Int)).bind fun r3 =>
      some (!r2.2.error, r3.1, r2.2)
    else none) = _
  rw [if_pos (Int.ofNat_nonneg _), Int.toNat_ofNat, hblock, Option.some_bind]
  show (eBottle.fromBinary depth eBottle.empty b.wire (b.wireSize : Int)).bind
    (fun r3 => some (!err, r3.1, (⟨more, err⟩ : ConnectionReader))) = _
  rw [hfrom, Option.some_bind]

/-! ## Claims on the text parser -/

theorem strtokAll_sentinel (x : List Nat) :
    strtokAll ([69, 66, 79, 84, 84, 76, 69, 32] ++ x)
      = [69, 66, 79, 84, 84, 76, 69] :: strtokAll x := by
  simp [strtokAll, strtokFrom]

theorem strtokFrom_mem : ∀ (s cur t : List Nat), t ∈ strtokFrom cur s →
    t ≠ [] ∧ ∀ c ∈ t, c ∈ cur ∨ c ∈ s
  | [], cur, t, h => by
    cases cur with
    | nil => simp [strtokFrom] at h
    | cons a cur =>
      simp only [strtokFrom, List.isEmpty_cons, Bool.false_eq_true, if_false,
        List.mem_singleton] at h
      subst h
      exact ⟨by simp, fun c hc => Or.inl hc⟩
  | c :: rest, cur, t, h => by
    simp only [strtokFrom] at h
    by_cases hc : c = 32
    · rw [if_pos hc] at h
      cases cur with
      | nil =>
        simp only [List.isEmpty_nil, if_true] at h
        have ih := strtokFrom_mem rest [] t h
        exact ⟨ih.1, fun x hx => by
          rcases ih.2 x hx with h1 | h1
          · simp at h1
          · exact Or.inr (List.mem_cons_of_mem _ h1)⟩
      | cons a cur =>
        simp only [List.isEmpty_cons, Bool.false_eq_true, if_false, List.mem_cons] at h
        rcases h with h | h
        · subst h
          exact ⟨by simp, fun x hx => Or.inl hx⟩
        · have ih := strtokFrom_mem rest [] t h
          exact ⟨ih.1, fun x hx => by
            rcases ih.2 x hx with h1 | h1
            · simp at h1
            · exact Or.inr (List.mem_cons_of_mem _ h1)⟩
    · rw [if_neg hc] at h
      have ih := strtokFrom_mem rest (cur ++ [c]) t h
      exact ⟨ih.1, fun x hx => by
        rcases ih.2 x hx with h1 | h1
        · rcases List.mem_append.mp h1 with h2 | h2
          · exact Or.inl h2
          · simp only [List.mem_singleton] at h2
            subst h2
            exact Or.inr (List.mem_cons_self _ _)
        · exact Or.inr (List.mem_cons_of_mem _ h1)⟩

theorem strtokAll_mem (s t : List Nat) (h : t ∈ strtokAll s) :
    t ≠ [] ∧ ∀ c ∈ t, c ∈ s := by
  have h1 := strtokFrom_mem s [] t h
  exact ⟨h1.1, fun c hc => by
    rcases h1.2 c hc with h2 | h2
    · simp at h2
    · exact h2⟩

theorem headD_mem (t : List Nat) (h : t ≠ []) : t.headD 0 ∈ t := by
  cases t with
  | nil => exact absurd rfl h
  | cons a t => simp

theorem c_str_all_ne_zero (s : List Nat) : (c_str s).all (fun c => c != 0) = true := by
  simp only [c_str, List.all_eq_true]
  intro c hc
  exact List.mem_takeWhile_imp (p := fun c => c != 0) hc

theorem spaced_of_no_bracket : ∀ s : List Nat, (∀ c ∈ s, isBracket c = false) → spaced s = s
  | [], _ => rfl
  | c :: rest, h => by
    have h1 : isBracket c = false := h c (List.mem_cons_self _ _)
    simp only [spaced, h1, Bool.false_eq_true, if_false,
      spaced_of_no_bracket rest (fun x hx => h x (List.mem_cons_of_mem _ hx))]

/-! ## Decimal text of an `int`, read back by `atoi` -/

theorem digitsAux_spec : ∀ (fuel n : Nat) (acc : List Nat), n < fuel →
    ∃ ds : List Nat, digitsAux fuel n acc = ds ++ acc ∧ ds ≠ [] ∧
      (∀ c ∈ ds, 48 ≤ c ∧ c ≤ 57) ∧
      ∃ m, ∀ (rest : List Nat) (a : Nat), atoiDigits (ds ++ rest) a = atoiDigits rest (a * m + n)
  | 0, n, acc, h => absurd h (Nat.not_lt_zero n)
  | fuel + 1, n, acc, h => by
    rw [digitsAux]
    have hd : 48 ≤ 48 + n % 10 ∧ 48 + n % 10 ≤ 57 := by omega
    by_cases h0 : n / 10 = 0
    · rw [if_pos h0]
      refine ⟨[48 + n % 10], rfl, by simp, ?_, 10, ?_⟩
      · intro c hc; rw [List.mem_singleton.1 hc]; exact hd
      · intro rest a
        rw [List.singleton_append, atoiDigits, if_pos hd]
        congr 1
        have : n % 10 = n := by omega
        omega
    · rw [if_neg h0]
      obtain ⟨ds, hds, hne, hdig, m, hm⟩ :=
        digitsAux_spec fuel (n / 10) ((48 + n % 10) :: acc) (by omega)
      refine ⟨ds ++ [48 + n % 10], ?_, by simp, ?_, m * 10, ?_⟩
      · rw [hds, List.append_assoc, List.singleton_append]
      · intro c hc
        rcases List.mem_append.1 hc with hc | hc
        · exact hdig c hc
        · rw [List.mem_singleton.1 hc]; exact hd
      · intro rest a
        rw [List.append_assoc, hm, List.singleton_append, atoiDigits, if_pos hd]
        congr 1
        have e1 : 48 + n % 10 - 48 = n % 10 := by omega
        rw [e1, Nat.add_mul, Nat.mul_assoc]
        omega

theorem decimalNat_spec (n : Nat) :
    decimalNat n ≠ [] ∧ (∀ c ∈ decimalNat n, 48 ≤ c ∧ c ≤ 57) ∧
    atoiDigits (decimalNat n) 0 = n := by
  obtain ⟨ds, hds, hne, hdig, m, hm⟩ := digitsAux_spec (n + 1) n [] (Nat.lt_succ_self n)
  rw [List.append_nil] at hds
  rw [decimalNat, hds]
  refine ⟨hne, hdig, ?_⟩
  have := hm [] 0
  rw [List.append_nil] at this
  rw [this, atoiDigits]
  omega

theorem decimal_chars (i : Int) :
    decimal i ≠ [] ∧ (∀ c ∈ decimal i, c = 45 ∨ (48 ≤ c ∧ c ≤ 57)) ∧
    (decimal i).headD 0 ≠ 32 ∧ ((decimal i).headD 0 = 45 ∨
      (48 ≤ (decimal i).headD 0 ∧ (decimal i).headD 0 ≤ 57)) := by
  unfold decimal
  by_cases hi : i < 0
  · rw [if_pos hi]
    refine ⟨by simp, ?_, by simp, Or.inl rfl⟩
    intro c hc
    rcases List.mem_cons.1 hc with e | hc
    · exact Or.inl e
    · exact Or.inr ((decimalNat_spec _).2.1 c hc)
  · rw [if_neg hi]
    obtain ⟨hne, hdig, _⟩ := decimalNat_spec i.toNat
    have hhead := hdig _ (headD_mem _ hne)
    exact ⟨hne, fun c hc => Or.inr (hdig c hc), by omega, Or.inr hhead⟩

theorem isspace_digit (c : Nat) (hc : 48 ≤ c ∧ c ≤ 57) : isspace c = false := by
  unfold isspace
  have e1 : (c == 32) = false := by
    rw [beq_eq_false_iff_ne]; omega
  have e2 : decide (c ≤ 13) = false := by
    rw [decide_eq_false_iff_not]; omega
  rw [e1, e2]; simp

theorem strtol_minus (rest : List Nat) :
    strtol (45 :: rest)
      = if -(atoiDigits rest 0 : Int) < LONG_MIN then LONG_MIN
        else -(atoiDigits rest 0 : Int) := rfl

theorem strtol_digit (c : Nat) (rest : List Nat) (hc : 48 ≤ c ∧ c ≤ 57) :
    strtol (c :: rest)
      = if LONG_MAX < (atoiDigits (c :: rest) 0 : Int) then LONG_MAX
        else (atoiDigits (c :: rest) 0 : Int) := by
  have hdrop : (c :: rest).dropWhile isspace = c :: rest := by
    rw [List.dropWhile_cons_of_neg (by rw [isspace_digit c hc]; decide)]
  have h45 : c ≠ 45 := by omega
  have h43 : c ≠ 43 := by omega
  unfold strtol
  rw [hdrop]
  delta strtol.match_1
  simp only [dif_neg h45, dif_neg h43]

theorem strtol_decimal (i : Int) (h1 : LONG_MIN ≤ i) (h2 : i ≤ LONG_MAX) :
    strtol (decimal i) = i := by
  unfold LONG_MIN at h1
  unfold LONG_MAX at h2
  unfold decimal
  by_cases hi : i < 0
  · rw [if_pos hi, strtol_minus, (decimalNat_spec i.natAbs).2.2]
    have e : -((i.natAbs : Nat) : Int) = i := by omega
    rw [e, if_neg (by unfold LONG_MIN; omega)]
  · rw [if_neg hi]
    obtain ⟨hne, hdig, hval⟩ := decimalNat_spec i.toNat
    cases hds : decimalNat i.toNat with
    | nil => exact absurd hds hne
    | cons c rest =>
      have hc : 48 ≤ c ∧ c ≤ 57 := hdig c (by rw [hds]; exact List.mem_cons_self _ _)
      rw [strtol_digit c rest hc, ← hds, hval]
      have e : ((i.toNat : Nat) : Int) = i := by omega
      rw [e, if_neg (by unfold LONG_MAX; omega)]

theorem atoi_decimal (i : Int) (h1 : -2147483648 ≤ i) (h2 : i ≤ 2147483647) :
    atoi (decimal i) = i := by
  rw [atoi, strtol_decimal i (by unfold LONG_MIN; omega) (by unfold LONG_MAX; omega)]
  exact toInt32_of_range i h1 h2

/-- A digit string too long for `long`: `strtol` gives `LONG_MAX` and the conversion to `int`
gives `-1`; on a value that fits `long` but not `int` the conversion keeps the low 32 bits. -/
theorem atoi_out_of_range :
    atoi [57, 57, 57, 57, 57, 57, 57, 57, 57, 57, 57, 57, 57, 57, 57, 57, 57, 57, 57, 57] = -1 ∧
    atoi [45, 57, 57, 57, 57, 57, 57, 57, 57, 57, 57, 57, 57, 57, 57, 57, 57, 57, 57, 57, 57]
      = 0 ∧
    atoi [52, 50, 57, 52, 57, 54, 55, 50, 57, 55] = 1 ∧
    atoi [50, 49, 52, 55, 52, 56, 51, 54, 52, 56] = -2147483648 := by
  refine ⟨by decide, by decide, by decide, by decide⟩

theorem atomValue_decimal (atof : List Nat → Nat) (i : Int) (h1 : -2147483648 ≤ i)
    (h2 : i ≤ 2147483647) : atomValue atof (decimal i) = .INT i := by
  obtain ⟨_, hch, _, hh⟩ := decimal_chars i
  have hs : ¬ (65 ≤ (decimal i).headD 0 ∧ (decimal i).headD 0 ≤ 122) := by omega
  have hd : 46 ∉ decimal i := by
    intro h
    have := hch 46 h
    omega
  rw [atomValue, if_neg hs, if_neg hd, atoi_decimal i h1 h2]

/-! ## Atoms -/

theorem eBottle.fromStrLoop_atoms (atof : List Nat → Nat) :
    ∀ (tokens : List (List Nat)) (fuel : Nat) (b : eBottle) (v : List Nat),
    tokens.length < fuel →
    (∀ t ∈ tokens, isBracket (t.headD 0) = false ∧ t.all (fun c => c != 0) = true) →
    eBottle.fromStrLoop atof fuel b false v tokens
      = some (.mk (b.values ++ tokens.map (atomValue atof)), [])
  | [], fuel, b, v, hf, _ => by
    cases fuel with
    | zero => simp at hf
    | succ fuel => simp [eBottle.fromStrLoop, eBottle.mk_values]
  | t :: rest, fuel, b, v, hf, ht => by
    cases fuel with
    | zero => simp at hf
    | succ fuel =>
      have hlen : rest.length < fuel := by
        simp only [List.length_cons] at hf
        omega
      have h1 := ht t (List.mem_cons_self _ _)
      have hrest : ∀ t ∈ rest, isBracket (t.headD 0) = false ∧
          t.all (fun c => c != 0) = true := fun x hx => ht x (List.mem_cons_of_mem _ hx)
      have hb : t.headD 0 ≠ 40 ∧ t.headD 0 ≠ 41 ∧ t.headD 0 ≠ 123 ∧ t.headD 0 ≠ 125 := by
        have := h1.1
        simp only [isBracket, Bool.or_eq_false_iff, beq_eq_false_iff_ne] at this
        exact ⟨this.1.1.1, this.1.1.2, this.1.2, this.2⟩
      by_cases hs : 65 ≤ t.headD 0 ∧ t.headD 0 ≤ 122
      · rw [eBottle.fromStrLoop, if_pos hs,
          eBottle.fromStrLoop_atoms atof rest fuel _ v hlen hrest]
        have hav : atomValue atof t = .STRING t := by rw [atomValue, if_pos hs]
        simp only [eBottle.addString, eBottle.push_back, eBottle.values_mk, hav,
          c_str_of_nulFree t h1.2, List.map_cons, List.append_assoc, List.singleton_append]
      · by_cases hd : 46 ∈ t
        · rw [eBottle.fromStrLoop, if_neg hs, if_neg hb.1, if_neg hb.2.1, if_neg hb.2.2.1,
            if_neg hb.2.2.2, if_neg (by simp), if_pos hd,
            eBottle.fromStrLoop_atoms atof rest fuel _ v hlen hrest]
          have hav : atomValue atof t = .DOUBLE (atof t) := by
            rw [atomValue, if_neg hs, if_pos hd]
          simp only [eBottle.addDouble, eBottle.push_back, eBottle.values_mk, hav,
            List.map_cons, List.append_assoc, List.singleton_append]
        · rw [eBottle.fromStrLoop, if_neg hs, if_neg hb.1, if_neg hb.2.1, if_neg hb.2.2.1,
            if_neg hb.2.2.2, if_neg (by simp), if_neg hd,
            eBottle.fromStrLoop_atoms atof rest fuel _ v hlen hrest]
          have hav : atomValue atof t = .INT (atoi t) := by
            rw [atomValue, if_neg hs, if_neg hd]
          simp only [eBottle.addInt, eBottle.push_back, eBottle.values_mk, hav,
            List.map_cons, List.append_assoc, List.singleton_append]

/-- C16 (atom classification): for every text whose bytes before its NUL hold none of `(`,
`)`, `{`, `}`, `fromString` into an empty Bag gives exactly one element per token (the
maximal runs of bytes other than the space), in the order of the tokens and from the first
token on: a String holding the whole token when the first byte of the token lies in
`'A'..'z'` (65..122), otherwise a Double (`atof` of the token) when the token contains `.`,
otherwise an Int (`atoi` of the token); and for a token that is the decimal text of an `int`
that Int is the number itself. -/
theorem atom_classification (atof : List Nat → Nat) (txt : List Nat)
    (hb : ∀ c ∈ c_str txt, isBracket c = false) :
    eBottle.fromString atof eBottle.empty txt
      = some (.mk ((strtokAll (c_str txt)).map (atomValue atof))) ∧
    ∀ i : Int, -2147483648 ≤ i → i ≤ 2147483647 →
      atomValue atof (decimal i) = .INT i := by
  refine ⟨?_, fun i h1 h2 => atomValue_decimal atof i h1 h2⟩
  have htok : ∀ t ∈ strtokAll (c_str txt),
      isBracket (t.headD 0) = false ∧ t.all (fun c => c != 0) = true := by
    intro t ht
    have h1 := strtokAll_mem (c_str txt) t ht
    refine ⟨hb _ (h1.2 _ (headD_mem t h1.1)), ?_⟩
    have h0 := c_str_all_ne_zero txt
    simp only [List.all_eq_true] at h0 ⊢
    exact fun c hc => h0 c (h1.2 c hc)
  have hloop := eBottle.fromStrLoop_atoms atof (strtokAll (c_str txt))
    ((strtokAll (c_str txt)).length + 1 + 1) eBottle.empty [] (by omega) htok
  simp only [eBottle.fromString, eBottle.fromStringText, spaced_of_no_bracket _ hb,
    strtokAll_sentinel, List.tail_cons, List.length_cons, eBottle.fromStr, hloop,
    Option.map_some', eBottle.values_empty, List.nil_append]

/-- Witness of C16: `1 2 3` gives `[Int 1, Int 2, Int 3]` and `1.5 2 foo` gives
`[Double 1.5, Int 2, String foo]`. -/
theorem atom_classification_witness :
    (∀ c ∈ c_str [49, 46, 53, 32, 50, 32, 102, 111, 111], isBracket c = false) ∧
    eBottle.fromString atofExamples eBottle.empty [49, 46, 53, 32, 50, 32, 102, 111, 111]
      = some (.mk [.DOUBLE 4609434218613702656, .INT 2, .STRING [102, 111, 111]]) ∧
    eBottle.fromString atofExamples eBottle.empty [49, 32, 50, 32, 51]
      = some (.mk [.INT 1, .INT 2, .INT 3]) :=
  ⟨by decide,
    (atom_classification atofExamples [49, 46, 53, 32, 50, 32, 102, 111, 111]
      (by decide)).1.trans (by decide),
    (atom_classification atofExamples [49, 32, 50, 32, 51] (by decide)).1.trans (by decide)⟩

theorem eBottle.fromStrLoop_total (atof : List Nat → Nat) :
    ∀ (n : Nat) (tokens : List (List Nat)) (b : eBottle) (beginBlob : Bool) (v : List Nat),
    tokens.length ≤ n →
    ∃ r : eBottle × List (List Nat), r.2.length ≤ tokens.length ∧
      ∀ fuel, tokens.length < fuel →
        eBottle.fromStrLoop atof fuel b beginBlob v tokens = some r := by
  intro n
  induction n with
  | zero =>
    intro tokens b beginBlob v hn
    have h0 : tokens = [] := List.length_eq_zero.mp (Nat.le_zero.mp hn)
    subst h0
    refine ⟨(b, []), Nat.le_refl _, ?_⟩
    intro fuel hf
    cases fuel with
    | zero => simp at hf
    | succ fuel => rfl
  | succ n ih =>
    intro tokens b beginBlob v hn
    cases tokens with
    | nil =>
      refine ⟨(b, []), Nat.le_refl _, ?_⟩
      intro fuel hf
      cases fuel with
      | zero => simp at hf
      | succ fuel => rfl
    | cons t rest =>
      have hrest : rest.length ≤ n := by
        simp only [List.length_cons] at hn
        omega
      have step : ∀ (b1 : eBottle) (bb1 : Bool) (v1 : List Nat),
          ∃ r : eBottle × List (List Nat), r.2.length ≤ (t :: rest).length ∧
            ∀ fuel, rest.length < fuel →
              eBottle.fromStrLoop atof fuel b1 bb1 v1 rest = some r := by
        intro b1 bb1 v1
        obtain ⟨r, hr1, hr2⟩ := ih rest b1 bb1 v1 hrest
        exact ⟨r, by simp only [List.length_cons]; omega, hr2⟩
      by_cases h1 : 65 ≤ t.headD 0 ∧ t.headD 0 ≤ 122
      · obtain ⟨r, hr1, hr2⟩ := step (b.addString t) beginBlob v
        refine ⟨r, hr1, ?_⟩
        intro fuel hf
        cases fuel with
        | zero => simp at hf
        | succ fuel =>
          rw [eBottle.fromStrLoop, if_pos h1]
          exact hr2 fuel (by simp only [List.length_cons] at hf; omega)
      by_cases h2 : t.headD 0 = 40
      · obtain ⟨r1, hr11, hr12⟩ := ih rest eBottle.empty false [] hrest
        obtain ⟨r, hr1, hr2⟩ := ih r1.2 (b.addListPtr r1.1) beginBlob v (by omega)
        refine ⟨r, by simp only [List.length_cons]; omega, ?_⟩
        intro fuel hf
        cases fuel with
        | zero => simp at hf
        | succ fuel =>
          have hf2 : rest.length < fuel := by simp only [List.length_cons] at hf; omega
          rw [eBottle.fromStrLoop, if_neg h1, if_pos h2, hr12 fuel hf2, Option.some_bind]
          exact hr2 fuel (by omega)
      by_cases h3 : t.headD 0 = 41
      · refine ⟨(b, rest), by simp, ?_⟩
        intro fuel hf
        cases fuel with
        | zero => simp at hf
        | succ fuel => rw [eBottle.fromStrLoop, if_neg h1, if_neg h2, if_pos h3]
      by_cases h4 : t.headD 0 = 123
      · obtain ⟨r, hr1, hr2⟩ := step b true v
        refine ⟨r, hr1, ?_⟩
        intro fuel hf
        cases fuel with
        | zero => simp at hf
        | succ fuel =>
          rw [eBottle.fromStrLoop, if_neg h1, if_neg h2, if_neg h3, if_pos h4]
          exact hr2 fuel (by simp only [List.length_cons] at hf; omega)
      by_cases h5 : t.headD 0 = 125
      · obtain ⟨r, hr1, hr2⟩ := step (b.addBlob v) false v
        refine ⟨r, hr1, ?_⟩
        intro fuel hf
        cases fuel with
        | zero => simp at hf
        | succ fuel =>
          rw [eBottle.fromStrLoop, if_neg h1, if_neg h2, if_neg h3, if_neg h4, if_pos h5]
          exact hr2 fuel (by simp only [List.length_cons] at hf; omega)
      by_cases h6 : beginBlob = true
      · obtain ⟨r, hr1, hr2⟩ := step b beginBlob (v ++ [intToChar (atoi t)])
        refine ⟨r, hr1, ?_⟩
        intro fuel hf
        cases fuel with
        | zero => simp at hf
        | succ fuel =>
          rw [eBottle.fromStrLoop, if_neg h1, if_neg h2, if_neg h3, if_neg h4, if_neg h5,
            if_pos h6]
          exact hr2 fuel (by simp only [List.length_cons] at hf; omega)
      by_cases h7 : 46 ∈ t
      · obtain ⟨r, hr1, hr2⟩ := step (b.addDouble (atof t)) beginBlob v
        refine ⟨r, hr1, ?_⟩
        intro fuel hf
        cases fuel with
        | zero => simp at hf
        | succ fuel =>
          rw [eBottle.fromStrLoop, if_neg h1, if_neg h2, if_neg h3, if_neg h4, if_neg h5,
            if_neg h6, if_pos h7]
          exact hr2 fuel (by simp only [List.length_cons] at hf; omega)
      · obtain ⟨r, hr1, hr2⟩ := step (b.addInt (atoi t)) beginBlob v
        refine ⟨r, hr1, ?_⟩
        intro fuel hf
        cases fuel with
        | zero => simp at hf
        | succ fuel =>
          rw [eBottle.fromStrLoop, if_neg h1, if_neg h2, if_neg h3, if_neg h4, if_neg h5,
            if_neg h6, if_neg h7]
          exact hr2 fuel (by simp only [List.length_cons] at hf; omega)

theorem eBottle.onto_push_back (b : eBottle) (x : eValue) (r : eBottle × List (List Nat)) :
    eBottle.onto b (eBottle.onto (eBottle.empty.push_back x) r)
      = eBottle.onto (b.push_back x) r := by
  simp only [eBottle.onto, eBottle.push_back, eBottle.values_mk, eBottle.values_empty,
    List.nil_append, List.append_assoc]

theorem eBottle.fromStrLoop_step_onto (atof : List Nat → Nat) (fuel : Nat)
    (ih : ∀ (b : eBottle) (bb : Bool) (v : List Nat) (tokens : List (List Nat)),
      eBottle.fromStrLoop atof fuel b bb v tokens
        = (eBottle.fromStrLoop atof fuel eBottle.empty bb v tokens).map (eBottle.onto b))
    (b : eBottle) (x : eValue) (bb : Bool) (v : List Nat) (tokens : List (List Nat)) :
    eBottle.fromStrLoop atof fuel (b.push_back x) bb v tokens
      = (eBottle.fromStrLoop atof fuel (eBottle.empty.push_back x) bb v tokens).map
          (eBottle.onto b) := by
  rw [ih (b.push_back x), ih (eBottle.empty.push_back x), Option.map_map]
  congr 1
  funext r
  exact (eBottle.onto_push_back b x r).symm

theorem eBottle.fromStrLoop_onto (atof : List Nat → Nat) :
    ∀ (fuel : Nat) (b : eBottle) (bb : Bool) (v : List Nat) (tokens : List (List Nat)),
    eBottle.fromStrLoop atof fuel b bb v tokens
      = (eBottle.fromStrLoop atof fuel eBottle.empty bb v tokens).map (eBottle.onto b) := by
  intro fuel
  induction fuel with
  | zero => intro b bb v tokens; rfl
  | succ fuel ih =>
    intro b bb v tokens
    cases tokens with
    | nil =>
      simp only [eBottle.fromStrLoop, Option.map_some', eBottle.onto, eBottle.values_empty,
        List.append_nil, eBottle.mk_values]
    | cons t rest =>
      have hstep := eBottle.fromStrLoop_step_onto atof fuel ih b
      by_cases h1 : 65 ≤ t.headD 0 ∧ t.headD 0 ≤ 122
      · rw [eBottle.fromStrLoop, eBottle.fromStrLoop, if_pos h1, if_pos h1]
        exact hstep _ _ _ _
      by_cases h2 : t.headD 0 = 40
      · rw [eBottle.fromStrLoop, eBottle.fromStrLoop, if_neg h1, if_neg h1, if_pos h2,
          if_pos h2]
        cases eBottle.fromStrLoop atof fuel eBottle.empty false [] rest with
        | none => rfl
        | some r =>
          rw [Option.some_bind, Option.some_bind]
          exact hstep _ _ _ _
      by_cases h3 : t.headD 0 = 41
      · rw [eBottle.fromStrLoop, eBottle.fromStrLoop, if_neg h1, if_neg h1, if_neg h2,
          if_neg h2, if_pos h3, if_pos h3]
        simp only [Option.map_some', eBottle.onto, eBottle.values_empty, List.append_nil,
          eBottle.mk_values]
      by_cases h4 : t.headD 0 = 123
      · rw [eBottle.fromStrLoop, eBottle.fromStrLoop, if_neg h1, if_neg h1, if_neg h2,
          if_neg h2, if_neg h3, if_neg h3, if_pos h4, if_pos h4]
        exact ih _ _ _ _
      by_cases h5 : t.headD 0 = 125
      · rw [eBottle.fromStrLoop, eBottle.fromStrLoop, if_neg h1, if_neg h1, if_neg h2,
          if_neg h2, if_neg h3, if_neg h3, if_neg h4, if_neg h4, if_pos h5, if_pos h5]
        exact hstep _ _ _ _
      by_cases h6 : bb = true
      · rw [eBottle.fromStrLoop, eBottle.fromStrLoop, if_neg h1, if_neg h1, if_neg h2,
          if_neg h2, if_neg h3, if_neg h3, if_neg h4, if_neg h4, if_neg h5, if_neg h5,
          if_pos h6, if_pos h6]
        exact ih _ _ _ _
      by_cases h7 : 46 ∈ t
      · rw [eBottle.fromStrLoop, eBottle.fromStrLoop, if_neg h1, if_neg h1, if_neg h2,
          if_neg h2, if_neg h3, if_neg h3, if_neg h4, if_neg h4, if_neg h5, if_neg h5,
          if_neg h6, if_neg h6, if_pos h7, if_pos h7]
        exact hstep _ _ _ _
      · rw [eBottle.fromStrLoop, eBottle.fromStrLoop, if_neg h1, if_neg h1, if_neg h2,
          if_neg h2, if_neg h3, if_neg h3, if_neg h4, if_neg h4, if_neg h5, if_neg h5,
          if_neg h6, if_neg h6, if_neg h7, if_neg h7]
        exact hstep _ _ _ _

theorem eBottle.fromStrLoop_cons_atom (atof : List Nat → Nat) (fuel : Nat) (b : eBottle)
    (bb : Bool) (v : List Nat) (t : List Nat) (h40 : t.headD 0 ≠ 40) (h41 : t.headD 0 ≠ 41) :
    ∃ (b1 : eBottle) (bb1 : Bool) (v1 : List Nat), ∀ Z : List (List Nat),
      eBottle.fromStrLoop atof (fuel + 1) b bb v (t :: Z)
        = eBottle.fromStrLoop atof fuel b1 bb1 v1 Z := by
  by_cases h1 : 65 ≤ t.headD 0 ∧ t.headD 0 ≤ 122
  · exact ⟨b.addString t, bb, v, fun Z => by rw [eBottle.fromStrLoop, if_pos h1]⟩
  by_cases h4 : t.headD 0 = 123
  · exact ⟨b, true, v, fun Z => by
      rw [eBottle.fromStrLoop, if_neg h1, if_neg h40, if_neg h41, if_pos h4]⟩
  by_cases h5 : t.headD 0 = 125
  · exact ⟨b.addBlob v, false, v, fun Z => by
      rw [eBottle.fromStrLoop, if_neg h1, if_neg h40, if_neg h41, if_neg h4, if_pos h5]⟩
  by_cases h6 : bb = true
  · exact ⟨b, bb, v ++ [intToChar (atoi t)], fun Z => by
      rw [eBottle.fromStrLoop, if_neg h1, if_neg h40, if_neg h41, if_neg h4, if_neg h5,
        if_pos h6]⟩
  by_cases h7 : 46 ∈ t
  · exact ⟨b.addDouble (atof t), bb, v, fun Z => by
      rw [eBottle.fromStrLoop, if_neg h1, if_neg h40, if_neg h41, if_neg h4, if_neg h5,
        if_neg h6, if_pos h7]⟩
  · exact ⟨b.addInt (atoi t), bb, v, fun Z => by
      rw [eBottle.fromStrLoop, if_neg h1, if_neg h40, if_neg h41, if_neg h4, if_neg h5,
        if_neg h6, if_neg h7]⟩

theorem eBottle.fromStrLoop_cons_open (atof : List Nat → Nat) (fuel : Nat) (b : eBottle)
    (bb : Bool) (v : List Nat) (t : List Nat) (h40 : t.headD 0 = 40) (Z : List (List Nat)) :
    eBottle.fromStrLoop atof (fuel + 1) b bb v (t :: Z)
      = (eBottle.fromStrLoop atof fuel eBottle.empty false [] Z).bind fun r =>
          eBottle.fromStrLoop atof fuel (b.addListPtr r.1) bb v r.2 := by
  rw [eBottle.fromStrLoop, if_neg (by omega), if_pos h40]

theorem eBottle.fromStrLoop_cons_close (atof : List Nat → Nat) (fuel : Nat) (b : eBottle)
    (bb : Bool) (v : List Nat) (t : List Nat) (h41 : t.headD 0 = 41) (Z : List (List Nat)) :
    eBottle.fromStrLoop atof (fuel + 1) b bb v (t :: Z) = some (b, Z) := by
  rw [eBottle.fromStrLoop, if_neg (by omega), if_neg (by omega), if_pos h41]

theorem tokenDepth_cons_atom (d : Nat) (t : List Nat) (X : List (List Nat))
    (h40 : t.headD 0 ≠ 40) (h41 : t.headD 0 ≠ 41) :
    tokenDepth d (t :: X) = tokenDepth d X := by
  rw [tokenDepth, if_neg h40, if_neg h41]

theorem tokenDepth_cons_open (d : Nat) (t : List Nat) (X : List (List Nat))
    (h40 : t.headD 0 = 40) : tokenDepth d (t :: X) = tokenDepth (d + 1) X := by
  rw [tokenDepth, if_pos h40]

theorem tokenDepth_cons_close_zero (t : List Nat) (X : List (List Nat))
    (h41 : t.headD 0 = 41) : tokenDepth 0 (t :: X) = none := by
  rw [tokenDepth, if_neg (by omega), if_pos h41, if_pos rfl]

theorem tokenDepth_cons_close_succ (d : Nat) (t : List Nat) (X : List (List Nat))
    (h41 : t.headD 0 = 41) : tokenDepth (d + 1) (t :: X) = tokenDepth d X := by
  rw [tokenDepth, if_neg (by omega), if_pos h41, if_neg (by omega), Nat.add_sub_cancel]

theorem eBottle.fromStrLoop_suffix (atof : List Nat → Nat) :
    ∀ (fuel : Nat) (X : List (List Nat)) (b : eBottle) (bb : Bool) (v : List Nat)
      (r : eBottle × List (List Nat)),
    eBottle.fromStrLoop atof fuel b bb v X = some r →
    (tokenDepth 0 X = none →
      (∀ Y, eBottle.fromStrLoop atof fuel b bb v (X ++ Y) = some (r.1, r.2 ++ Y)) ∧
      (∀ d, tokenDepth (d + 1) X = tokenDepth d r.2)) ∧
    (∀ e, tokenDepth 0 X = some e →
      r.2 = [] ∧ (∀ d, tokenDepth d X = some (d + e)) ∧
      (e = 0 → ∀ Y, eBottle.fromStrLoop atof fuel b bb v (X ++ [41] :: Y) = some (r.1, Y))) := by
  intro fuel
  induction fuel with
  | zero =>
    intro X b bb v r h
    simp [eBottle.fromStrLoop] at h
  | succ fuel ih =>
    intro X b bb v r h
    cases X with
    | nil =>
      have hr : r = (b, []) := by
        simp only [eBottle.fromStrLoop, Option.some.injEq] at h
        exact h.symm
      subst hr
      refine ⟨fun h0 => by simp [tokenDepth] at h0, fun e he => ?_⟩
      have he0 : e = 0 := by
        simp only [tokenDepth, Option.some.injEq] at he
        exact he.symm
      subst he0
      refine ⟨rfl, fun d => by simp [tokenDepth], fun _ Y => ?_⟩
      exact eBottle.fromStrLoop_cons_close atof fuel b bb v [41] rfl Y
    | cons t X =>
      by_cases h40 : t.headD 0 = 40
      · rw [eBottle.fromStrLoop_cons_open atof fuel b bb v t h40] at h
        cases hn : eBottle.fromStrLoop atof fuel eBottle.empty false [] X with
        | none => simp [hn] at h
        | some r1 =>
          rw [hn, Option.some_bind] at h
          have ih1 := ih X eBottle.empty false [] r1 hn
          have ih2 := ih r1.2 (b.addListPtr r1.1) bb v r h
          cases h0 : tokenDepth 0 X with
          | none =>
            obtain ⟨hA1, hA2⟩ := ih1.1 h0
            have hX0 : tokenDepth 0 (t :: X) = tokenDepth 0 r1.2 := by
              rw [tokenDepth_cons_open 0 t X h40]
              exact hA2 0
            constructor
            · intro hnone
              rw [hX0] at hnone
              obtain ⟨hB1, hB2⟩ := ih2.1 hnone
              constructor
              · intro Y
                rw [List.cons_append, eBottle.fromStrLoop_cons_open atof fuel b bb v t h40,
                  hA1 Y, Option.some_bind]
                exact hB1 Y
              · intro d
                rw [tokenDepth_cons_open (d + 1) t X h40, hA2 (d + 1)]
                exact hB2 d
            · intro e he
              rw [hX0] at he
              obtain ⟨hC1, hC2, hC3⟩ := ih2.2 e he
              refine ⟨hC1, ?_, ?_⟩
              · intro d
                rw [tokenDepth_cons_open d t X h40, hA2 d]
                exact hC2 d
              · intro he0 Y
                rw [List.cons_append, eBottle.fromStrLoop_cons_open atof fuel b bb v t h40,
                  hA1 ([41] :: Y), Option.some_bind]
                exact hC3 he0 Y
          | some e1 =>
            obtain ⟨hD1, hD2, _⟩ := ih1.2 e1 h0
            have hX : ∀ d, tokenDepth d (t :: X) = some (d + (1 + e1)) := by
              intro d
              rw [tokenDepth_cons_open d t X h40, hD2 (d + 1)]
              congr 1
              omega
            have hr : r = (b.addListPtr r1.1, []) := by
              rw [hD1] at h
              cases fuel with
              | zero => simp [eBottle.fromStrLoop] at hn
              | succ fuel =>
                simp only [eBottle.fromStrLoop, Option.some.injEq] at h
                exact h.symm
            constructor
            · intro hnone
              rw [hX 0] at hnone
              cases hnone
            · intro e he
              rw [hX 0, Option.some.injEq] at he
              refine ⟨by rw [hr], ?_, ?_⟩
              · intro d
                rw [hX d, ← he]
                congr 1
                omega
              · intro he0
                omega
      by_cases h41 : t.headD 0 = 41
      · rw [eBottle.fromStrLoop_cons_close atof fuel b bb v t h41, Option.some.injEq] at h
        subst h
        constructor
        · intro _
          constructor
          · intro Y
            rw [List.cons_append]
            exact eBottle.fromStrLoop_cons_close atof fuel b bb v t h41 (X ++ Y)
          · intro d
            exact tokenDepth_cons_close_succ d t X h41
        · intro e he
          rw [tokenDepth_cons_close_zero t X h41] at he
          cases he
      · obtain ⟨b1, bb1, v1, hstep⟩ :=
          eBottle.fromStrLoop_cons_atom atof fuel b bb v t h40 h41
        rw [hstep X] at h
        have ih1 := ih X b1 bb1 v1 r h
        constructor
        · intro hnone
          rw [tokenDepth_cons_atom 0 t X h40 h41] at hnone
          obtain ⟨hA1, hA2⟩ := ih1.1 hnone
          constructor
          · intro Y
            rw [List.cons_append, hstep (X ++ Y)]
            exact hA1 Y
          · intro d
            rw [tokenDepth_cons_atom (d + 1) t X h40 h41]
            exact hA2 d
        · intro e he
          rw [tokenDepth_cons_atom 0 t X h40 h41] at he
          obtain ⟨hC1, hC2, hC3⟩ := ih1.2 e he
          refine ⟨hC1, ?_, ?_⟩
          · intro d
            rw [tokenDepth_cons_atom d t X h40 h41]
            exact hC2 d
          · intro he0 Y
            rw [List.cons_append, hstep (X ++ [41] :: Y)]
            exact hC3 he0 Y

theorem strtokFrom_append_space : ∀ (a cur b : List Nat),
    strtokFrom cur (a ++ 32 :: b) = strtokFrom cur a ++ strtokFrom [] b
  | [], cur, b => by
    cases cur with
    | nil => simp [strtokFrom]
    | cons x cur => simp [strtokFrom]
  | c :: a, cur, b => by
    by_cases hc : c = 32
    · subst hc
      cases cur with
      | nil =>
        simp only [List.cons_append, strtokFrom, List.isEmpty_nil, if_true, List.append_eq]
        exact strtokFrom_append_space a [] b
      | cons x cur =>
        simp only [List.cons_append, strtokFrom, List.isEmpty_cons, Bool.false_eq_true,
          if_false, if_true, List.append_eq]
        rw [strtokFrom_append_space a [] b]
    · simp only [List.cons_append, strtokFrom, if_neg hc, List.append_eq]
      exact strtokFrom_append_space a (cur ++ [c]) b

theorem strtokFrom_space (cur s : List Nat) :
    strtokFrom cur (32 :: s) = strtokFrom cur [] ++ strtokFrom [] s :=
  strtokFrom_append_space [] cur s

theorem strtokFrom_bracket (cur s : List Nat) (c : Nat) (hc : c ≠ 32) :
    strtokFrom cur (32 :: c :: 32 :: s) = strtokFrom cur [] ++ [c] :: strtokFrom [] s := by
  rw [strtokFrom_space cur (c :: 32 :: s)]
  congr 1
  simp [strtokFrom, hc]

theorem tokenDepth_strtokFrom_nil (d : Nat) (cur : List Nat) (X : List (List Nat))
    (h40 : cur.headD 0 ≠ 40) (h41 : cur.headD 0 ≠ 41) :
    tokenDepth d (strtokFrom cur [] ++ X) = tokenDepth d X := by
  cases cur with
  | nil => simp [strtokFrom]
  | cons x cur =>
    simp only [strtokFrom, List.isEmpty_cons, Bool.false_eq_true, if_false,
      List.singleton_append]
    exact tokenDepth_cons_atom d (x :: cur) X h40 h41

theorem headD_append_singleton (cur : List Nat) (c : Nat) :
    (cur ++ [c]).headD 0 = if cur.isEmpty then c else cur.headD 0 := by
  cases cur <;> simp

theorem tokenDepth_spaced : ∀ (T : List Nat) (cur : List Nat) (d : Nat),
    cur.headD 0 ≠ 40 → cur.headD 0 ≠ 41 →
    tokenDepth d (strtokFrom cur (spaced T)) = parenDepth d T
  | [], cur, d, h40, h41 => by
    have h := tokenDepth_strtokFrom_nil d cur [] h40 h41
    rw [List.append_nil] at h
    rw [spaced, h]
    rfl
  | c :: T, cur, d, h40, h41 => by
    have hnil0 : ([] : List Nat).headD 0 ≠ 40 := by decide
    have hnil1 : ([] : List Nat).headD 0 ≠ 41 := by decide
    by_cases hb : isBracket c = true
    · have hc32 : c ≠ 32 := by
        intro h
        subst h
        simp [isBracket] at hb
      rw [spaced, if_pos hb, strtokFrom_bracket cur (spaced T) c hc32,
        tokenDepth_strtokFrom_nil d cur _ h40 h41]
      have ih := fun d => tokenDepth_spaced T [] d hnil0 hnil1
      by_cases h1 : c = 40
      · subst h1
        rw [tokenDepth_cons_open d [40] _ rfl, ih, parenDepth, if_pos rfl]
      by_cases h2 : c = 41
      · subst h2
        rw [parenDepth, if_neg (by omega), if_pos rfl, tokenDepth, if_neg (by decide),
          if_pos (by rfl)]
        by_cases hd : d = 0
        · rw [if_pos hd, if_pos hd]
        · rw [if_neg hd, if_neg hd, ih]
      · rw [tokenDepth_cons_atom d [c] _ (by simpa using h1) (by simpa using h2), ih,
          parenDepth, if_neg h1, if_neg h2]
    · have hnb : isBracket c = false := by simpa using hb
      have hp : c ≠ 40 ∧ c ≠ 41 := by
        simp only [isBracket, Bool.or_eq_false_iff, beq_eq_false_iff_ne] at hnb
        exact ⟨hnb.1.1.1, hnb.1.1.2⟩
      rw [spaced, if_neg hb, parenDepth, if_neg hp.1, if_neg hp.2]
      by_cases hc : c = 32
      · subst hc
        rw [strtokFrom_space, tokenDepth_strtokFrom_nil d cur _ h40 h41]
        exact tokenDepth_spaced T [] d hnil0 hnil1
      · rw [strtokFrom, if_neg hc]
        apply tokenDepth_spaced T (cur ++ [c]) d
        · rw [headD_append_singleton]
          cases cur with
          | nil => simpa using hp.1
          | cons x cur => simpa using h40
        · rw [headD_append_singleton]
          cases cur with
          | nil => simpa using hp.2
          | cons x cur => simpa using h41

theorem spaced_append : ∀ a b : List Nat, spaced (a ++ b) = spaced a ++ spaced b
  | [], b => rfl
  | c :: a, b => by
    by_cases hb : isBracket c = true
    · simp only [List.cons_append, spaced, if_pos hb, List.append_eq, spaced_append a b]
    · simp only [List.cons_append, spaced, if_neg hb, List.append_eq, spaced_append a b]

theorem c_str_append_of_nulFree : ∀ (a b : List Nat), a.all (fun c => c != 0) = true →
    c_str (a ++ b) = a ++ c_str b
  | [], b, _ => rfl
  | c :: a, b, h => by
    simp only [List.all_cons, Bool.and_eq_true] at h
    have ih := c_str_append_of_nulFree a b h.2
    simp only [c_str] at ih ⊢
    simp only [List.cons_append, List.takeWhile, h.1, List.append_eq, ih]

theorem strtokAll_group (T U : List Nat) (hT : T.all (fun c => c != 0) = true) :
    (strtokAll (eBottle.fromStringText ([40] ++ T ++ [41] ++ U))).tail
      = [40] :: (strtokAll (spaced T) ++ [41] :: strtokAll (spaced (c_str U))) := by
  have h1 : c_str ([40] ++ T ++ [41] ++ U) = [40] ++ T ++ [41] ++ c_str U := by
    have hall : ([40] ++ T ++ [41]).all (fun c => c != 0) = true := by
      simp only [List.all_append, List.all_cons, List.all_nil, Bool.and_true, hT]
      decide
    exact c_str_append_of_nulFree _ U hall
  have h2 : spaced ([40] ++ T ++ [41] ++ c_str U)
      = 32 :: 40 :: 32 :: (spaced T ++ 32 :: 41 :: 32 :: spaced (c_str U)) := by
    simp only [spaced_append, List.append_assoc]
    rfl
  have h3 : strtokFrom [] (41 :: 32 :: spaced (c_str U))
      = [41] :: strtokFrom [] (spaced (c_str U)) := by
    simp [strtokFrom]
  rw [eBottle.fromStringText, h1, h2, strtokAll_sentinel, List.tail_cons, strtokAll,
    strtokFrom_bracket [] _ 40 (by decide), strtokFrom_append_space, h3]
  rfl

theorem eBottle.fromString_eq (atof : List Nat → Nat) (b : eBottle) (txt : List Nat) :
    eBottle.fromString atof b txt
      = (eBottle.fromStrLoop atof ((strtokAll (spaced (c_str txt))).length + 2) b false []
          (strtokAll (spaced (c_str txt)))).map fun r => r.1 := by
  simp only [eBottle.fromString, eBottle.fromStringText, strtokAll_sentinel, List.tail_cons,
    List.length_cons, eBottle.fromStr]

/-- C17 (nested parsing is compositional): for a text `T` without NUL whose parentheses are
balanced and any text `U`, `fromString` of `(` `T` `)` `U` into an empty Bag gives one nested
Bag holding what `fromString(T)` gives, followed by the elements that `fromString(U)` gives:
the group becomes exactly one element and the tokens after its `)` land in the enclosing
Bag. -/
theorem nested_parsing (atof : List Nat → Nat) (T U : List Nat)
    (hT : T.all (fun c => c != 0) = true) (hbal : parenDepth 0 T = some 0) :
    ∃ bT bU : eBottle,
      eBottle.fromString atof eBottle.empty T = some bT ∧
      eBottle.fromString atof eBottle.empty U = some bU ∧
      eBottle.fromString atof eBottle.empty ([40] ++ T ++ [41] ++ U)
        = some (.mk (.BOTTLE bT :: bU.values)) := by
  obtain ⟨rT, _, hrT⟩ := eBottle.fromStrLoop_total atof _ (strtokAll (spaced T))
    eBottle.empty false [] (Nat.le_refl _)
  obtain ⟨rU, _, hrU⟩ := eBottle.fromStrLoop_total atof _ (strtokAll (spaced (c_str U)))
    eBottle.empty false [] (Nat.le_refl _)
  have hdepth : tokenDepth 0 (strtokAll (spaced T)) = some 0 := by
    rw [strtokAll, tokenDepth_spaced T [] 0 (by decide) (by decide)]
    exact hbal
  refine ⟨rT.1, rU.1, ?_, ?_, ?_⟩
  · rw [eBottle.fromString_eq, c_str_of_nulFree T hT, hrT _ (by omega)]
    rfl
  · rw [eBottle.fromString_eq, hrU _ (by omega)]
    rfl
  · have hgroup := strtokAll_group T U hT
    have hlen : (strtokAll (eBottle.fromStringText ([40] ++ T ++ [41] ++ U))).length
        = (strtokAll (spaced T)).length + (strtokAll (spaced (c_str U))).length + 3 := by
      have := congrArg List.length hgroup
      simp only [List.length_tail, List.length_cons, List.length_append] at this
      omega
    rw [eBottle.fromString, hgroup, hlen, eBottle.fromStr,
      eBottle.fromStrLoop_cons_open atof _ eBottle.empty false [] [40] rfl]
    have hnest := ((eBottle.fromStrLoop_suffix atof _ (strtokAll (spaced T)) eBottle.empty
      false [] rT (hrT ((strtokAll (spaced T)).length
        + (strtokAll (spaced (c_str U))).length + 3) (by omega))).2 0 hdepth).2.2 rfl
      (strtokAll (spaced (c_str U)))
    rw [hnest, Option.some_bind, eBottle.fromStrLoop_onto, hrU _ (by omega)]
    simp only [Option.map_some', eBottle.onto, eBottle.addListPtr, eBottle.push_back,
      eBottle.values_mk, eBottle.values_empty, List.nil_append, List.singleton_append]

/-- Witness of C17: `( 1 2 ) 3` gives `[NestedBag([Int 1, Int 2]), Int 3]`. -/
theorem nested_parsing_witness :
    ([32, 49, 32, 50, 32] : List Nat).all (fun c => c != 0) = true ∧
    parenDepth 0 [32, 49, 32, 50, 32] = some 0 ∧
    (∃ bT bU : eBottle,
      eBottle.fromString atofExamples eBottle.empty [32, 49, 32, 50, 32] = some bT ∧
      eBottle.fromString atofExamples eBottle.empty [32, 51] = some bU ∧
      eBottle.fromString atofExamples eBottle.empty
          ([40] ++ [32, 49, 32, 50, 32] ++ [41] ++ [32, 51])
        = some (.mk (.BOTTLE bT :: bU.values))) ∧
    eBottle.fromString atofExamples eBottle.empty [40, 32, 49, 32, 50, 32, 41, 32, 51]
      = some (.mk [.BOTTLE (.mk [.INT 1, .INT 2]), .INT 3]) :=
  ⟨by decide, by decide,
    nested_parsing atofExamples [32, 49, 32, 50, 32] [32, 51] (by decide) (by decide),
    by decide⟩

set_option maxRecDepth 8192 in
/-- C18, the code at the failing input: on `{ 1 } { 2 }` the second Blob holds the bytes of
both groups, since `fromStr` does not empty its vector `v` after a Blob; a single group
`{ 10 20 30 }` gives the Blob `{10,20,30}`; and on the text of `main` the Bag is `eb1`, whose
second top-level Blob is `{4,5,6,7,87,5,6,7}`. -/
theorem blob_groups_accumulate :
    eBottle.fromString atofExamples eBottle.empty
        [123, 32, 49, 32, 125, 32, 123, 32, 50, 32, 125]
      = some (.mk [.CHARP [1], .CHARP [1, 2]]) ∧
    eBottle.fromString atofExamples eBottle.empty
        [123, 32, 49, 48, 32, 50, 48, 32, 51, 48, 32, 125]
      = some (.mk [.CHARP [10, 20, 30]]) ∧
    eBottle.fromString atofExamples eBottle.empty mainText = some eb1 ∧
    eb1.values.get? 11 = some (.CHARP [4, 5, 6, 7, 87, 5, 6, 7]) :=
  ⟨by decide, by decide, by decide, by decide⟩

/-! ## What a copy shares with its source -/

theorem Heap.read_alloc_of_lt (h : Heap) (cell : Cell) (a : Nat) (ha : a < h.length) :
    (h.alloc cell).1.read a = h.read a := by
  simp [Heap.read, Heap.alloc, List.getElem?_append_left ha]

theorem Heap.read_alloc_self (h : Heap) (cell : Cell) :
    (h.alloc cell).1.read (h.alloc cell).2 = some cell := by
  simp [Heap.read, Heap.alloc]

theorem Heap.read_alloc (h : Heap) (cell : Cell) (a : Nat) :
    (h.alloc cell).1.read a = if a = h.length then some cell else h.read a := by
  by_cases h1 : a = h.length
  · subst h1; simp [Heap.read, Heap.alloc]
  · rw [if_neg h1]
    rcases Nat.lt_or_gt_of_ne h1 with h2 | h2
    · exact Heap.read_alloc_of_lt h cell a h2
    · have e1 : (h ++ [some cell])[a]? = none := by
        apply List.getElem?_eq_none; simp; omega
      have e2 : h[a]? = none := by apply List.getElem?_eq_none; omega
      simp [Heap.read, Heap.alloc, e1, e2]

theorem Heap.length_alloc (h : Heap) (cell : Cell) :
    (h.alloc cell).1.length = h.length + 1 := by
  simp [Heap.alloc]

theorem Heap.alloc_snd (h : Heap) (cell : Cell) : (h.alloc cell).2 = h.length := rfl

theorem Heap.read_lt (h : Heap) (a : Nat) (cell : Cell) (hr : h.read a = some cell) :
    a < h.length := by
  by_contra hn
  have e2 : h[a]? = none := by apply List.getElem?_eq_none; omega
  simp [Heap.read, e2] at hr

theorem Heap.read_set (h : Heap) (a b : Nat) (x : Option Cell) (cell : Cell)
    (hr : h.read a = some cell) :
    Heap.read (h.set a x) b = if b = a then x else h.read b := by
  have hlt := Heap.read_lt h a cell hr
  by_cases h1 : b = a
  · subst h1; simp [Heap.read, List.getElem?_set, hlt]
  · have h2 : ¬ a = b := fun e => h1 e.symm
    simp [Heap.read, List.getElem?_set, h1, h2]

theorem Heap.write_some (h k : Heap) (a : Nat) (cell : Cell) (hw : h.write a cell = some k) :
    k = h.set a (some cell) ∧ ∃ old, h.read a = some old := by
  unfold Heap.write at hw
  cases hr : h.read a with
  | none => rw [hr] at hw; simp at hw
  | some old => rw [hr] at hw; simp at hw; exact ⟨hw.symm, old, rfl⟩

theorem Heap.free_some (h k : Heap) (a : Nat) (hw : h.free a = some k) :
    k = h.set a none ∧ ∃ old, h.read a = some old := by
  unfold Heap.free at hw
  cases hr : h.read a with
  | none => rw [hr] at hw; simp at hw
  | some old => rw [hr] at hw; simp at hw; exact ⟨hw.symm, old, rfl⟩

theorem Heap.read_write (h k : Heap) (a b : Nat) (cell : Cell)
    (hw : h.write a cell = some k) :
    k.read b = if b = a then some cell else h.read b := by
  obtain ⟨e, old, hr⟩ := Heap.write_some h k a cell hw
  rw [e]; exact Heap.read_set h a b _ old hr

theorem Heap.read_free (h k : Heap) (a b : Nat) (hw : h.free a = some k) :
    k.read b = if b = a then none else h.read b := by
  obtain ⟨e, old, hr⟩ := Heap.free_some h k a hw
  rw [e]; exact Heap.read_set h a b _ old hr

theorem Heap.length_write (h k : Heap) (a : Nat) (cell : Cell)
    (hw : h.write a cell = some k) : k.length = h.length := by
  rw [(Heap.write_some h k a cell hw).1]; simp

theorem Heap.length_free (h k : Heap) (a : Nat) (hw : h.free a = some k) :
    k.length = h.length := by
  rw [(Heap.free_some h k a hw).1]; simp

theorem Heap.Keeps.refl (F : List Nat) (h : Heap) (hg : h.Apart F) : Heap.Keeps F h h :=
  ⟨hg, fun _ _ => rfl⟩

theorem Heap.Keeps.trans (F : List Nat) (h k l : Heap) (h1 : Heap.Keeps F h k)
    (h2 : Heap.Keeps F k l) : Heap.Keeps F h l :=
  ⟨h2.1, fun a ha => (h2.2 a ha).trans (h1.2 a ha)⟩

theorem Heap.Apart.ptrs (F : List Nat) (h : Heap) (hg : h.Apart F) (a : Nat) (cell : Cell)
    (ha : a ∉ F) (hr : h.read a = some cell) : ∀ q ∈ cell.ptrs, q ∉ F :=
  hg.2 a cell ha hr

theorem Cell.mem_ptrs_bottle (vs : List Nat) (tp : Option Nat) (q : Nat) :
    q ∈ (Cell.bottle vs tp).ptrs ↔ q ∈ vs ∨ tp = some q := by
  simp [Cell.ptrs]

theorem Heap.Apart.values (F : List Nat) (h : Heap) (hg : h.Apart F) (a : Nat)
    (vs : List Nat) (tp : Option Nat) (ha : a ∉ F) (hr : h.read a = some (.bottle vs tp)) :
    (∀ q ∈ vs, q ∉ F) ∧ ∀ q, tp = some q → q ∉ F :=
  ⟨fun q hq => hg.2 a _ ha hr q ((Cell.mem_ptrs_bottle vs tp q).2 (Or.inl hq)),
   fun q hq => hg.2 a _ ha hr q ((Cell.mem_ptrs_bottle vs tp q).2 (Or.inr hq))⟩

theorem Heap.alloc_keeps (F : List Nat) (h : Heap) (cell : Cell) (hg : h.Apart F)
    (hp : ∀ q ∈ cell.ptrs, q ∉ F) :
    Heap.Keeps F h (h.alloc cell).1 ∧ (h.alloc cell).2 ∉ F := by
  have hfresh : h.length ∉ F := fun hin => Nat.lt_irrefl _ (hg.1 _ hin)
  refine ⟨⟨⟨?_, ?_⟩, ?_⟩, hfresh⟩
  · intro a ha; rw [Heap.length_alloc]; exact Nat.lt_succ_of_lt (hg.1 a ha)
  · intro a c ha hr
    rw [Heap.read_alloc] at hr
    by_cases e : a = h.length
    · rw [if_pos e] at hr; cases hr; exact hp
    · rw [if_neg e] at hr; exact hg.2 a c ha hr
  · intro a ha
    exact Heap.read_alloc_of_lt h cell a (hg.1 a ha)

theorem Heap.write_keeps (F : List Nat) (h k : Heap) (a : Nat) (cell : Cell)
    (hg : h.Apart F) (ha : a ∉ F) (hp : ∀ q ∈ cell.ptrs, q ∉ F)
    (hw : h.write a cell = some k) : Heap.Keeps F h k := by
  refine ⟨⟨?_, ?_⟩, ?_⟩
  · intro x hx; rw [Heap.length_write h k a cell hw]; exact hg.1 x hx
  · intro x c hx hr
    rw [Heap.read_write h k a x cell hw] at hr
    by_cases e : x = a
    · rw [if_pos e] at hr; cases hr; exact hp
    · rw [if_neg e] at hr; exact hg.2 x c hx hr
  · intro x hx
    rw [Heap.read_write h k a x cell hw, if_neg]
    intro e; exact ha (e ▸ hx)

theorem Heap.free_keeps (F : List Nat) (h k : Heap) (a : Nat)
    (hg : h.Apart F) (ha : a ∉ F) (hw : h.free a = some k) : Heap.Keeps F h k := by
  refine ⟨⟨?_, ?_⟩, ?_⟩
  · intro x hx; rw [Heap.length_free h k a hw]; exact hg.1 x hx
  · intro x c hx hr
    rw [Heap.read_free h k a x hw] at hr
    by_cases e : x = a
    · rw [if_pos e] at hr; cases hr
    · rw [if_neg e] at hr; exact hg.2 x c hx hr
  · intro x hx
    rw [Heap.read_free h k a x hw, if_neg]
    intro e; exact ha (e ▸ hx)

theorem Heap.newValue_keeps (F : List Nat) (h : Heap) (type : Int) (payload : Cell)
    (hg : h.Apart F) (hp : ∀ q ∈ payload.ptrs, q ∉ F) :
    Heap.Keeps F h (h.newValue type payload).1 ∧ (h.newValue type payload).2 ∉ F := by
  obtain ⟨k1, f1⟩ := Heap.alloc_keeps F h payload hg hp
  have hp2 : ∀ q ∈ (Cell.value type (h.alloc payload).2).ptrs, q ∉ F := by
    intro q hq
    simp only [Cell.ptrs, List.mem_singleton] at hq
    rw [hq]; exact f1
  obtain ⟨k2, f2⟩ := Heap.alloc_keeps F (h.alloc payload).1 _ k1.1 hp2
  exact ⟨Heap.Keeps.trans F _ _ _ k1 k2, f2⟩

theorem Heap.push_back_keeps (F : List Nat) (h k : Heap) (this p : Nat)
    (hg : h.Apart F) (ht : this ∉ F) (hp : p ∉ F) (hr : h.push_back this p = some k) :
    Heap.Keeps F h k := by
  unfold Heap.push_back at hr
  split at hr
  · rename_i values tp hread
    obtain ⟨hvs, htp⟩ := Heap.Apart.values F h hg this values tp ht hread
    refine Heap.write_keeps F h k this _ hg ht ?_ hr
    intro q hq
    rw [Cell.mem_ptrs_bottle, List.mem_append, List.mem_singleton] at hq
    rcases hq with (hq | hq) | hq
    · exact hvs q hq
    · rw [hq]; exact hp
    · exact htp q hq
  · exact absurd hr (by simp)

theorem Heap.add_new_keeps (F : List Nat) (h k : Heap) (this : Nat) (type : Int)
    (payload : Cell) (hg : h.Apart F) (ht : this ∉ F) (hp : ∀ q ∈ payload.ptrs, q ∉ F)
    (hr : (h.newValue type payload).1.push_back this (h.newValue type payload).2 = some k) :
    Heap.Keeps F h k := by
  obtain ⟨k1, f1⟩ := Heap.newValue_keeps F h type payload hg hp
  exact Heap.Keeps.trans F _ _ _ k1 (Heap.push_back_keeps F _ k this _ k1.1 ht f1 hr)

theorem Heap.addInt_keeps (F : List Nat) (h k : Heap) (this : Nat) (i : Int)
    (hg : h.Apart F) (ht : this ∉ F) (hr : h.addInt this i = some k) : Heap.Keeps F h k :=
  Heap.add_new_keeps F h k this 1 (.int i) hg ht (by simp [Cell.ptrs]) hr

theorem Heap.addDouble_keeps (F : List Nat) (h k : Heap) (this : Nat) (d : Nat)
    (hg : h.Apart F) (ht : this ∉ F) (hr : h.addDouble this d = some k) : Heap.Keeps F h k :=
  Heap.add_new_keeps F h k this 2 (.double d) hg ht (by simp [Cell.ptrs]) hr

theorem Heap.addBlob_keeps (F : List Nat) (h k : Heap) (this : Nat) (q : List Nat)
    (hg : h.Apart F) (ht : this ∉ F) (hr : h.addBlob this q = some k) : Heap.Keeps F h k :=
  Heap.add_new_keeps F h k this 3 (.chars q) hg ht (by simp [Cell.ptrs]) hr

theorem Heap.addString_keeps (F : List Nat) (h k : Heap) (this : Nat) (s : List Nat)
    (hg : h.Apart F) (ht : this ∉ F) (hr : h.addString this s = some k) : Heap.Keeps F h k :=
  Heap.add_new_keeps F h k this 5 (.string (c_str s)) hg ht (by simp [Cell.ptrs]) hr

theorem Heap.addListPtr_keeps (F : List Nat) (h : Heap) (this : Nat) (r : Heap × Nat)
    (hg : h.Apart F) (ht : this ∉ F) (hr : h.addListPtr this = some r) :
    Heap.Keeps F h r.1 ∧ r.2 ∉ F := by
  unfold Heap.addListPtr at hr
  rw [Option.map_eq_some'] at hr
  obtain ⟨h1, hpush, rfl⟩ := hr
  refine ⟨Heap.add_new_keeps F h h1 this 4 (.bottle [] none) hg ht (by simp [Cell.ptrs])
    hpush, ?_⟩
  exact (Heap.alloc_keeps F h (.bottle [] none) hg (by simp [Cell.ptrs])).2

theorem Heap.deleteScratch_keeps (F : List Nat) (h k : Heap) (b : Nat)
    (hg : h.Apart F) (hb : b ∉ F) (hr : h.deleteScratch b = some k) : Heap.Keeps F h k := by
  unfold Heap.deleteScratch at hr
  split at hr
  · rename_i values scratch hread
    exact Heap.free_keeps F h k scratch hg
      ((Heap.Apart.values F h hg b values _ hb hread).2 scratch rfl) hr
  · cases hr; exact Heap.Keeps.refl F h hg
  · exact absurd hr (by simp)

theorem Heap.delete_keeps (F : List Nat) (fuel : Nat) :
    (∀ (h k : Heap) (p : Nat), h.Apart F → p ∉ F → Heap.deleteValue fuel h p = some k →
      Heap.Keeps F h k) ∧
    (∀ (h k : Heap) (b i : Nat), h.Apart F → b ∉ F → Heap.deleteLoop fuel h b i = some k →
      Heap.Keeps F h k) := by
  induction fuel with
  | zero =>
    constructor
    · intro h k p _ _ hr; simp [Heap.deleteValue] at hr
    · intro h k b i _ _ hr; simp [Heap.deleteLoop] at hr
  | succ fuel ih =>
    constructor
    · intro h k p hg hp hr
      rw [Heap.deleteValue] at hr
      split at hr
      · rename_i type value hread
        have hv : value ∉ F := hg.2 p _ hp hread value (by simp [Cell.ptrs])
        split at hr
        · rw [Option.bind_eq_some] at hr
          obtain ⟨h1, e1, hr⟩ := hr
          rw [Option.bind_eq_some] at hr
          obtain ⟨h2, e2, hr⟩ := hr
          rw [Option.bind_eq_some] at hr
          obtain ⟨h3, e3, hr⟩ := hr
          have k1 := ih.2 h h1 value 0 hg hv e1
          have k2 := Heap.deleteScratch_keeps F h1 h2 value k1.1 hv e2
          have k3 := Heap.free_keeps F h2 h3 value k2.1 hv e3
          have k4 := Heap.free_keeps F h3 k p k3.1 hp hr
          exact Heap.Keeps.trans F _ _ _
            (Heap.Keeps.trans F _ _ _ (Heap.Keeps.trans F _ _ _ k1 k2) k3) k4
        · split at hr
          · rw [Option.bind_eq_some] at hr
            obtain ⟨h1, e1, hr⟩ := hr
            have k1 := Heap.free_keeps F h h1 value hg hv e1
            have k2 := Heap.free_keeps F h1 k p k1.1 hp hr
            exact Heap.Keeps.trans F _ _ _ k1 k2
          · exact Heap.free_keeps F h k p hg hp hr
      · exact absurd hr (by simp)
    · intro h k b i hg hb hr
      rw [Heap.deleteLoop] at hr
      split at hr
      · rename_i values tp hread
        split at hr
        · rename_i p hget
          have hp : p ∉ F :=
            (Heap.Apart.values F h hg b values tp hb hread).1 p (List.get?_mem hget)
          rw [Option.bind_eq_some] at hr
          obtain ⟨h1, e1, hr⟩ := hr
          have k1 := ih.1 h h1 p hg hp e1
          have k2 := ih.2 h1 k b (i + 1) k1.1 hb hr
          exact Heap.Keeps.trans F _ _ _ k1 k2
        · cases hr; exact Heap.Keeps.refl F h hg
      · exact absurd hr (by simp)

theorem Heap.clear_keeps (F : List Nat) (fuel : Nat) (h k : Heap) (this : Nat)
    (hg : h.Apart F) (ht : this ∉ F) (hr : Heap.clear fuel h this = some k) :
    Heap.Keeps F h k := by
  unfold Heap.clear at hr
  rw [Option.bind_eq_some] at hr
  obtain ⟨h1, e1, hr⟩ := hr
  rw [Option.bind_eq_some] at hr
  obtain ⟨h2, e2, hr⟩ := hr
  have k1 := (Heap.delete_keeps F fuel).2 h h1 this 0 hg ht e1
  have k2 := Heap.deleteScratch_keeps F h1 h2 this k1.1 ht e2
  have k3 : Heap.Keeps F h2 k := by
    split at hr
    · rename_i values tp hread
      refine Heap.write_keeps F h2 k this _ k2.1 ht ?_ hr
      intro q hq
      rw [Cell.mem_ptrs_bottle] at hq
      rcases hq with hq | hq
      · simp at hq
      · exact (Heap.Apart.values F h2 k2.1 this values tp ht hread).2 q hq
    · exact absurd hr (by simp)
  exact Heap.Keeps.trans F _ _ _ (Heap.Keeps.trans F _ _ _ k1 k2) k3

theorem Heap.assign_keeps (F : List Nat) (fuel : Nat) :
    (∀ (h k : Heap) (this p : Nat), h.Apart F → this ∉ F →
      Heap.opAssign fuel h this p = some k → Heap.Keeps F h k) ∧
    (∀ (h k : Heap) (this p i : Nat), h.Apart F → this ∉ F →
      Heap.assignLoop fuel h this p i = some k → Heap.Keeps F h k) := by
  induction fuel with
  | zero =>
    constructor
    · intro h k this p _ _ hr; simp [Heap.opAssign] at hr
    · intro h k this p i _ _ hr; simp [Heap.assignLoop] at hr
  | succ fuel ih =>
    constructor
    · intro h k this p hg ht hr
      rw [Heap.opAssign, Option.bind_eq_some] at hr
      obtain ⟨h1, e1, hr⟩ := hr
      have k1 := Heap.clear_keeps F fuel h h1 this hg ht e1
      exact Heap.Keeps.trans F _ _ _ k1 (ih.2 h1 k this p 0 k1.1 ht hr)
    · intro h k this p i hg ht hr
      rw [Heap.assignLoop] at hr
      split at hr
      · split at hr
        · cases hr; exact Heap.Keeps.refl F h hg
        · split at hr
          · rename_i type value hread
            rw [Option.bind_eq_some] at hr
            obtain ⟨h1, e1, hr⟩ := hr
            have k1 : Heap.Keeps F h h1 := by
              split at e1
              · split at e1
                · exact Heap.addInt_keeps F h h1 this _ hg ht e1
                · exact absurd e1 (by simp)
              · split at e1
                · split at e1
                  · exact Heap.addDouble_keeps F h h1 this _ hg ht e1
                  · exact absurd e1 (by simp)
                · split at e1
                  · split at e1
                    · exact Heap.addBlob_keeps F h h1 this _ hg ht e1
                    · exact absurd e1 (by simp)
                  · split at e1
                    · rw [Option.bind_eq_some] at e1
                      obtain ⟨r, e0, e1⟩ := e1
                      obtain ⟨k0, f0⟩ := Heap.addListPtr_keeps F h this r hg ht e0
                      exact Heap.Keeps.trans F _ _ _ k0 (ih.1 r.1 h1 r.2 value k0.1 f0 e1)
                    · split at e1
                      · split at e1
                        · exact Heap.addString_keeps F h h1 this _ hg ht e1
                        · exact absurd e1 (by simp)
                      · cases e1; exact Heap.Keeps.refl F h hg
            exact Heap.Keeps.trans F _ _ _ k1 (ih.2 h1 k this p (i + 1) k1.1 ht hr)
          · exact absurd hr (by simp)
      · exact absurd hr (by simp)

theorem Heap.copy_keeps (F : List Nat) (fuel : Nat) :
    (∀ (h k : Heap) (this p : Nat), h.Apart F → this ∉ F →
      Heap.copy fuel h this p = some k → Heap.Keeps F h k) ∧
    (∀ (h k : Heap) (this p i : Nat), h.Apart F → this ∉ F →
      Heap.copyLoop fuel h this p i = some k → Heap.Keeps F h k) := by
  induction fuel with
  | zero =>
    constructor
    · intro h k this p _ _ hr; simp [Heap.copy] at hr
    · intro h k this p i _ _ hr; simp [Heap.copyLoop] at hr
  | succ fuel ih =>
    constructor
    · intro h k this p hg ht hr
      rw [Heap.copy, Option.bind_eq_some] at hr
      obtain ⟨h1, e1, hr⟩ := hr
      have k1 := Heap.clear_keeps F fuel h h1 this hg ht e1
      exact Heap.Keeps.trans F _ _ _ k1 (ih.2 h1 k this p 0 k1.1 ht hr)
    · intro h k this p i hg ht hr
      rw [Heap.copyLoop] at hr
      split at hr
      · split at hr
        · cases hr; exact Heap.Keeps.refl F h hg
        · split at hr
          · rename_i type value hread
            rw [Option.bind_eq_some] at hr
            obtain ⟨h1, e1, hr⟩ := hr
            have k1 : Heap.Keeps F h h1 := by
              split at e1
              · split at e1
                · exact Heap.addInt_keeps F h h1 this _ hg ht e1
                · exact absurd e1 (by simp)
              · split at e1
                · split at e1
                  · exact Heap.addDouble_keeps F h h1 this _ hg ht e1
                  · exact absurd e1 (by simp)
                · split at e1
                  · split at e1
                    · exact Heap.addBlob_keeps F h h1 this _ hg ht e1
                    · exact absurd e1 (by simp)
                  · split at e1
                    · rw [Option.bind_eq_some] at e1
                      obtain ⟨r, e0, e1⟩ := e1
                      obtain ⟨k0, f0⟩ := Heap.addListPtr_keeps F h this r hg ht e0
                      exact Heap.Keeps.trans F _ _ _ k0 (ih.1 r.1 h1 r.2 value k0.1 f0 e1)
                    · split at e1
                      · split at e1
                        · exact Heap.addString_keeps F h h1 this _ hg ht e1
                        · exact absurd e1 (by simp)
                      · cases e1; exact Heap.Keeps.refl F h hg
            exact Heap.Keeps.trans F _ _ _ k1 (ih.2 h1 k this p (i + 1) k1.1 ht hr)
          · exact absurd hr (by simp)
      · exact absurd hr (by simp)

theorem Heap.alloc_write_keeps (F : List Nat) (h k : Heap) (this : Nat) (type : Int)
    (payload : Cell) (hg : h.Apart F) (ht : this ∉ F) (hp : ∀ q ∈ payload.ptrs, q ∉ F)
    (hr : (h.alloc payload).1.write this (.value type (h.alloc payload).2) = some k) :
    Heap.Keeps F h k := by
  obtain ⟨k1, f1⟩ := Heap.alloc_keeps F h payload hg hp
  refine Heap.Keeps.trans F _ _ _ k1 (Heap.write_keeps F _ k this _ k1.1 ht ?_ hr)
  intro q hq
  simp only [Cell.ptrs, List.mem_singleton] at hq
  rw [hq]; exact f1

theorem Heap.assignValue_keeps (F : List Nat) (fuel : Nat) (h k : Heap) (this p : Nat)
    (hg : h.Apart F) (ht : this ∉ F) (hr : Heap.assignValue fuel h this p = some k) :
    Heap.Keeps F h k := by
  unfold Heap.assignValue at hr
  split at hr
  · rename_i type value hread
    split at hr
    · split at hr
      · exact Heap.alloc_write_keeps F h k this type _ hg ht (by simp [Cell.ptrs]) hr
      · exact absurd hr (by simp)
    · split at hr
      · rw [Option.bind_eq_some] at hr
        obtain ⟨h1, e1, hr⟩ := hr
        obtain ⟨k0, f0⟩ := Heap.alloc_keeps F h (.bottle [] none) hg (by simp [Cell.ptrs])
        have k1 := (Heap.assign_keeps F fuel).1 _ h1 _ value k0.1 f0 e1
        have k2 : Heap.Keeps F h1 k := by
          refine Heap.write_keeps F h1 k this _ k1.1 ht ?_ hr
          intro q hq
          simp only [Cell.ptrs, List.mem_singleton] at hq
          rw [hq]; exact f0
        exact Heap.Keeps.trans F _ _ _ (Heap.Keeps.trans F _ _ _ k0 k1) k2
      · split at hr
        · split at hr
          · exact Heap.alloc_write_keeps F h k this type _ hg ht (by simp [Cell.ptrs]) hr
          · exact absurd hr (by simp)
        · split at hr
          · split at hr
            · exact Heap.alloc_write_keeps F h k this type _ hg ht (by simp [Cell.ptrs]) hr
            · exact absurd hr (by simp)
          · split at hr
            · split at hr
              · exact Heap.alloc_write_keeps F h k this type _ hg ht (by simp [Cell.ptrs]) hr
              · exact absurd hr (by simp)
            · exact absurd hr (by simp)
  · exact absurd hr (by simp)

theorem Heap.add_keeps (F : List Nat) (fuel : Nat) (h k : Heap) (this yv : Nat)
    (hg : h.Apart F) (ht : this ∉ F) (hr : Heap.add fuel h this yv = some k) :
    Heap.Keeps F h k := by
  unfold Heap.add at hr
  rw [Option.bind_eq_some] at hr
  obtain ⟨h1, e1, hr⟩ := hr
  obtain ⟨k0, f0⟩ := Heap.alloc_keeps F h .raw hg (by simp [Cell.ptrs])
  have k1 := Heap.assignValue_keeps F fuel _ h1 _ yv k0.1 f0 e1
  have k2 := Heap.push_back_keeps F h1 k this _ k1.1 ht f0 hr
  exact Heap.Keeps.trans F _ _ _ (Heap.Keeps.trans F _ _ _ k0 k1) k2

theorem Heap.insert_keeps (F : List Nat) (fuel : Nat) (h k : Heap) (this p i : Nat)
    (hg : h.Apart F) (ht : this ∉ F) (hr : Heap.insert fuel h this p i = some k) :
    Heap.Keeps F h k := by
  unfold Heap.insert at hr
  rw [Option.bind_eq_some] at hr
  obtain ⟨h1, e1, hr⟩ := hr
  obtain ⟨k0, f0⟩ := Heap.alloc_keeps F h .raw hg (by simp [Cell.ptrs])
  have k1 := Heap.assignValue_keeps F fuel _ h1 _ p k0.1 f0 e1
  have k2 : Heap.Keeps F h1 k := by
    split at hr
    · rename_i values tp hread
      split at hr
      · refine Heap.write_keeps F h1 k this _ k1.1 ht ?_ hr
        intro q hq
        rw [Cell.mem_ptrs_bottle, List.mem_append, List.mem_cons] at hq
        obtain ⟨hin, htp⟩ := Heap.Apart.values F h1 k1.1 this values tp ht hread
        rcases hq with (hq | hq | hq) | hq
        · exact hin q (List.mem_of_mem_take hq)
        · rw [hq]; exact f0
        · exact hin q (List.mem_of_mem_drop hq)
        · exact htp q hq
      · exact absurd hr (by simp)
    · exact absurd hr (by simp)
  exact Heap.Keeps.trans F _ _ _ (Heap.Keeps.trans F _ _ _ k0 k1) k2

theorem Heap.remove_keeps (F : List Nat) (fuel : Nat) (h k : Heap) (this i : Nat)
    (hg : h.Apart F) (ht : this ∉ F) (hr : Heap.remove fuel h this i = some k) :
    Heap.Keeps F h k := by
  unfold Heap.remove at hr
  split at hr
  · rename_i values tp hread
    obtain ⟨hin, htp⟩ := Heap.Apart.values F h hg this values tp ht hread
    split at hr
    · rename_i p hget
      rw [Option.bind_eq_some] at hr
      obtain ⟨h1, e1, hr⟩ := hr
      have k1 := (Heap.delete_keeps F fuel).1 h h1 p hg (hin p (List.get?_mem hget)) e1
      refine Heap.Keeps.trans F _ _ _ k1 (Heap.write_keeps F h1 k this _ k1.1 ht ?_ hr)
      intro q hq
      rw [Cell.mem_ptrs_bottle] at hq
      rcases hq with hq | hq
      · exact hin q (List.mem_of_mem_eraseIdx hq)
      · exact htp q hq
    · exact absurd hr (by simp)
  · exact absurd hr (by simp)

theorem Heap.asListAt_apart (F : List Nat) (h : Heap) (this i q : Nat)
    (hg : h.Apart F) (ht : this ∉ F) (hr : h.asListAt this i = some q) : q ∉ F := by
  unfold Heap.asListAt at hr
  split at hr
  · rename_i values tp hread
    split at hr
    · rename_i p hget
      have hp : p ∉ F :=
        (Heap.Apart.values F h hg this values tp ht hread).1 p (List.get?_mem hget)
      split at hr
      · rename_i type value hread2
        split at hr
        · cases hr
          exact hg.2 p _ hp hread2 q (by simp [Cell.ptrs])
        · exact absurd hr (by simp)
      · exact absurd hr (by simp)
    · exact absurd hr (by simp)
  · exact absurd hr (by simp)

theorem Heap.nested_apart (F : List Nat) (h : Heap) (hg : h.Apart F) (path : List Nat) :
    ∀ (this q : Nat), this ∉ F → h.nested this path = some q → q ∉ F := by
  induction path with
  | nil => intro this q ht hr; simp only [Heap.nested] at hr; cases hr; exact ht
  | cons i path ih =>
    intro this q ht hr
    rw [Heap.nested, Option.bind_eq_some] at hr
    obtain ⟨n, e1, hr⟩ := hr
    exact ih n q (Heap.asListAt_apart F h this i n hg ht e1) hr

theorem Heap.mutate_keeps (F : List Nat) (fuel : Nat) (h k : Heap) (this : Nat)
    (m : Mutation) (hg : h.Apart F) (ht : this ∉ F)
    (hr : Heap.mutate fuel h this m = some k) : Heap.Keeps F h k := by
  cases m with
  | addInt i => exact Heap.addInt_keeps F h k this i hg ht hr
  | addDouble d => exact Heap.addDouble_keeps F h k this d hg ht hr
  | addString s => exact Heap.addString_keeps F h k this s hg ht hr
  | addBlob q => exact Heap.addBlob_keeps F h k this q hg ht hr
  | addList =>
    simp only [Heap.mutate, Option.map_eq_some'] at hr
    obtain ⟨r, e, rfl⟩ := hr
    exact (Heap.addListPtr_keeps F h this r hg ht e).1
  | add yv => exact Heap.add_keeps F fuel h k this yv hg ht hr
  | insert yv i => exact Heap.insert_keeps F fuel h k this yv i hg ht hr
  | remove i => exact Heap.remove_keeps F fuel h k this i hg ht hr
  | clear => exact Heap.clear_keeps F fuel h k this hg ht hr

theorem Heap.mutateAll_keeps (F : List Nat) (fuel : Nat) (c : Nat) (hc : c ∉ F)
    (ms : List (List Nat × Mutation)) :
    ∀ (h k : Heap), h.Apart F → Heap.mutateAll fuel h c ms = some k → Heap.Keeps F h k := by
  induction ms with
  | nil => intro h k hg hr; simp only [Heap.mutateAll] at hr; cases hr; exact Heap.Keeps.refl F h hg
  | cons m rest ih =>
    intro h k hg hr
    rw [Heap.mutateAll, Option.bind_eq_some] at hr
    obtain ⟨this, e0, hr⟩ := hr
    rw [Option.bind_eq_some] at hr
    obtain ⟨h1, e1, hr⟩ := hr
    have ht := Heap.nested_apart F h hg m.1 c this hc e0
    have k1 := Heap.mutate_keeps F fuel h h1 this m.2 hg ht e1
    exact Heap.Keeps.trans F _ _ _ k1 (ih h1 k k1.1 hr)

theorem Heap.copyOf_keeps (F : List Nat) (fuel : Nat) (h : Heap) (b : Nat) (way : CopyWay)
    (r : Heap × Nat) (hg : h.Apart F) (hinto : ∀ c, way.into = some c → c ∉ F)
    (hr : Heap.copyOf fuel h b way = some r) : Heap.Keeps F h r.1 ∧ r.2 ∉ F := by
  cases way with
  | ctor =>
    simp only [Heap.copyOf, Heap.copyCtor, Option.map_eq_some'] at hr
    obtain ⟨h1, e, rfl⟩ := hr
    obtain ⟨k0, f0⟩ := Heap.alloc_keeps F h (.bottle [] none) hg (by simp [Cell.ptrs])
    exact ⟨Heap.Keeps.trans F _ _ _ k0 ((Heap.copy_keeps F fuel).1 _ h1 _ b k0.1 f0 e), f0⟩
  | copy c =>
    simp only [Heap.copyOf, Option.map_eq_some'] at hr
    obtain ⟨h1, e, rfl⟩ := hr
    have hc := hinto c rfl
    exact ⟨(Heap.copy_keeps F fuel).1 h h1 c b hg hc e, hc⟩
  | assign c =>
    simp only [Heap.copyOf, Option.map_eq_some'] at hr
    obtain ⟨h1, e, rfl⟩ := hr
    have hc := hinto c rfl
    exact ⟨(Heap.assign_keeps F fuel).1 h h1 c b hg hc e, hc⟩

theorem Heap.Owns.apart (h : Heap) (F : List Nat) (ho : h.Owns F) : h.Apart F := by
  refine ⟨fun a ha => (ho.1 a ha).1, ?_⟩
  intro a cell ha hr q hq
  have hlt := Heap.read_lt h a cell hr
  refine ho.2 a hlt ha q ?_
  simp only [Heap.ptrsAt, hr]; exact hq

theorem Heap.Owns.closed (h : Heap) (F : List Nat) (ho : h.Owns F) (a : Nat) (cell : Cell)
    (ha : a ∈ F) (hr : h.read a = some cell) : ∀ q ∈ cell.ptrs, q ∈ F := by
  intro q hq
  refine (ho.1 a ha).2 q ?_
  simp only [Heap.ptrsAt, hr]; exact hq

theorem List.mapM_option_congr {α β : Type} (f g : α → Option β) (l : List α)
    (hfg : ∀ x ∈ l, f x = g x) : l.mapM f = l.mapM g := by
  induction l with
  | nil => rfl
  | cons x rest ih =>
    rw [List.mapM_cons, List.mapM_cons, hfg x (List.mem_cons_self _ _),
      ih fun y hy => hfg y (List.mem_cons_of_mem _ hy)]

theorem Heap.valueAt_same (F : List Nat) (h k : Heap)
    (hclosed : ∀ a cell, a ∈ F → h.read a = some cell → ∀ q ∈ cell.ptrs, q ∈ F)
    (hsame : ∀ a ∈ F, k.read a = h.read a) (depth : Nat) :
    ∀ p ∈ F, Heap.valueAt depth k p = Heap.valueAt depth h p := by
  induction depth with
  | zero => intro p _; rfl
  | succ depth ih =>
    intro p hp
    rw [Heap.valueAt, Heap.valueAt, hsame p hp]
    cases hread : h.read p with
    | none => rfl
    | some cell =>
      cases cell with
      | value type value =>
        have hv : value ∈ F := hclosed p _ hp hread value (by simp [Cell.ptrs])
        simp only []
        rw [hsame value hv]
        cases hread2 : h.read value with
        | none => rfl
        | some cell2 =>
          cases cell2 with
          | bottle values tp =>
            have hin : ∀ x ∈ values, x ∈ F := fun x hx =>
              hclosed value _ hv hread2 x ((Cell.mem_ptrs_bottle values tp x).2 (Or.inl hx))
            simp only []
            rw [List.mapM_option_congr _ _ values fun x hx => ih x (hin x hx)]
          | _ => rfl
      | _ => rfl

theorem Heap.bagAt_same (F : List Nat) (h k : Heap)
    (hclosed : ∀ a cell, a ∈ F → h.read a = some cell → ∀ q ∈ cell.ptrs, q ∈ F)
    (hsame : ∀ a ∈ F, k.read a = h.read a) (depth : Nat) (b : Nat) (hb : b ∈ F) :
    Heap.bagAt depth k b = Heap.bagAt depth h b := by
  unfold Heap.bagAt
  rw [hsame b hb]
  cases hread : h.read b with
  | none => rfl
  | some cell =>
    cases cell with
    | bottle values tp =>
      have hin : ∀ x ∈ values, x ∈ F := fun x hx =>
        hclosed b _ hb hread x ((Cell.mem_ptrs_bottle values tp x).2 (Or.inl hx))
      simp only []
      rw [List.mapM_option_congr _ _ values fun x hx =>
        Heap.valueAt_same F h k hclosed hsame depth x (hin x hx)]
    | _ => rfl

theorem Heap.write_same (h : Heap) (a : Nat) (cell : Cell) (hr : h.read a = some cell) :
    h.write a cell = some h := by
  have hlt := Heap.read_lt h a cell hr
  unfold Heap.write
  rw [hr, Option.map_some']
  congr 1
  apply List.ext_getElem?
  intro n
  rw [List.getElem?_set]
  by_cases e : a = n
  · subst e
    rw [if_pos rfl, if_pos hlt]
    have : (h[a]?).join = some cell := by simpa [Heap.read] using hr
    cases hx : h[a]? with
    | none => rw [hx] at this; simp at this
    | some x => rw [hx] at this; simp at this; rw [this]
  · rw [if_neg e]

theorem List.mapM_option_mono {α β : Type} (f g : α → Option β) :
    ∀ (l : List α) (r : List β), l.mapM f = some r →
      (∀ x ∈ l, ∀ y, f x = some y → g x = some y) → l.mapM g = some r := by
  intro l
  induction l with
  | nil => intro r h _; simpa using h
  | cons x rest ih =>
    intro r h hfg
    rw [List.mapM_cons] at h
    cases hx : f x with
    | none => rw [hx] at h; simp at h
    | some y =>
      rw [hx] at h
      cases hr : rest.mapM f with
      | none => rw [hr] at h; simp at h
      | some ys =>
        rw [hr] at h
        simp at h
        rw [List.mapM_cons, hfg x (List.mem_cons_self _ _) y hx,
          ih ys hr fun z hz => hfg z (List.mem_cons_of_mem _ hz)]
        simpa using h

theorem List.mapM_option_cons {α β : Type} (f : α → Option β) (x : α) (rest : List α)
    (r : List β) (h : (x :: rest).mapM f = some r) :
    ∃ y ys, f x = some y ∧ rest.mapM f = some ys ∧ r = y :: ys := by
  rw [List.mapM_cons] at h
  cases hx : f x with
  | none => rw [hx] at h; simp at h
  | some y =>
    rw [hx] at h
    cases hr : rest.mapM f with
    | none => rw [hr] at h; simp at h
    | some ys =>
      rw [hr] at h
      simp at h
      exact ⟨y, ys, rfl, rfl, h.symm⟩

theorem Heap.valueAt_read (depth : Nat) (h : Heap) (p : Nat) (v : eValue)
    (hv : Heap.valueAt depth h p = some v) : ∃ cell, h.read p = some cell := by
  cases depth with
  | zero => simp [Heap.valueAt] at hv
  | succ d =>
    rw [Heap.valueAt] at hv
    cases hr : h.read p with
    | none => rw [hr] at hv; simp at hv
    | some cell => exact ⟨cell, rfl⟩

theorem Heap.valueAt_inv (depth : Nat) (h : Heap) (p : Nat) (v : eValue)
    (hv : Heap.valueAt depth h p = some v) :
    ∃ d type q, depth = d + 1 ∧ h.read p = some (.value type q) ∧
      ((∃ i, v = .INT i ∧ type = 1 ∧ h.read q = some (.int i)) ∨
       (∃ x, v = .DOUBLE x ∧ type = 2 ∧ h.read q = some (.double x)) ∨
       (∃ blob, v = .CHARP blob ∧ type = 3 ∧ h.read q = some (.chars blob)) ∨
       (∃ s, v = .STRING s ∧ type = 5 ∧ h.read q = some (.string s)) ∨
       (∃ vs tp l, v = .BOTTLE (.mk l) ∧ type = 4 ∧ h.read q = some (.bottle vs tp) ∧
          vs.mapM (Heap.valueAt d h) = some l)) := by
  cases depth with
  | zero => simp [Heap.valueAt] at hv
  | succ d =>
    rw [Heap.valueAt] at hv
    split at hv
    · rename_i type q hread
      refine ⟨d, type, q, rfl, hread, ?_⟩
      split at hv
      · rename_i i hq
        split at hv
        · rename_i ht; cases hv; exact Or.inl ⟨i, rfl, ht, hq⟩
        · exact absurd hv (by simp)
      · rename_i x hq
        split at hv
        · rename_i ht; cases hv; exact Or.inr (Or.inl ⟨x, rfl, ht, hq⟩)
        · exact absurd hv (by simp)
      · rename_i blob hq
        split at hv
        · rename_i ht; cases hv; exact Or.inr (Or.inr (Or.inl ⟨blob, rfl, ht, hq⟩))
        · exact absurd hv (by simp)
      · rename_i s hq
        split at hv
        · rename_i ht; cases hv; exact Or.inr (Or.inr (Or.inr (Or.inl ⟨s, rfl, ht, hq⟩)))
        · exact absurd hv (by simp)
      · rename_i vs tp hq
        split at hv
        · rename_i ht
          rw [Option.map_eq_some'] at hv
          obtain ⟨l, hl, rfl⟩ := hv
          exact Or.inr (Or.inr (Or.inr (Or.inr ⟨vs, tp, l, rfl, ht, hq, hl⟩)))
        · exact absurd hv (by simp)
      · exact absurd hv (by simp)
    · exact absurd hv (by simp)

theorem Heap.valueAt_int (d : Nat) (k : Heap) (p q : Nat) (i : Int)
    (hp : k.read p = some (.value 1 q)) (hq : k.read q = some (.int i)) :
    Heap.valueAt (d + 1) k p = some (.INT i) := by
  simp [Heap.valueAt, hp, hq]

theorem Heap.valueAt_double (d : Nat) (k : Heap) (p q : Nat) (x : Nat)
    (hp : k.read p = some (.value 2 q)) (hq : k.read q = some (.double x)) :
    Heap.valueAt (d + 1) k p = some (.DOUBLE x) := by
  simp [Heap.valueAt, hp, hq]

theorem Heap.valueAt_blob (d : Nat) (k : Heap) (p q : Nat) (blob : List Nat)
    (hp : k.read p = some (.value 3 q)) (hq : k.read q = some (.chars blob)) :
    Heap.valueAt (d + 1) k p = some (.CHARP blob) := by
  simp [Heap.valueAt, hp, hq]

theorem Heap.valueAt_string (d : Nat) (k : Heap) (p q : Nat) (s : List Nat)
    (hp : k.read p = some (.value 5 q)) (hq : k.read q = some (.string s)) :
    Heap.valueAt (d + 1) k p = some (.STRING s) := by
  simp [Heap.valueAt, hp, hq]

theorem Heap.valueAt_list (d : Nat) (k : Heap) (p q : Nat) (vs : List Nat) (tp : Option Nat)
    (l : List eValue) (hp : k.read p = some (.value 4 q))
    (hq : k.read q = some (.bottle vs tp)) (hl : vs.mapM (Heap.valueAt d k) = some l) :
    Heap.valueAt (d + 1) k p = some (.BOTTLE (.mk l)) := by
  rw [Heap.valueAt]
  simp only [hp, hq]
  rw [if_pos trivial, hl, Option.map_some']

theorem Heap.valueAt_stable (P : Nat → Prop) (h k : Heap)
    (hkeep : ∀ a cell, P a → h.read a = some cell → k.read a = some cell)
    (hstep : ∀ a cell q, P a → h.read a = some cell → q ∈ cell.ptrs →
      (∃ c, h.read q = some c) → P q) (depth : Nat) :
    ∀ p v, P p → Heap.valueAt depth h p = some v → Heap.valueAt depth k p = some v := by
  induction depth with
  | zero => intro p v _ hv; simp [Heap.valueAt] at hv
  | succ d ih =>
    intro p v hp hv
    obtain ⟨d1, type, q, hd, hread, hcases⟩ := Heap.valueAt_inv (d + 1) h p v hv
    have hd1 : d1 = d := by omega
    subst hd1
    have hkp := hkeep p _ hp hread
    have hPq : ∀ c, h.read q = some c → P q := fun c hc =>
      hstep p _ q hp hread (by simp [Cell.ptrs]) ⟨c, hc⟩
    rcases hcases with ⟨i, rfl, rfl, hq⟩ | ⟨x, rfl, rfl, hq⟩ | ⟨blob, rfl, rfl, hq⟩ |
      ⟨s, rfl, rfl, hq⟩ | ⟨vs, tp, l, rfl, rfl, hq, hl⟩
    · exact Heap.valueAt_int d1 k p q i hkp (hkeep q _ (hPq _ hq) hq)
    · exact Heap.valueAt_double d1 k p q x hkp (hkeep q _ (hPq _ hq) hq)
    · exact Heap.valueAt_blob d1 k p q blob hkp (hkeep q _ (hPq _ hq) hq)
    · exact Heap.valueAt_string d1 k p q s hkp (hkeep q _ (hPq _ hq) hq)
    · refine Heap.valueAt_list d1 k p q vs tp l hkp (hkeep q _ (hPq _ hq) hq) ?_
      refine List.mapM_option_mono _ _ vs l hl ?_
      intro x hx y hy
      refine ih x y ?_ hy
      exact hstep q _ x (hPq _ hq) hq ((Cell.mem_ptrs_bottle vs tp x).2 (Or.inl hx))
        (Heap.valueAt_read d1 h x y hy)

theorem eBottle.assignLoop_map (vs : List eValue) :
    ∀ this : eBottle, eBottle.assignLoop vs this = .mk (this.values ++ vs.map eValue.assign) := by
  induction vs with
  | nil => intro this; simp only [eBottle.assignLoop, List.map_nil, List.append_nil,
      eBottle.mk_values]
  | cons v rest ih =>
    intro this
    cases v with
    | INT i =>
      simp only [eBottle.assignLoop, ih, eBottle.addInt, eBottle.push_back, eBottle.values_mk,
        List.map_cons, eValue.assign, List.append_assoc, List.singleton_append]
    | DOUBLE d =>
      simp only [eBottle.assignLoop, ih, eBottle.addDouble, eBottle.push_back,
        eBottle.values_mk, List.map_cons, eValue.assign, List.append_assoc,
        List.singleton_append]
    | CHARP blob =>
      simp only [eBottle.assignLoop, ih, eBottle.addBlob, eBottle.push_back, eBottle.values_mk,
        List.map_cons, eValue.assign, List.append_assoc, List.singleton_append]
    | BOTTLE q =>
      simp only [eBottle.assignLoop, ih, eBottle.addListPtr, eBottle.push_back,
        eBottle.values_mk, List.map_cons, eValue.assign, List.append_assoc,
        List.singleton_append]
    | STRING s =>
      simp only [eBottle.assignLoop, ih, eBottle.addString, eBottle.push_back,
        eBottle.values_mk, List.map_cons, eValue.assign, List.append_assoc,
        List.singleton_append,
        c_str_of_nulFree (c_str s) (c_str_all_ne_zero s)]

theorem eBottle.assign_values (l : List eValue) :
    (eBottle.assign (.mk l)).values = l.map eValue.assign := by
  rw [eBottle.assign, eBottle.assignLoop_map]
  simp only [eBottle.values_empty, eBottle.values_mk, List.nil_append]

theorem Heap.add_new_grows (h : Heap) (this : Nat) (type : Int) (payload : Cell)
    (ws : List Nat) (tp : Option Nat) (hthis : h.read this = some (.bottle ws tp)) :
    ∃ k, (h.newValue type payload).1.push_back this (h.newValue type payload).2 = some k ∧
      k.length = h.length + 2 ∧
      (∀ a, a < h.length → a ≠ this → k.read a = h.read a) ∧
      k.read this = some (.bottle (ws ++ [h.length + 1]) tp) ∧
      k.read h.length = some payload ∧
      k.read (h.length + 1) = some (.value type h.length) := by
  have hlt := Heap.read_lt h this _ hthis
  have hl1 : (h.alloc payload).1.length = h.length + 1 := Heap.length_alloc h payload
  have e2 : (h.newValue type payload).2 = h.length + 1 := by
    simp only [Heap.newValue, Heap.alloc_snd, hl1]
  have hl2 : (h.newValue type payload).1.length = h.length + 2 := by
    simp only [Heap.newValue, Heap.length_alloc]
  have hread2 : ∀ a, (h.newValue type payload).1.read a
      = if a = h.length + 1 then some (.value type h.length)
        else if a = h.length then some payload else h.read a := by
    intro a
    simp only [Heap.newValue, Heap.read_alloc, Heap.alloc_snd, hl1]
  have hthis2 : (h.newValue type payload).1.read this = some (.bottle ws tp) := by
    rw [hread2, if_neg (by omega), if_neg (by omega), hthis]
  have hw : ∃ k, (h.newValue type payload).1.write this (.bottle (ws ++ [h.length + 1]) tp)
      = some k := by
    unfold Heap.write; rw [hthis2]; exact ⟨_, rfl⟩
  obtain ⟨k, hk⟩ := hw
  refine ⟨k, ?_, ?_, ?_, ?_, ?_, ?_⟩
  · unfold Heap.push_back; rw [hthis2, e2]; exact hk
  · rw [Heap.length_write _ k this _ hk, hl2]
  · intro a ha hne
    rw [Heap.read_write _ k this a _ hk, if_neg hne, hread2, if_neg (by omega),
      if_neg (by omega)]
  · rw [Heap.read_write _ k this this _ hk, if_pos rfl]
  · rw [Heap.read_write _ k this _ _ hk, if_neg (by omega), hread2, if_neg (by omega),
      if_pos rfl]
  · rw [Heap.read_write _ k this _ _ hk, if_neg (by omega), hread2, if_pos rfl]

theorem eBottle.copyLoopFuel_pos (elems : List eValue) : 1 ≤ eBottle.copyLoopFuel elems := by
  cases elems with
  | nil => simp [eBottle.copyLoopFuel]
  | cons v rest => cases v <;> simp [eBottle.copyLoopFuel]

theorem List.drop_of_get?_none {α : Type} (l : List α) (i : Nat) (h : l.get? i = none) :
    l.drop i = [] := by
  rw [List.get?_eq_none] at h
  exact List.drop_eq_nil_of_le h

theorem List.drop_of_get?_some {α : Type} (l : List α) (i : Nat) (x : α)
    (h : l.get? i = some x) : l.drop i = x :: l.drop (i + 1) := by
  rw [List.get?_eq_some] at h
  obtain ⟨hlt, hx⟩ := h
  rw [List.drop_eq_getElem_cons hlt]
  simp only [List.get_eq_getElem] at hx
  rw [hx]

theorem Heap.bagAt_inv (d : Nat) (h : Heap) (b : Nat) (l : List eValue)
    (hb : Heap.bagAt d h b = some (.mk l)) :
    ∃ vs tp, h.read b = some (.bottle vs tp) ∧ vs.mapM (Heap.valueAt d h) = some l := by
  unfold Heap.bagAt at hb
  split at hb
  · rename_i vs tp hread
    rw [Option.map_eq_some'] at hb
    obtain ⟨l1, hl, e⟩ := hb
    cases e
    exact ⟨vs, tp, hread, hl⟩
  · exact absurd hb (by simp)

theorem Heap.bagAt_of (d : Nat) (h : Heap) (b : Nat) (vs : List Nat) (tp : Option Nat)
    (l : List eValue) (hread : h.read b = some (.bottle vs tp))
    (hl : vs.mapM (Heap.valueAt d h) = some l) : Heap.bagAt d h b = some (.mk l) := by
  unfold Heap.bagAt
  simp only [hread]
  rw [hl, Option.map_some']

theorem Heap.clear_fresh (fuel : Nat) (h : Heap) (this : Nat)
    (hthis : h.read this = some (.bottle [] none)) : Heap.clear (fuel + 1) h this = some h := by
  unfold Heap.clear
  rw [Heap.deleteLoop]
  simp only [hthis, List.get?_nil, Option.some_bind, Heap.deleteScratch]
  exact Heap.write_same h this _ hthis

theorem Heap.copyLoop_done (fuel : Nat) (h : Heap) (this b i : Nat) (vs : List Nat)
    (tpb : Option Nat) (hb : h.read b = some (.bottle vs tpb)) (hget : vs.get? i = none) :
    Heap.copyLoop (fuel + 1) h this b i = some h := by
  rw [Heap.copyLoop]
  simp only [hb, hget]

theorem Heap.copyLoop_int (fuel : Nat) (h : Heap) (this b i : Nat) (vs : List Nat)
    (tpb : Option Nat) (pv q : Nat) (x : Int) (hb : h.read b = some (.bottle vs tpb))
    (hget : vs.get? i = some pv) (hpv : h.read pv = some (.value 1 q))
    (hq : h.read q = some (.int x)) :
    Heap.copyLoop (fuel + 1) h this b i
      = (h.addInt this x).bind fun h1 => Heap.copyLoop fuel h1 this b (i + 1) := by
  rw [Heap.copyLoop]
  simp only [hb, hget, hpv, hq, if_true]

theorem Heap.copyLoop_double (fuel : Nat) (h : Heap) (this b i : Nat) (vs : List Nat)
    (tpb : Option Nat) (pv q : Nat) (x : Nat) (hb : h.read b = some (.bottle vs tpb))
    (hget : vs.get? i = some pv) (hpv : h.read pv = some (.value 2 q))
    (hq : h.read q = some (.double x)) :
    Heap.copyLoop (fuel + 1) h this b i
      = (h.addDouble this x).bind fun h1 => Heap.copyLoop fuel h1 this b (i + 1) := by
  rw [Heap.copyLoop]
  simp only [hb, hget, hpv, hq, if_true]
  rw [if_neg (show ¬ ((2 : Int) = 1) by decide)]

theorem Heap.copyLoop_blob (fuel : Nat) (h : Heap) (this b i : Nat) (vs : List Nat)
    (tpb : Option Nat) (pv q : Nat) (x : List Nat) (hb : h.read b = some (.bottle vs tpb))
    (hget : vs.get? i = some pv) (hpv : h.read pv = some (.value 3 q))
    (hq : h.read q = some (.chars x)) :
    Heap.copyLoop (fuel + 1) h this b i
      = (h.addBlob this x).bind fun h1 => Heap.copyLoop fuel h1 this b (i + 1) := by
  rw [Heap.copyLoop]
  simp only [hb, hget, hpv, hq, if_true]
  rw [if_neg (show ¬ ((3 : Int) = 1) by decide)]
  rw [if_neg (show ¬ ((3 : Int) = 2) by decide)]

theorem Heap.copyLoop_string (fuel : Nat) (h : Heap) (this b i : Nat) (vs : List Nat)
    (tpb : Option Nat) (pv q : Nat) (x : List Nat) (hb : h.read b = some (.bottle vs tpb))
    (hget : vs.get? i = some pv) (hpv : h.read pv = some (.value 5 q))
    (hq : h.read q = some (.string x)) :
    Heap.copyLoop (fuel + 1) h this b i
      = (h.addString this (c_str x)).bind fun h1 => Heap.copyLoop fuel h1 this b (i + 1) := by
  rw [Heap.copyLoop]
  simp only [hb, hget, hpv, hq, if_true]
  rw [if_neg (show ¬ ((5 : Int) = 1) by decide)]
  rw [if_neg (show ¬ ((5 : Int) = 2) by decide)]
  rw [if_neg (show ¬ ((5 : Int) = 3) by decide)]
  rw [if_neg (show ¬ ((5 : Int) = 4) by decide)]

theorem Heap.copyLoop_list (fuel : Nat) (h : Heap) (this b i : Nat) (vs : List Nat)
    (tpb : Option Nat) (pv q : Nat) (hb : h.read b = some (.bottle vs tpb))
    (hget : vs.get? i = some pv) (hpv : h.read pv = some (.value 4 q)) :
    Heap.copyLoop (fuel + 1) h this b i
      = ((h.addListPtr this).bind fun r => Heap.copy fuel r.1 r.2 q).bind
          fun h1 => Heap.copyLoop fuel h1 this b (i + 1) := by
  rw [Heap.copyLoop]
  simp only [hb, hget, hpv, if_true]
  rw [if_neg (show ¬ ((4 : Int) = 1) by decide)]
  rw [if_neg (show ¬ ((4 : Int) = 2) by decide)]
  rw [if_neg (show ¬ ((4 : Int) = 3) by decide)]

theorem Heap.copyLoop_combine (h k1 k2 : Heap) (this p1 : Nat) (ws news2 : List Nat)
    (tp : Option Nat) (d : Nat) (v1 : eValue) (rest : List eValue)
    (hthis : this < h.length) (hlen1 : h.length ≤ k1.length)
    (hframe1 : ∀ a, a < h.length → a ≠ this → k1.read a = h.read a)
    (hp1 : h.length ≤ p1)
    (hclosed1 : ∀ a cell q, h.length ≤ a → k1.read a = some cell → q ∈ cell.ptrs →
      h.length ≤ q)
    (hval1 : Heap.valueAt d k1 p1 = some v1)
    (hlen2 : k1.length ≤ k2.length)
    (hframe2 : ∀ a, a < k1.length → a ≠ this → k2.read a = k1.read a)
    (hthis2 : k2.read this = some (.bottle ((ws ++ [p1]) ++ news2) tp))
    (hnews2 : ∀ q ∈ news2, k1.length ≤ q)
    (hclosed2 : ∀ a cell q, k1.length ≤ a → k2.read a = some cell → q ∈ cell.ptrs →
      k1.length ≤ q)
    (hval2 : news2.mapM (Heap.valueAt d k2) = some rest) :
    h.length ≤ k2.length ∧
    (∀ a, a < h.length → a ≠ this → k2.read a = h.read a) ∧
    k2.read this = some (.bottle (ws ++ (p1 :: news2)) tp) ∧
    (∀ q ∈ p1 :: news2, h.length ≤ q) ∧
    (∀ a cell q, h.length ≤ a → k2.read a = some cell → q ∈ cell.ptrs → h.length ≤ q) ∧
    (p1 :: news2).mapM (Heap.valueAt d k2) = some (v1 :: rest) := by
  refine ⟨Nat.le_trans hlen1 hlen2, ?_, ?_, ?_, ?_, ?_⟩
  · intro a ha hne
    rw [hframe2 a (Nat.lt_of_lt_of_le ha hlen1) hne, hframe1 a ha hne]
  · rw [hthis2, List.append_assoc, List.singleton_append]
  · intro q hq
    rcases List.mem_cons.1 hq with e | hq
    · rw [e]; exact hp1
    · exact Nat.le_trans hlen1 (hnews2 q hq)
  · intro a cell q ha hr hq
    by_cases hlt : a < k1.length
    · have hne : a ≠ this := by omega
      rw [hframe2 a hlt hne] at hr
      exact hclosed1 a cell q ha hr hq
    · exact Nat.le_trans hlen1 (hclosed2 a cell q (by omega) hr hq)
  · have hhead : Heap.valueAt d k2 p1 = some v1 := by
      refine Heap.valueAt_stable (fun a => h.length ≤ a) k1 k2 ?_ ?_ d p1 v1 hp1 hval1
      · intro a cell ha hr
        have hlt := Heap.read_lt k1 a cell hr
        have hne : a ≠ this := by omega
        rw [hframe2 a hlt hne]; exact hr
      · intro a cell q ha hr hq _
        exact hclosed1 a cell q ha hr hq
    rw [List.mapM_cons, hhead, hval2]
    rfl

theorem Heap.copy_shows (h0 : Heap) (fuel : Nat) :
    (∀ (d : Nat) (h : Heap) (this b : Nat) (l : List eValue),
      (∀ a cell, h0.read a = some cell → h.read a = some cell) →
      h0.length ≤ this → h.read this = some (.bottle [] none) →
      Heap.bagAt d h0 b = some (.mk l) → eBottle.copyFuel (.mk l) ≤ fuel →
      ∃ k news, Heap.copy fuel h this b = some k ∧ h.length ≤ k.length ∧
        (∀ a, a < h.length → a ≠ this → k.read a = h.read a) ∧
        k.read this = some (.bottle news none) ∧
        (∀ q ∈ news, h.length ≤ q) ∧
        (∀ a cell q, h.length ≤ a → k.read a = some cell → q ∈ cell.ptrs → h.length ≤ q) ∧
        news.mapM (Heap.valueAt d k) = some (l.map eValue.assign)) ∧
    (∀ (d : Nat) (h : Heap) (this b : Nat) (vs : List Nat) (tpb : Option Nat) (i : Nat)
      (elems : List eValue) (ws : List Nat) (tp : Option Nat),
      (∀ a cell, h0.read a = some cell → h.read a = some cell) →
      h0.length ≤ this → h.read this = some (.bottle ws tp) →
      h0.read b = some (.bottle vs tpb) →
      (vs.drop i).mapM (Heap.valueAt d h0) = some elems →
      eBottle.copyLoopFuel elems ≤ fuel →
      ∃ k news, Heap.copyLoop fuel h this b i = some k ∧ h.length ≤ k.length ∧
        (∀ a, a < h.length → a ≠ this → k.read a = h.read a) ∧
        k.read this = some (.bottle (ws ++ news) tp) ∧
        (∀ q ∈ news, h.length ≤ q) ∧
        (∀ a cell q, h.length ≤ a → k.read a = some cell → q ∈ cell.ptrs → h.length ≤ q) ∧
        news.mapM (Heap.valueAt d k) = some (elems.map eValue.assign)) := by
  induction fuel with
  | zero =>
    constructor
    · intro d h this b l _ _ _ _ hf
      have := eBottle.copyLoopFuel_pos l
      simp only [eBottle.copyFuel] at hf
      omega
    · intro d h this b vs tpb i elems ws tp _ _ _ _ _ hf
      have := eBottle.copyLoopFuel_pos elems
      omega
  | succ fuel ih =>
    constructor
    · intro d h this b l hlow hn0 hthis hbag hf
      simp only [eBottle.copyFuel] at hf
      have hpos := eBottle.copyLoopFuel_pos l
      obtain ⟨vs, tpb, hb0, hl⟩ := Heap.bagAt_inv d h0 b l hbag
      obtain ⟨f1, hf1⟩ : ∃ f1, fuel = f1 + 1 := ⟨fuel - 1, by omega⟩
      have hclear : Heap.clear fuel h this = some h := by
        rw [hf1]; exact Heap.clear_fresh f1 h this hthis
      obtain ⟨k, news, hrun, hlen, hframe, hk, hnews, hclosed, hval⟩ :=
        ih.2 d h this b vs tpb 0 l [] none hlow hn0 hthis hb0
          (by rw [List.drop_zero]; exact hl) (by omega)
      refine ⟨k, news, ?_, hlen, hframe, ?_, hnews, hclosed, hval⟩
      · rw [Heap.copy, hclear, Option.some_bind]; exact hrun
      · rw [hk, List.nil_append]
    · intro d h this b vs tpb i elems ws tp hlow hn0 hthis hb0 hel hf
      have hb : h.read b = some (.bottle vs tpb) := hlow b _ hb0
      have hthislt : this < h.length := Heap.read_lt h this _ hthis
      cases hget : vs.get? i with
      | none =>
        rw [List.drop_of_get?_none vs i hget] at hel
        have he : elems = [] := by
          rw [List.mapM_nil] at hel; exact (Option.some.inj hel).symm
        subst he
        refine ⟨h, [], Heap.copyLoop_done fuel h this b i vs tpb hb hget, Nat.le_refl _,
          fun _ _ _ => rfl, ?_, ?_, ?_, rfl⟩
        · rw [hthis, List.append_nil]
        · intro q hq; cases hq
        · intro a cell q ha hr _
          exact absurd (Heap.read_lt h a cell hr) (by omega)
      | some pv =>
        rw [List.drop_of_get?_some vs i pv hget] at hel
        obtain ⟨v, rest, hv, hrest, he⟩ := List.mapM_option_cons _ pv _ elems hel
        subst he
        obtain ⟨d1, type, q, hd, hpv0, hcases⟩ := Heap.valueAt_inv d h0 pv v hv
        subst hd
        have hpv : h.read pv = some (.value type q) := hlow pv _ hpv0
        -- one simple element: the new cells, then the rest of the loop
        have simple : ∀ (payload : Cell) (v1 : eValue) (k1 : Heap),
            eBottle.copyLoopFuel rest ≤ fuel →
            k1.length = h.length + 2 →
            (∀ a, a < h.length → a ≠ this → k1.read a = h.read a) →
            k1.read this = some (.bottle (ws ++ [h.length + 1]) tp) →
            k1.read h.length = some payload → payload.ptrs = [] →
            k1.read (h.length + 1) = some (.value type h.length) →
            Heap.valueAt (d1 + 1) k1 (h.length + 1) = some v1 →
            ∃ k news, Heap.copyLoop fuel k1 this b (i + 1) = some k ∧
              h.length ≤ k.length ∧
              (∀ a, a < h.length → a ≠ this → k.read a = h.read a) ∧
              k.read this = some (.bottle (ws ++ news) tp) ∧
              (∀ q ∈ news, h.length ≤ q) ∧
              (∀ a cell q, h.length ≤ a → k.read a = some cell → q ∈ cell.ptrs →
                h.length ≤ q) ∧
              news.mapM (Heap.valueAt (d1 + 1) k) = some (v1 :: rest.map eValue.assign) := by
          intro payload v1 k1 hfr hlen1 hframe1 hthis1 hpay hptrs hval hv1
          have hlow1 : ∀ a cell, h0.read a = some cell → k1.read a = some cell := by
            intro a cell ha
            have h1 := hlow a cell ha
            have hlt0 := Heap.read_lt h0 a cell ha
            rw [hframe1 a (Heap.read_lt h a cell h1) (by omega)]; exact h1
          obtain ⟨k2, news2, hrun2, hlen2, hframe2, hthis2, hnews2, hclosed2, hval2⟩ :=
            ih.2 (d1 + 1) k1 this b vs tpb (i + 1) rest (ws ++ [h.length + 1]) tp hlow1 hn0
              hthis1 hb0 hrest hfr
          have hclosed1 : ∀ a cell q, h.length ≤ a → k1.read a = some cell →
              q ∈ cell.ptrs → h.length ≤ q := by
            intro a cell q ha hr hq
            have hlt := Heap.read_lt k1 a cell hr
            have hcase : a = h.length ∨ a = h.length + 1 := by omega
            rcases hcase with e | e
            · rw [e, hpay] at hr; cases hr; rw [hptrs] at hq; cases hq
            · rw [e, hval] at hr; cases hr
              simp only [Cell.ptrs, List.mem_singleton] at hq
              omega
          exact ⟨k2, (h.length + 1) :: news2, hrun2,
            Heap.copyLoop_combine h k1 k2 this (h.length + 1) ws news2 tp (d1 + 1) v1 _
              hthislt (by omega) hframe1 (by omega) hclosed1 hv1 hlen2 hframe2 hthis2 hnews2
              hclosed2 hval2⟩
        rcases hcases with ⟨x, rfl, rfl, hq0⟩ | ⟨x, rfl, rfl, hq0⟩ | ⟨x, rfl, rfl, hq0⟩ |
          ⟨x, rfl, rfl, hq0⟩ | ⟨vs1, tp1, l1, rfl, rfl, hq0, hl1⟩
        · obtain ⟨k1, hadd, hlen1, hframe1, hthis1, hpay, hval⟩ :=
            Heap.add_new_grows h this 1 (.int x) ws tp hthis
          simp only [eBottle.copyLoopFuel] at hf
          obtain ⟨k, news, hrun, hrest1⟩ := simple (.int x) (.INT x) k1 (by omega) hlen1 hframe1
            hthis1 hpay rfl hval (Heap.valueAt_int d1 k1 _ _ x hval hpay)
          refine ⟨k, news, ?_, hrest1⟩
          rw [Heap.copyLoop_int fuel h this b i vs tpb pv q x hb hget hpv (hlow q _ hq0)]
          rw [Heap.addInt, hadd, Option.some_bind]; exact hrun
        · obtain ⟨k1, hadd, hlen1, hframe1, hthis1, hpay, hval⟩ :=
            Heap.add_new_grows h this 2 (.double x) ws tp hthis
          simp only [eBottle.copyLoopFuel] at hf
          obtain ⟨k, news, hrun, hrest1⟩ := simple (.double x) (.DOUBLE x) k1 (by omega) hlen1
            hframe1 hthis1 hpay rfl hval (Heap.valueAt_double d1 k1 _ _ x hval hpay)
          refine ⟨k, news, ?_, hrest1⟩
          rw [Heap.copyLoop_double fuel h this b i vs tpb pv q x hb hget hpv (hlow q _ hq0)]
          rw [Heap.addDouble, hadd, Option.some_bind]; exact hrun
        · obtain ⟨k1, hadd, hlen1, hframe1, hthis1, hpay, hval⟩ :=
            Heap.add_new_grows h this 3 (.chars x) ws tp hthis
          simp only [eBottle.copyLoopFuel] at hf
          obtain ⟨k, news, hrun, hrest1⟩ := simple (.chars x) (.CHARP x) k1 (by omega) hlen1
            hframe1 hthis1 hpay rfl hval (Heap.valueAt_blob d1 k1 _ _ x hval hpay)
          refine ⟨k, news, ?_, hrest1⟩
          rw [Heap.copyLoop_blob fuel h this b i vs tpb pv q x hb hget hpv (hlow q _ hq0)]
          rw [Heap.addBlob, hadd, Option.some_bind]; exact hrun
        · obtain ⟨k1, hadd, hlen1, hframe1, hthis1, hpay, hval⟩ :=
            Heap.add_new_grows h this 5 (.string (c_str (c_str x))) ws tp hthis
          simp only [eBottle.copyLoopFuel] at hf
          have hcc : c_str (c_str x) = c_str x :=
            c_str_of_nulFree (c_str x) (c_str_all_ne_zero x)
          rw [hcc] at hadd hpay
          obtain ⟨k, news, hrun, hrest1⟩ := simple (.string (c_str x)) (.STRING (c_str x)) k1
            (by omega) hlen1 hframe1 hthis1 hpay rfl hval
            (Heap.valueAt_string d1 k1 _ _ (c_str x) hval hpay)
          refine ⟨k, news, ?_, hrest1⟩
          rw [Heap.copyLoop_string fuel h this b i vs tpb pv q x hb hget hpv (hlow q _ hq0)]
          rw [Heap.addString, hcc, hadd, Option.some_bind]; exact hrun
        · obtain ⟨k0, hadd, hlen0, hframe0, hthis0, hpay0, hval0⟩ :=
            Heap.add_new_grows h this 4 (.bottle [] none) ws tp hthis
          simp only [eBottle.copyLoopFuel] at hf
          have hfpos := eBottle.copyLoopFuel_pos rest
          have haddList : h.addListPtr this = some (k0, h.length) := by
            rw [Heap.addListPtr, hadd, Option.map_some', Heap.alloc_snd]
          have hlow0 : ∀ a cell, h0.read a = some cell → k0.read a = some cell := by
            intro a cell ha
            have h1 := hlow a cell ha
            have hlt0 := Heap.read_lt h0 a cell ha
            rw [hframe0 a (Heap.read_lt h a cell h1) (by omega)]; exact h1
          obtain ⟨k1, news1, hrun1, hlen1, hframe1, hyb1, hnews1, hclosed1, hval1⟩ :=
            ih.1 d1 k0 h.length q l1 hlow0 (by omega) hpay0
              (Heap.bagAt_of d1 h0 q vs1 tp1 l1 hq0 hl1) (by omega)
          have hthis1 : k1.read this = some (.bottle (ws ++ [h.length + 1]) tp) := by
            rw [hframe1 this (by omega) (by omega)]; exact hthis0
          have hlow1 : ∀ a cell, h0.read a = some cell → k1.read a = some cell := by
            intro a cell ha
            have h1 := hlow0 a cell ha
            have hlt0 := Heap.read_lt h0 a cell ha
            rw [hframe1 a (Heap.read_lt k0 a cell h1) (by omega)]; exact h1
          obtain ⟨k2, news2, hrun2, hlen2, hframe2, hthis2, hnews2, hclosed2, hval2⟩ :=
            ih.2 (d1 + 1) k1 this b vs tpb (i + 1) rest (ws ++ [h.length + 1]) tp hlow1 hn0
              hthis1 hb0 hrest (by omega)
          have hvalue1 : k1.read (h.length + 1) = some (.value 4 h.length) := by
            rw [hframe1 (h.length + 1) (by omega) (by omega)]; exact hval0
          have hcl : ∀ a cell q, h.length ≤ a → k1.read a = some cell → q ∈ cell.ptrs →
              h.length ≤ q := by
            intro a cell q ha hr hq
            by_cases e1 : a = h.length
            · rw [e1, hyb1] at hr; cases hr
              rw [Cell.mem_ptrs_bottle] at hq
              rcases hq with hq | hq
              · have := hnews1 q hq; omega
              · cases hq
            · by_cases e2 : a = h.length + 1
              · rw [e2, hvalue1] at hr; cases hr
                simp only [Cell.ptrs, List.mem_singleton] at hq
                omega
              · have := hclosed1 a cell q (by omega) hr hq
                omega
          have hv1 : Heap.valueAt (d1 + 1) k1 (h.length + 1)
              = some (.BOTTLE (.mk (l1.map eValue.assign))) :=
            Heap.valueAt_list d1 k1 _ _ news1 none _ hvalue1 hyb1 hval1
          have hassign : eValue.assign (.BOTTLE (.mk l1))
              = .BOTTLE (.mk (l1.map eValue.assign)) := by
            rw [eValue.assign, eBottle.assign, eBottle.assignLoop_map]
            simp only [eBottle.values_empty, List.nil_append]
          refine ⟨k2, (h.length + 1) :: news2, ?_, ?_⟩
          · rw [Heap.copyLoop_list fuel h this b i vs tpb pv q hb hget hpv, haddList,
              Option.some_bind]
            simp only []
            rw [hrun1, Option.some_bind]; exact hrun2
          · rw [List.map_cons, hassign]
            exact Heap.copyLoop_combine h k1 k2 this (h.length + 1) ws news2 tp (d1 + 1) _ _
              hthislt (by omega) (fun a ha hne => by
                rw [hframe1 a (by omega) (by omega)]; exact hframe0 a ha hne)
              (by omega) hcl hv1 hlen2 hframe2 hthis2 hnews2 hclosed2 hval2

theorem Heap.copyCtor_shows (d : Nat) (h0 : Heap) (b : Nat) (v : eBottle) (fuel : Nat)
    (hbag : Heap.bagAt d h0 b = some v) (hf : v.copyFuel ≤ fuel) :
    ∃ r, Heap.copyCtor fuel h0 b = some r ∧ r.2 = h0.length ∧
      Heap.bagAt d r.1 r.2 = some v.assign ∧
      ∀ a, a < h0.length → r.1.read a = h0.read a := by
  cases v with
  | mk l =>
    have hlow : ∀ a cell, h0.read a = some cell →
        (h0.alloc (.bottle [] none)).1.read a = some cell := by
      intro a cell ha
      rw [Heap.read_alloc_of_lt h0 _ a (Heap.read_lt h0 a cell ha)]; exact ha
    have hthis : (h0.alloc (.bottle [] none)).1.read h0.length = some (.bottle [] none) :=
      Heap.read_alloc_self h0 _
    obtain ⟨k, news, hrun, _, hframe, hk, _, _, hval⟩ :=
      (Heap.copy_shows h0 fuel).1 d (h0.alloc (.bottle [] none)).1 h0.length b l hlow
        (Nat.le_refl _) hthis hbag hf
    refine ⟨(k, h0.length), ?_, rfl, ?_, ?_⟩
    · rw [Heap.copyCtor, Heap.alloc_snd, hrun, Option.map_some']
    · have e : eBottle.assign (.mk l) = .mk (l.map eValue.assign) := by
        rw [eBottle.assign, eBottle.assignLoop_map]
        simp only [eBottle.values_empty, List.nil_append]
      rw [e]
      exact Heap.bagAt_of d k h0.length news none _ hk hval
    · intro a ha
      rw [hframe a (by rw [Heap.length_alloc]; omega) (by omega),
        Heap.read_alloc_of_lt h0 _ a ha]

theorem Heap.clear_after_released_scratch :
    Heap.mutateAll 6 heapExampleCopy.1 heapExampleCopy.2 [([], .clear)] = none ∧
    (Heap.copyOf 6 heapExample 0 .ctor).bind
      (fun c => (Heap.mutateAll 6 c.1 c.2 [([], .clear), ([], .clear)]).map fun k =>
        Heap.bagAt 3 k c.2) = some (some (.mk [])) := by
  constructor <;> rfl

theorem Heap.toBinary_of_same (h k : Heap) (b : Nat) (depth : Nat) (fresh : Nat → Nat)
    (hbag : Heap.bagAt depth k b = Heap.bagAt depth h b) (hread : k.read b = h.read b) :
    (Heap.toBinary depth k b fresh).map (fun r => r.1)
      = (Heap.toBinary depth h b fresh).map fun r => r.1 := by
  unfold Heap.toBinary
  rw [hbag, hread]
  cases Heap.bagAt depth h b with
  | none => rfl
  | some v =>
    simp only [Option.some_bind]
    cases v.toBinaryOwned fresh with
    | none => rfl
    | some r =>
      simp only [Option.some_bind]
      cases hr : h.read b with
      | none => rfl
      | some cell =>
        cases cell with
        | bottle values tp =>
          simp only []
          have hlt := Heap.read_lt h b _ hr
          have hlt2 : b < k.length := Heap.read_lt k b _ (hread.trans hr)
          have e1 : (h.alloc (.chars r.1)).1.read b = some (.bottle values tp) := by
            rw [Heap.read_alloc_of_lt h _ b hlt, hr]
          have e2 : (k.alloc (.chars r.1)).1.read b = some (.bottle values tp) := by
            rw [Heap.read_alloc_of_lt k _ b hlt2, hread, hr]
          simp only [Heap.write, e1, e2, Option.map_some']
        | _ => rfl

/-- C13 (deep-copy independence): let the eBottle at `b` show the Bag `v` and let its cells `F`
be owned from inside.  The copy constructor returns a copy, which shows the same Bag (its
Strings as C strings).  For a copy `c` made by the copy constructor, or by `copy()` or
`operator=` on an eBottle outside `F`, and every sequence of `add*`, `add`, `insert`, `remove`
and `clear` calls on `c` or on a nested Bag of `c` at any depth that returns, `toBinary` on `b`
gives afterwards the bytes and the size that it gave before the copy was made. -/
theorem deep_copy_independence (F : List Nat) (h0 : Heap) (b : Nat) (v : eBottle)
    (depth : Nat) (way : CopyWay) (fuel steps : Nat) (r : Heap × Nat)
    (ms : List (List Nat × Mutation)) (k : Heap) (fresh : Nat → Nat)
    (hown : h0.Owns F) (hb : b ∈ F) (hshows : Heap.bagAt depth h0 b = some v)
    (hinto : ∀ c, way.into = some c → c ∉ F)
    (hcopy : Heap.copyOf fuel h0 b way = some r)
    (hrun : Heap.mutateAll steps r.1 r.2 ms = some k) :
    (∃ c, Heap.copyOf v.copyFuel h0 b .ctor = some c ∧
      Heap.bagAt depth c.1 c.2 = some v.assign) ∧
    (Heap.toBinary depth k b fresh).map (fun out => out.1)
      = (Heap.toBinary depth h0 b fresh).map fun out => out.1 := by
  constructor
  · obtain ⟨c, hc, _, hbag, _⟩ :=
      Heap.copyCtor_shows depth h0 b v v.copyFuel hshows (Nat.le_refl _)
    exact ⟨c, hc, hbag⟩
  · obtain ⟨k1, hc⟩ :=
      Heap.copyOf_keeps F fuel h0 b way r (Heap.Owns.apart h0 F hown) hinto hcopy
    have k2 := Heap.mutateAll_keeps F steps r.2 hc ms r.1 k k1.1 hrun
    have hsame := (Heap.Keeps.trans F _ _ _ k1 k2).2
    exact Heap.toBinary_of_same h0 k b depth fresh
      (Heap.bagAt_same F h0 k (fun a cell ha hr => Heap.Owns.closed h0 F hown a cell ha hr)
        hsame depth b hb) (hsame b hb)

/-- Witness of C13: on the example heap the Bag `7 (8)` at 0 is assigned to the eBottle at 7,
then the copy and its nested Bags go through every kind of call. -/
theorem deep_copy_independence_witness :
    heapExample.Owns [0, 1, 2, 3, 4, 5, 6] ∧
    Heap.bagAt 3 heapExample 0 = some (.mk [.INT 7, .BOTTLE (.mk [.INT 8])]) ∧
    Heap.copyOf 6 heapExample 0 (.assign 7) = some heapExampleCopy ∧
    Heap.mutateAll 6 heapExampleCopy.1 heapExampleCopy.2 mutationsExample
      = some heapExampleEnd ∧
    ((∃ c, Heap.copyOf (eBottle.copyFuel (.mk [.INT 7, .BOTTLE (.mk [.INT 8])])) heapExample 0
        .ctor = some c ∧
      Heap.bagAt 3 c.1 c.2 = some (eBottle.assign (.mk [.INT 7, .BOTTLE (.mk [.INT 8])]))) ∧
    (Heap.toBinary 3 heapExampleEnd 0 (fun _ => 0)).map (fun out => out.1)
      = (Heap.toBinary 3 heapExample 0 (fun _ => 0)).map fun out => out.1) :=
  ⟨by decide, by rfl, by rfl, by rfl,
    deep_copy_independence [0, 1, 2, 3, 4, 5, 6] heapExample 0
      (.mk [.INT 7, .BOTTLE (.mk [.INT 8])]) 3 (.assign 7) 6 6
      heapExampleCopy mutationsExample heapExampleEnd (fun _ => 0) (by decide) (by decide)
      (by rfl) (by intro c hc; cases hc; decide) (by rfl) (by rfl)⟩

/-! ## Claims on decode errors -/

theorem ConnectionReader.expectInt_error (c : ConnectionReader)
    (r : Int × ConnectionReader) (h : c.expectInt = some r) : r.2.error = c.error := by
  unfold ConnectionReader.expectInt at h
  split at h
  · rw [← Option.some.inj h]
  · exact absurd h (by simp)

theorem ConnectionReader.expectBlock_error (c : ConnectionReader) (size : Nat)
    (r : List Nat × ConnectionReader) (h : c.expectBlock size = some r) :
    r.2.error = c.error := by
  unfold ConnectionReader.expectBlock at h
  split at h
  · rw [← Option.some.inj h]
  · exact absurd h (by simp)

/-- C21, as amended: an element whose tag is not one of 1..5 is not reported.  The turn of
`reconstruct` that meets it consumes the four bytes of the tag, adds no element and goes on;
`fromBinary` hands nothing back and prints its diagnostic only when the consumed offset
differs from `size`; and `read`, whenever it returns, returns `!connection.isError()`, where
the flag is the one the transport had, whatever the tags in the frame. -/
theorem unknown_tag_is_skipped (nested : eBottle → Int → Option (eBottle × Int))
    (p : List Nat) (st : eBottle × Int) (j : Int)
    (hj : readInt p st.2 = some j) (hun : ¬ (1 ≤ j ∧ j ≤ 5)) :
    eBottle.reconstructCase nested p st = some (st.1, toInt32 (st.2 + 4)) ∧
    (∀ (depth : Nat) (b : eBottle) (q : List Nat) (size : Int) (r : eBottle × Bool),
      eBottle.fromBinary depth b q size = some r →
      ∃ s, eBottle.reconstruct depth b 0 q = some (r.1, s) ∧ r.2 = decide (size ≠ s)) ∧
    (∀ (depth : Nat) (b : eBottle) (tp : Scratch) (c : ConnectionReader)
      (r : Bool × eBottle × ConnectionReader),
      eBottle.read depth b tp c = some r → r.1 = !c.error ∧ r.2.2.error = c.error) := by
  refine ⟨?_, ?_, ?_⟩
  · unfold eBottle.reconstructCase
    rw [hj, Option.some_bind]
    simp only []
    rw [if_neg (by omega), if_neg (by omega), if_neg (by omega), if_neg (by omega),
      if_neg (by omega)]
  · intro depth b q size r h
    unfold eBottle.fromBinary at h
    rw [Option.map_eq_some'] at h
    obtain ⟨x, hx, rfl⟩ := h
    exact ⟨x.2, hx, rfl⟩
  · intro depth b tp c r h
    unfold eBottle.read at h
    rw [Option.bind_eq_some] at h
    obtain ⟨this, _, h⟩ := h
    rw [Option.bind_eq_some] at h
    obtain ⟨r1, h1, h⟩ := h
    split at h
    · rw [Option.bind_eq_some] at h
      obtain ⟨r2, h2, h⟩ := h
      rw [Option.bind_eq_some] at h
      obtain ⟨r3, _, h⟩ := h
      have e1 := ConnectionReader.expectInt_error c r1 h1
      have e2 := ConnectionReader.expectBlock_error r1.2 _ r2 h2
      rw [← Option.some.inj h]
      simp only [e2, e1, and_self]
    · exact absurd h (by simp)

/-- Witness of C21 as amended: the buffer `count = 1, tag = 9`. -/
theorem unknown_tag_is_skipped_witness :
    readInt [1, 0, 0, 0, 9, 0, 0, 0] (eBottle.empty, (4 : Int)).2 = some 9 ∧
    ¬ (1 ≤ (9 : Int) ∧ (9 : Int) ≤ 5) ∧
    eBottle.reconstructCase (fun q s => eBottle.reconstruct 1 q s [1, 0, 0, 0, 9, 0, 0, 0])
      [1, 0, 0, 0, 9, 0, 0, 0] (eBottle.empty, 4) = some (eBottle.empty, toInt32 (4 + 4)) :=
  ⟨by decide, by decide,
    (unknown_tag_is_skipped (fun q s => eBottle.reconstruct 1 q s [1, 0, 0, 0, 9, 0, 0, 0])
      [1, 0, 0, 0, 9, 0, 0, 0] (eBottle.empty, 4) 9 (by decide) (by decide)).1⟩

/-- C21, counterexample: the 8 bytes `count = 1, tag = 9` are decoded without any report.
`fromBinary` consumes all 8 bytes, so the diagnostic is not printed, and leaves the Bag
without element; `read` on the frame that carries them returns `true`. -/
theorem unknown_tag_counterexample :
    eBottle.fromBinary 2 eBottle.empty [1, 0, 0, 0, 9, 0, 0, 0] 8
      = some (eBottle.empty, false) ∧
    (eBottle.read 2 seedBag .null ⟨[8, 0, 0, 0, 1, 0, 0, 0, 9, 0, 0, 0], false⟩).map
      (fun r => (r.1, r.2.1, r.2.2.data, r.2.2.error))
      = some (true, eBottle.empty, [], false) := by
  constructor <;> decide

/-! ## Claims on the member `size`, on the totality of the parser and on empty Blobs -/

/-- C22, the code on every String: the member `size` of a String Value is never written,
whichever way the Value is made (the String constructors behind `addString`, the parser and
the decoder, and `operator=`, which copies the member of its source), so `getSize()` has no
determined value; the encoder does not use it and writes `strlen + 1` as the length field.
For a Blob the constructor writes the member. -/
theorem string_size_never_written (s : List Nat) (b : eBottle) (q : List Nat) :
    (eValue.STRING s).getSize = none ∧
    ((b.addString s).values.map eValue.getSize).getLast? = some none ∧
    (eValue.STRING s).assign.getSize = none ∧
    (eValue.STRING s).wireBody = int32Bytes (strlen s + 1) ++ (c_str s ++ [0]) ∧
    (eValue.STRING [104, 105]).getSize = none ∧
    (eValue.STRING [104, 105]).wireBody = [3, 0, 0, 0, 104, 105, 0] ∧
    (eValue.CHARP q).getSize = some q.length := by
  refine ⟨rfl, ?_, rfl, rfl, rfl, by decide, rfl⟩
  simp [eBottle.addString, eBottle.push_back, eBottle.values_mk, eValue.getSize]

/-- C25 (the parser is total): for every text and every Bag, `fromString` returns a Bag: the
loop of `fromStr` takes one token at each turn, so the number of tokens bounds the number of
turns, and any larger bound gives the same Bag.  Nothing in the result can signal an error:
the call hands back the Bag only. -/
theorem parser_total (atof : List Nat → Nat) (b : eBottle) (txt : List Nat) :
    ∃ r : eBottle, eBottle.fromString atof b txt = some r ∧
      ∀ fuel, (strtokAll (eBottle.fromStringText txt)).tail.length < fuel →
        (eBottle.fromStr atof fuel b (strtokAll (eBottle.fromStringText txt)).tail).map
          (fun x => x.1) = some r := by
  obtain ⟨r, _, hr⟩ := eBottle.fromStrLoop_total atof
    (strtokAll (eBottle.fromStringText txt)).tail.length
    (strtokAll (eBottle.fromStringText txt)).tail b false [] (Nat.le_refl _)
  refine ⟨r.1, ?_, ?_⟩
  · unfold eBottle.fromString eBottle.fromStr
    rw [hr _ (by simp only [List.length_tail]; omega)]
    rfl
  · intro fuel hf
    unfold eBottle.fromStr
    rw [hr fuel hf]
    rfl

theorem List.mapM_option_none {α β : Type} (f : α → Option β) (x : α) (hx : f x = none) :
    ∀ (front back : List α), (front ++ x :: back).mapM f = none := by
  intro front back
  induction front with
  | nil => rw [List.nil_append, List.mapM_cons, hx]; rfl
  | cons y rest ih =>
    rw [List.cons_append, List.mapM_cons, ih]
    cases f y <;> rfl

/-- C26, the code on an empty Blob: for a Blob of length 0 the bound `getSize()-1` of the loop
in `fillString` is `4294967295`, so bytes are read at indices from 0 on, all outside the
payload; `toString` has no defined result on any Bag that holds such a Blob.  Both
`addBlob(p, 0)` and parsing `{ }` make one. -/
theorem empty_blob_printing (fmt : Nat → List Nat) (atof : List Nat → Nat)
    (front back : List eValue) :
    eBottle.blobLastIndex 0 = 4294967295 ∧
    eBottle.fillStringCase fmt (.CHARP []) = none ∧
    eBottle.toString fmt (.mk (front ++ .CHARP [] :: back)) = none ∧
    eBottle.toString fmt (eBottle.empty.addBlob []) = none ∧
    eBottle.fromString atof eBottle.empty [123, 32, 125] = some (.mk [.CHARP []]) ∧
    eBottle.blobLastIndex 3 = 2 := by
  refine ⟨by decide, rfl, ?_, rfl, rfl, by decide⟩
  rw [eBottle.toString_eq, eBottle.values_mk,
    List.mapM_option_none (eBottle.fillStringCase fmt) (.CHARP []) rfl front back]
  rfl

/-! ## Claims on a Bag used as its own source -/

theorem Heap.clear_read (fuel : Nat) (h k : Heap) (this : Nat)
    (hc : Heap.clear fuel h this = some k) : ∃ tp, k.read this = some (.bottle [] tp) := by
  unfold Heap.clear at hc
  rw [Option.bind_eq_some] at hc
  obtain ⟨h1, _, hc⟩ := hc
  rw [Option.bind_eq_some] at hc
  obtain ⟨h2, _, hc⟩ := hc
  split at hc
  · rename_i vs tp hread
    exact ⟨tp, by rw [Heap.read_write h2 k this this _ hc, if_pos rfl]⟩
  · exact absurd hc (by simp)

theorem Heap.bagAt_nil (d : Nat) (k : Heap) (b : Nat) (tp : Option Nat)
    (hr : k.read b = some (.bottle [] tp)) : Heap.bagAt d k b = some (.mk []) := by
  unfold Heap.bagAt
  simp only [hr, List.mapM_nil]
  rfl

theorem Heap.opAssign_self (fuel : Nat) (h : Heap) (b d : Nat) :
    (Heap.opAssign fuel h b b).bind (fun k => Heap.bagAt d k b) = none ∨
    (Heap.opAssign fuel h b b).bind (fun k => Heap.bagAt d k b) = some (.mk []) := by
  cases fuel with
  | zero => left; rfl
  | succ fuel =>
    rw [Heap.opAssign]
    cases hc : Heap.clear fuel h b with
    | none => left; rfl
    | some h1 =>
      obtain ⟨tp, hr⟩ := Heap.clear_read fuel h h1 b hc
      rw [Option.some_bind]
      cases fuel with
      | zero => left; rfl
      | succ fuel =>
        right
        rw [Heap.assignLoop]
        simp only [hr, List.get?_nil, Option.some_bind]
        exact Heap.bagAt_nil d h1 b tp hr

theorem Heap.copy_self (fuel : Nat) (h : Heap) (b d : Nat) :
    (Heap.copy fuel h b b).bind (fun k => Heap.bagAt d k b) = none ∨
    (Heap.copy fuel h b b).bind (fun k => Heap.bagAt d k b) = some (.mk []) := by
  cases fuel with
  | zero => left; rfl
  | succ fuel =>
    rw [Heap.copy]
    cases hc : Heap.clear fuel h b with
    | none => left; rfl
    | some h1 =>
      obtain ⟨tp, hr⟩ := Heap.clear_read fuel h h1 b hc
      rw [Option.some_bind]
      cases fuel with
      | zero => left; rfl
      | succ fuel =>
        right
        rw [Heap.copyLoop]
        simp only [hr, List.get?_nil, Option.some_bind]
        exact Heap.bagAt_nil d h1 b tp hr

/-- C27, the code on a Bag assigned to itself: `clear()` runs first and empties the source as
well, so the loop finds no element.  On the example heap the Bag at address 0 shows `7 (8)`
before; `b = b` and `b.copy(&b)` return and it shows no element afterwards.  On every heap
and every eBottle, the Bag shown after a self-assignment that returns has no element. -/
theorem self_assignment_empties (fuel : Nat) (h : Heap) (b d : Nat) :
    Heap.bagAt 3 heapExample 0 = some (.mk [.INT 7, .BOTTLE (.mk [.INT 8])]) ∧
    (Heap.opAssign 6 heapExample 0 0).bind (fun k => Heap.bagAt 3 k 0) = some (.mk []) ∧
    (Heap.copy 6 heapExample 0 0).bind (fun k => Heap.bagAt 3 k 0) = some (.mk []) ∧
    ((Heap.opAssign fuel h b b).bind (fun k => Heap.bagAt d k b) = none ∨
      (Heap.opAssign fuel h b b).bind (fun k => Heap.bagAt d k b) = some (.mk [])) ∧
    ((Heap.copy fuel h b b).bind (fun k => Heap.bagAt d k b) = none ∨
      (Heap.copy fuel h b b).bind (fun k => Heap.bagAt d k b) = some (.mk [])) :=
  ⟨by rfl, by rfl, by rfl, Heap.opAssign_self fuel h b d, Heap.copy_self fuel h b d⟩

theorem Heap.range_apart (h : Heap) : h.Apart (List.range h.length) := by
  refine ⟨fun a ha => List.mem_range.1 ha, ?_⟩
  intro a cell ha hr
  exact absurd (List.mem_range.2 (Heap.read_lt h a cell hr)) ha

theorem Heap.add_grows (fuel : Nat) (h k : Heap) (this yv : Nat) (vs : List Nat)
    (tp : Option Nat) (hthis : h.read this = some (.bottle vs tp))
    (hadd : Heap.add fuel h this yv = some k) :
    k.read this = some (.bottle (vs ++ [h.length]) tp) := by
  unfold Heap.add at hadd
  rw [Option.bind_eq_some] at hadd
  obtain ⟨h1, e1, hadd⟩ := hadd
  obtain ⟨k0, f0⟩ := Heap.alloc_keeps (List.range h.length) h .raw (Heap.range_apart h)
    (by simp [Cell.ptrs])
  have k1 := Heap.assignValue_keeps (List.range h.length) fuel _ h1 _ yv k0.1 f0 e1
  have hlt := Heap.read_lt h this _ hthis
  have hmem : this ∈ List.range h.length := List.mem_range.2 hlt
  have hr1 : h1.read this = some (.bottle vs tp) := by
    rw [k1.2 this hmem, k0.2 this hmem]; exact hthis
  unfold Heap.push_back at hadd
  simp only [hr1] at hadd
  rw [Heap.read_write h1 k this this _ hadd, if_pos rfl]
  rfl

theorem Heap.appendLoop_self (fuel : Nat) :
    ∀ (h k : Heap) (a i : Nat) (vs : List Nat) (tp : Option Nat),
    h.read a = some (.bottle vs tp) → i < vs.length → vs.length ≤ 4294967296 →
    Heap.appendLoop fuel h a a i = some k →
    k.valuesLength a = some 4294967296 := by
  induction fuel with
  | zero => intro h k a i vs tp _ _ _ hr; simp [Heap.appendLoop] at hr
  | succ fuel ih =>
    intro h k a i vs tp hread hi hlen hr
    rw [Heap.appendLoop] at hr
    simp only [hread] at hr
    by_cases hfull : vs.length = 4294967296
    · rw [if_neg (by rw [hfull]; omega)] at hr
      cases hr
      simp only [Heap.valuesLength, hread, hfull]
    · have hlt : vs.length < 4294967296 := by omega
      rw [Nat.mod_eq_of_lt hlt, if_pos hi] at hr
      have hget : vs.get? i = some (vs.get ⟨i, hi⟩) := List.get?_eq_get hi
      simp only [hget] at hr
      rw [Option.bind_eq_some] at hr
      obtain ⟨h1, hadd, hr⟩ := hr
      have h1read := Heap.add_grows fuel h h1 a _ vs tp hread hadd
      rw [Nat.mod_eq_of_lt (by omega)] at hr
      exact ih h1 k a (i + 1) (vs ++ [h.length]) tp h1read
        (by rw [List.length_append]; simp only [List.length_singleton]; omega)
        (by rw [List.length_append]; simp only [List.length_singleton]; omega) hr

theorem Heap.append_self (fuel : Nat) (h : Heap) (a : Nat) (vs : List Nat) (tp : Option Nat)
    (hread : h.read a = some (.bottle vs tp)) (hne : 0 < vs.length)
    (hlen : vs.length < 4294967296) :
    (Heap.append fuel h a a).bind (fun k => k.valuesLength a) = none ∨
    (Heap.append fuel h a a).bind (fun k => k.valuesLength a) = some 4294967296 := by
  cases hr : Heap.append fuel h a a with
  | none => left; rfl
  | some k =>
    right
    rw [Option.some_bind]
    exact Heap.appendLoop_self fuel h k a 0 vs tp hread hne (by omega) hr

/-- C28, the code on a Bag appended to itself: the loop reads `count()` again at every turn
and each turn adds an element, so `i < count()` still holds after the elements that the Bag
held before the call have been appended.  On the Bag `7` the loop is at `i = 3` with the Bag
showing `7 7 7 7` after three turns and goes on from there; a call that returns leaves
4294967296 elements, the number at which the `unsigned int` count wraps to 0. -/
theorem self_append_runs_on (fuel : Nat) :
    Heap.bagAt 2 heapSeven 0 = some (.mk [.INT 7]) ∧
    Heap.append (fuel + 3) heapSeven 0 0 = Heap.appendLoop fuel heapSevenThree 0 0 3 ∧
    Heap.bagAt 2 heapSevenThree 0 = some (.mk [.INT 7, .INT 7, .INT 7, .INT 7]) ∧
    ((Heap.append fuel heapSeven 0 0).bind (fun k => k.valuesLength 0) = none ∨
      (Heap.append fuel heapSeven 0 0).bind (fun k => k.valuesLength 0)
        = some 4294967296) :=
  ⟨by rfl, by rfl, by rfl,
    Heap.append_self fuel heapSeven 0 [2] none rfl (by decide) (by decide)⟩

/-! ## Spacing of the text -/

theorem c_str_cons (c : Nat) (t : List Nat) (hc : c ≠ 0) : c_str (c :: t) = c :: c_str t := by
  unfold c_str
  exact List.takeWhile_cons_of_pos (by simpa using hc)

theorem c_str_zero (t : List Nat) : c_str (0 :: t) = [] := by
  unfold c_str
  exact List.takeWhile_cons_of_neg (by simp)

theorem c_str_append_of_nul : ∀ (a b : List Nat), a.all (fun c => c != 0) = false →
    c_str (a ++ b) = c_str a
  | [], _, h => by simp at h
  | c :: a, b, h => by
    by_cases hc : c = 0
    · subst hc
      rw [List.cons_append, c_str_zero, c_str_zero]
    · have ha : a.all (fun c => c != 0) = false := by
        simpa [List.all_cons, hc] using h
      rw [List.cons_append, c_str_cons c _ hc, c_str_cons c _ hc, c_str_append_of_nul a b ha]

theorem eBottle.fromString_congr (atof : List Nat → Nat) (b : eBottle) (s t : List Nat)
    (h : c_str s = c_str t) : eBottle.fromString atof b s = eBottle.fromString atof b t := by
  simp only [eBottle.fromString, eBottle.fromStringText, h]

theorem eBottle.fromString_tokens (atof : List Nat → Nat) (b : eBottle) (s t : List Nat)
    (h : strtokAll (spaced (c_str s)) = strtokAll (spaced (c_str t))) :
    eBottle.fromString atof b s = eBottle.fromString atof b t := by
  rw [eBottle.fromString_eq, eBottle.fromString_eq, h]

theorem strtokFrom_nil_nil : strtokFrom [] [] = [] := rfl

theorem c_str_spaced : ∀ t : List Nat, c_str (spaced t) = spaced (c_str t)
  | [] => rfl
  | c :: t => by
    have ih := c_str_spaced t
    by_cases hc : c = 0
    · subst hc
      have e : spaced (0 :: t) = 0 :: spaced t := by simp [spaced, isBracket]
      rw [e, c_str_zero, c_str_zero]
      rfl
    · rw [c_str_cons c t hc]
      by_cases hb : isBracket c = true
      · have e : ∀ x : List Nat, spaced (c :: x) = 32 :: c :: 32 :: spaced x := by
          intro x
          simp only [spaced, if_pos hb]
        rw [e, e, c_str_cons 32 _ (by decide), c_str_cons c _ hc, c_str_cons 32 _ (by decide),
          ih]
      · have e : ∀ x : List Nat, spaced (c :: x) = c :: spaced x := by
          intro x
          simp only [spaced, if_neg hb]
        rw [e, e, c_str_cons c _ hc, ih]

theorem c_str_squeeze : ∀ t : List Nat, c_str (squeeze t) = squeeze (c_str t)
  | [] => rfl
  | [c] => by
    by_cases hc : c = 0
    · subst hc
      simp [squeeze, c_str_zero]
    · have e : squeeze [c] = [c] := by simp [squeeze]
      have e0 : c_str [c] = [c] := by rw [c_str_cons c [] hc]; rfl
      rw [e, e0, e]
  | c :: d :: t => by
    have ih := c_str_squeeze (d :: t)
    by_cases hc : c = 0
    · subst hc
      simp [squeeze, c_str_zero]
    · rw [c_str_cons c _ hc]
      by_cases h : c = 32 ∧ d = 32
      · obtain ⟨h1, h2⟩ := h
        subst h1
        subst h2
        have h3 : c_str (32 :: t) = 32 :: c_str t := c_str_cons 32 t (by decide)
        rw [h3] at ih ⊢
        have e1 : squeeze (32 :: 32 :: t) = squeeze (32 :: t) := by
          simp [squeeze]
        have e2 : squeeze (32 :: 32 :: c_str t) = squeeze (32 :: c_str t) := by
          simp [squeeze]
        rw [e1, e2, ih]
      · have e1 : squeeze (c :: d :: t) = c :: squeeze (d :: t) := by
          rw [squeeze]
          simp only [List.head?_cons, Option.some.injEq]
          rw [if_neg h]
        rw [e1, c_str_cons c _ hc, ih]
        have e2 : squeeze (c :: c_str (d :: t)) = c :: squeeze (c_str (d :: t)) := by
          rw [squeeze]
          apply if_neg
          rintro ⟨h1, h2⟩
          apply h
          refine ⟨h1, ?_⟩
          by_cases hd : d = 0
          · subst hd
            rw [c_str_zero] at h2
            simp at h2
          · rw [c_str_cons d t hd] at h2
            simpa using h2
        rw [e2]

theorem strtokFrom_spaced_spaced : ∀ (s cur : List Nat),
    strtokFrom cur (spaced (spaced s)) = strtokFrom cur (spaced s)
  | [], _ => rfl
  | c :: s, cur => by
    by_cases hb : isBracket c = true
    · have hc : c ≠ 32 := by
        intro h
        subst h
        simp [isBracket] at hb
      have e1 : spaced (c :: s) = 32 :: c :: 32 :: spaced s := by
        simp only [spaced, if_pos hb]
      have e2 : spaced (32 :: c :: 32 :: spaced s)
          = 32 :: 32 :: c :: 32 :: 32 :: spaced (spaced s) := by
        simp only [spaced, if_pos hb]
        simp [isBracket]
      rw [e1, e2, strtokFrom_space, strtokFrom_bracket [] _ c hc, strtokFrom_space [],
        strtokFrom_bracket cur _ c hc, strtokFrom_spaced_spaced s []]
      simp [strtokFrom_nil_nil]
    · have e1 : spaced (c :: s) = c :: spaced s := by
        simp only [spaced, if_neg hb]
      have e2 : spaced (c :: spaced s) = c :: spaced (spaced s) := by
        simp only [spaced, if_neg hb]
      rw [e1, e2]
      by_cases hc : c = 32
      · subst hc
        rw [strtokFrom_space, strtokFrom_space, strtokFrom_spaced_spaced s []]
      · simp only [strtokFrom, if_neg hc]
        exact strtokFrom_spaced_spaced s (cur ++ [c])

theorem strtokFrom_squeeze : ∀ (s cur : List Nat),
    strtokFrom cur (spaced (squeeze s)) = strtokFrom cur (spaced s)
  | [], _ => rfl
  | [c], cur => by
    have e : squeeze [c] = [c] := by simp [squeeze]
    rw [e]
  | c :: d :: s, cur => by
    by_cases h : c = 32 ∧ d = 32
    · obtain ⟨h1, h2⟩ := h
      subst h1
      subst h2
      have e1 : squeeze (32 :: 32 :: s) = squeeze (32 :: s) := by
        simp [squeeze]
      have e2 : ∀ x : List Nat, spaced (32 :: x) = 32 :: spaced x := by
        intro x
        simp [spaced, isBracket]
      rw [e1, strtokFrom_squeeze (32 :: s) cur, e2, e2, e2, strtokFrom_space cur,
        strtokFrom_space cur, strtokFrom_space []]
      simp [strtokFrom_nil_nil]
    · have e1 : squeeze (c :: d :: s) = c :: squeeze (d :: s) := by
        rw [squeeze]
        simp only [List.head?_cons, Option.some.injEq]
        rw [if_neg h]
      rw [e1]
      by_cases hb : isBracket c = true
      · have hc : c ≠ 32 := by
          intro h
          subst h
          simp [isBracket] at hb
        have e2 : ∀ x : List Nat, spaced (c :: x) = 32 :: c :: 32 :: spaced x := by
          intro x
          simp only [spaced, if_pos hb]
        rw [e2, e2, strtokFrom_bracket cur _ c hc, strtokFrom_bracket cur _ c hc,
          strtokFrom_squeeze (d :: s) []]
      · have e2 : ∀ x : List Nat, spaced (c :: x) = c :: spaced x := by
          intro x
          simp only [spaced, if_neg hb]
        rw [e2, e2]
        by_cases hc : c = 32
        · subst hc
          rw [strtokFrom_space, strtokFrom_space, strtokFrom_squeeze (d :: s) []]
        · simp only [strtokFrom, if_neg hc]
          exact strtokFrom_squeeze (d :: s) (cur ++ [c])

/-- Claim C24: spacing around brackets and the length of runs of spaces do not matter to
`fromString`.  For every text `t` and every Bag `b`, parsing `t` with a space put before and
after every `(`, `)`, `\x7b` and `\x7d` gives the result of parsing `t`, and so does parsing
`t` with every run of spaces replaced by one space; the text `(5 6)(World 1 2 3    )` parses
like `( 5 6 ) ( World 1 2 3 )`, to the Bag `(5 6) (World 1 2 3)`. -/
theorem bracket_spacing_irrelevant (atof : List Nat → Nat) (b : eBottle) (t : List Nat) :
    eBottle.fromString atof b (spaced t) = eBottle.fromString atof b t ∧
    eBottle.fromString atof b (squeeze t) = eBottle.fromString atof b t ∧
    eBottle.fromString atofExamples eBottle.empty
        [40, 53, 32, 54, 41, 40, 87, 111, 114, 108, 100, 32, 49, 32, 50, 32, 51, 32, 32, 32, 32,
          41]
      = eBottle.fromString atofExamples eBottle.empty
        [40, 32, 53, 32, 54, 32, 41, 32, 40, 32, 87, 111, 114, 108, 100, 32, 49, 32, 50, 32, 51,
          32, 41] ∧
    eBottle.fromString atofExamples eBottle.empty
        [40, 32, 53, 32, 54, 32, 41, 32, 40, 32, 87, 111, 114, 108, 100, 32, 49, 32, 50, 32, 51,
          32, 41]
      = some (.mk [.BOTTLE (.mk [.INT 5, .INT 6]),
          .BOTTLE (.mk [.STRING [87, 111, 114, 108, 100], .INT 1, .INT 2, .INT 3])]) := by
  refine ⟨?_, ?_, ?_, ?_⟩
  · apply eBottle.fromString_tokens
    rw [c_str_spaced]
    exact strtokFrom_spaced_spaced (c_str t) []
  · apply eBottle.fromString_tokens
    rw [c_str_squeeze]
    exact strtokFrom_squeeze (c_str t) []
  · decide
  · decide

/-! ## A closing parenthesis with nothing open -/

theorem eBottle.fromString_some (atof : List Nat → Nat) (b : eBottle) (txt : List Nat) :
    ∃ r, eBottle.fromString atof b txt = some r := by
  obtain ⟨r, _, hr⟩ := eBottle.fromStrLoop_total atof _ (strtokAll (spaced (c_str txt))) b false
    [] (Nat.le_refl _)
  refine ⟨r.1, ?_⟩
  rw [eBottle.fromString_eq, hr _ (by omega)]
  rfl

/-- Claim C30: a `)` with nothing open ends the parsing without any signal.  For every text
`U` with balanced parentheses and every text `V`, `fromString` on `U`, then ` ) `, then `V`
returns, and returns the Bag that `fromString` on `U` alone returns: no token of `V` is
used. -/
theorem unmatched_close_ends (atof : List Nat → Nat) (b : eBottle) (U V : List Nat)
    (hU : parenDepth 0 U = some 0) :
    eBottle.fromString atof b (U ++ [32, 41, 32] ++ V) = eBottle.fromString atof b U ∧
    ∃ r, eBottle.fromString atof b U = some r := by
  refine ⟨?_, eBottle.fromString_some atof b U⟩
  by_cases hz : U.all (fun c => c != 0) = true
  · have e1 : c_str (U ++ [32, 41, 32] ++ V) = U ++ 32 :: 41 :: 32 :: c_str V := by
      rw [List.append_assoc, c_str_append_of_nulFree U _ hz]
      have : c_str ([32, 41, 32] ++ V) = [32, 41, 32] ++ c_str V :=
        c_str_append_of_nulFree [32, 41, 32] V (by decide)
      rw [this]
      rfl
    have e2 : spaced (U ++ 32 :: 41 :: 32 :: c_str V)
        = spaced U ++ 32 :: (32 :: 41 :: 32 :: 32 :: spaced (c_str V)) := by
      rw [spaced_append]
      simp [spaced, isBracket]
    have e3 : strtokAll (spaced (U ++ 32 :: 41 :: 32 :: c_str V))
        = strtokAll (spaced U) ++ [41] :: strtokAll (spaced (c_str V)) := by
      rw [e2]
      unfold strtokAll
      rw [strtokFrom_append_space, strtokFrom_bracket [] _ 41 (by decide),
        strtokFrom_space []]
      simp [strtokFrom_nil_nil]
    have hd : tokenDepth 0 (strtokAll (spaced U)) = some 0 := by
      unfold strtokAll
      rw [tokenDepth_spaced U [] 0 (by decide) (by decide)]
      exact hU
    obtain ⟨r, _, hr⟩ := eBottle.fromStrLoop_total atof _ (strtokAll (spaced U)) b false []
      (Nat.le_refl _)
    rw [eBottle.fromString_eq, eBottle.fromString_eq, e1, e3, c_str_of_nulFree U hz]
    have hX := hr ((strtokAll (spaced U) ++ [41] :: strtokAll (spaced (c_str V))).length + 2)
      (by rw [List.length_append]; omega)
    have hs := (eBottle.fromStrLoop_suffix atof _ (strtokAll (spaced U)) b false [] r hX).2 0 hd
    rw [hs.2.2 rfl (strtokAll (spaced (c_str V))), hr _ (by omega)]
    rfl
  · apply eBottle.fromString_congr
    rw [List.append_assoc]
    exact c_str_append_of_nul U _ (by simpa using hz)

/-- The text `1 ) 2` has the balanced part `1` before the stray `)`: it parses to the Bag
that holds the Int 1 alone, like the text `1`. -/
theorem unmatched_close_ends_witness :
    parenDepth 0 [49] = some 0 ∧
    (eBottle.fromString atofExamples eBottle.empty ([49] ++ [32, 41, 32] ++ [50])
        = eBottle.fromString atofExamples eBottle.empty [49] ∧
      ∃ r, eBottle.fromString atofExamples eBottle.empty [49] = some r) ∧
    eBottle.fromString atofExamples eBottle.empty [49, 32, 41, 32, 50]
      = some (.mk [.INT 1]) :=
  ⟨by decide, unmatched_close_ends atofExamples eBottle.empty [49] [50] (by decide), by decide⟩

/-! ## Texts made of plain tokens -/

theorem eBottle.fromStrLoop_atom (atof : List Nat → Nat) (fuel : Nat) (b : eBottle)
    (v t : List Nat) (Z : List (List Nat)) (h1 : isBracket (t.headD 0) = false)
    (h2 : t.all (fun c => c != 0) = true) :
    eBottle.fromStrLoop atof (fuel + 1) b false v (t :: Z)
      = eBottle.fromStrLoop atof fuel (b.push_back (atomValue atof t)) false v Z := by
  have hb : t.headD 0 ≠ 40 ∧ t.headD 0 ≠ 41 ∧ t.headD 0 ≠ 123 ∧ t.headD 0 ≠ 125 := by
    have := h1
    simp only [isBracket, Bool.or_eq_false_iff, beq_eq_false_iff_ne] at this
    exact ⟨this.1.1.1, this.1.1.2, this.1.2, this.2⟩
  by_cases hs : 65 ≤ t.headD 0 ∧ t.headD 0 ≤ 122
  · rw [eBottle.fromStrLoop, if_pos hs]
    have hav : atomValue atof t = .STRING t := by rw [atomValue, if_pos hs]
    rw [hav, eBottle.addString, c_str_of_nulFree t h2]
  · by_cases hd : 46 ∈ t
    · rw [eBottle.fromStrLoop, if_neg hs, if_neg hb.1, if_neg hb.2.1, if_neg hb.2.2.1,
        if_neg hb.2.2.2, if_neg (by simp), if_pos hd]
      have hav : atomValue atof t = .DOUBLE (atof t) := by
        rw [atomValue, if_neg hs, if_pos hd]
      rw [hav, eBottle.addDouble]
    · rw [eBottle.fromStrLoop, if_neg hs, if_neg hb.1, if_neg hb.2.1, if_neg hb.2.2.1,
        if_neg hb.2.2.2, if_neg (by simp), if_neg hd]
      have hav : atomValue atof t = .INT (atoi t) := by
        rw [atomValue, if_neg hs, if_neg hd]
      rw [hav, eBottle.addInt]

theorem strtokFrom_no_space : ∀ (x cur : List Nat), (∀ c ∈ x, c ≠ 32) →
    strtokFrom cur x = strtokFrom (cur ++ x) []
  | [], cur, _ => by rw [List.append_nil]
  | c :: x, cur, h => by
    have hc : c ≠ 32 := h c (List.mem_cons_self _ _)
    have e : strtokFrom cur (c :: x) = strtokFrom (cur ++ [c]) x := by
      simp only [strtokFrom, if_neg hc]
    rw [e, strtokFrom_no_space x (cur ++ [c]) (fun y hy => h y (List.mem_cons_of_mem _ hy)),
      List.append_assoc, List.singleton_append]

theorem strtokAll_plain (x : List Nat) (hne : x ≠ []) (hs : ∀ c ∈ x, c ≠ 32)
    (hb : ∀ c ∈ x, isBracket c = false) : strtokAll (spaced x) = [x] := by
  rw [spaced_of_no_bracket x hb, strtokAll, strtokFrom_no_space x [] hs, List.nil_append]
  cases x with
  | nil => exact absurd rfl hne
  | cons c x => rfl

theorem strtokAll_spaced_append_space (A B : List Nat) :
    strtokAll (spaced (A ++ 32 :: B)) = strtokAll (spaced A) ++ strtokAll (spaced B) := by
  have e : spaced (32 :: B) = 32 :: spaced B := by simp [spaced, isBracket]
  rw [spaced_append, e, strtokAll, strtokFrom_append_space]
  rfl

theorem strtokAll_intercalate_cons (t : List Nat) (ts : List (List Nat)) :
    strtokAll (spaced (List.intercalate [32] (t :: ts)))
      = strtokAll (spaced t) ++ strtokAll (spaced (List.intercalate [32] ts)) := by
  cases ts with
  | nil =>
    rw [intercalate_single]
    have e : List.intercalate [32] ([] : List (List Nat)) = [] := rfl
    rw [e]
    have e2 : strtokAll (spaced []) = [] := rfl
    rw [e2, List.append_nil]
  | cons y rest =>
    rw [intercalate_cons_cons, List.append_assoc, List.singleton_append,
      strtokAll_spaced_append_space]

theorem strtokAll_paren (t : List Nat) :
    strtokAll (spaced (40 :: (t ++ [41]))) = [40] :: (strtokAll (spaced t) ++ [[41]]) := by
  have e1 : spaced (40 :: (t ++ [41])) = 32 :: 40 :: 32 :: (spaced t ++ 32 :: [41, 32]) := by
    have e0 : spaced [41] = [32, 41, 32] := by decide
    rw [spaced, if_pos (by decide), spaced_append, e0]
  rw [e1, strtokAll, strtokFrom_bracket [] _ 40 (by decide), strtokFrom_append_space]
  rfl

theorem all_ne_zero_intercalate_cons (t : List Nat) (ts : List (List Nat))
    (h1 : t.all (fun c => c != 0) = true)
    (h2 : (List.intercalate [32] ts).all (fun c => c != 0) = true) :
    (List.intercalate [32] (t :: ts)).all (fun c => c != 0) = true := by
  cases ts with
  | nil => rw [intercalate_single]; exact h1
  | cons y rest =>
    rw [intercalate_cons_cons, List.all_append, List.all_append, h1, h2]
    rfl

theorem plainToken_spec (t : List Nat) (h : plainToken t = true) :
    t ≠ [] ∧ t.all (fun c => c != 0) = true ∧ (∀ c ∈ t, c ≠ 32) ∧
    (∀ c ∈ t, isBracket c = false) ∧ isBracket (t.headD 0) = false := by
  simp only [plainToken, Bool.and_eq_true, Bool.not_eq_true', List.isEmpty_eq_false,
    List.all_eq_true, bne_iff_ne, ne_eq, Bool.not_eq_true'] at h
  obtain ⟨hne, hall⟩ := h
  have hb : ∀ c ∈ t, isBracket c = false := fun c hc => (hall c hc).2
  refine ⟨hne, ?_, fun c hc => (hall c hc).1.2, hb, ?_⟩
  · simp only [List.all_eq_true, bne_iff_ne, ne_eq]
    exact fun c hc => (hall c hc).1.1
  · cases t with
    | nil => exact absurd rfl hne
    | cons c t => exact hb c (List.mem_cons_self _ _)

theorem plainToken_decimal (i : Int) : plainToken (decimal i) = true := by
  obtain ⟨hne, hch, _, _⟩ := decimal_chars i
  simp only [plainToken, Bool.and_eq_true, Bool.not_eq_true', List.isEmpty_eq_false,
    List.all_eq_true, bne_iff_ne, ne_eq]
  refine ⟨hne, fun c hc => ?_⟩
  have h := hch c hc
  refine ⟨⟨by omega, by omega⟩, ?_⟩
  simp only [isBracket, Bool.or_eq_false_iff, beq_eq_false_iff_ne]
  omega

theorem plain_tokens_text : ∀ ts : List (List Nat), (∀ t ∈ ts, plainToken t = true) →
    (List.intercalate [32] ts).all (fun c => c != 0) = true ∧
    strtokAll (spaced (List.intercalate [32] ts)) = ts
  | [], _ => ⟨rfl, rfl⟩
  | t :: ts, h => by
    obtain ⟨hne, hz, hs, hb, _⟩ := plainToken_spec t (h t (List.mem_cons_self _ _))
    obtain ⟨ih1, ih2⟩ := plain_tokens_text ts (fun x hx => h x (List.mem_cons_of_mem _ hx))
    refine ⟨all_ne_zero_intercalate_cons t ts hz ih1, ?_⟩
    rw [strtokAll_intercalate_cons, ih2, strtokAll_plain t hne hs hb]
    rfl

theorem eBottle.fromString_plain_tokens (atof : List Nat → Nat) (ts : List (List Nat))
    (h : ∀ t ∈ ts, plainToken t = true) :
    eBottle.fromString atof eBottle.empty (List.intercalate [32] ts)
      = some (.mk (ts.map (atomValue atof))) := by
  obtain ⟨h1, h2⟩ := plain_tokens_text ts h
  rw [eBottle.fromString_eq, c_str_of_nulFree _ h1, h2,
    eBottle.fromStrLoop_atoms atof ts _ eBottle.empty [] (by omega)
      (fun t ht => ⟨(plainToken_spec t (h t ht)).2.2.2.2, (plainToken_spec t (h t ht)).2.1⟩)]
  rfl

theorem List.mapM_option_some {α β : Type} (f : α → Option β) (g : α → β) :
    ∀ vs : List α, (∀ v ∈ vs, f v = some (g v)) → vs.mapM f = some (vs.map g)
  | [], _ => rfl
  | v :: rest, h => by
    rw [List.mapM_cons, h v (List.mem_cons_self _ _),
      List.mapM_option_some f g rest (fun x hx => h x (List.mem_cons_of_mem _ hx))]
    rfl

theorem eBottle.elemsValid_mem : ∀ (vs : List eValue), eBottle.elemsValid vs = true →
    ∀ v ∈ vs, v.valid = true
  | [], _, v, hv => by simp at hv
  | x :: rest, h, v, hv => by
    simp only [eBottle.elemsValid, Bool.and_eq_true] at h
    rcases List.mem_cons.mp hv with e | e
    · rw [e]; exact h.1
    · exact eBottle.elemsValid_mem rest h.2 v e

/-- The text that `fillString` writes for a number. -/
theorem eBottle.fillStringCase_number (fmt : Nat → List Nat) (v : eValue)
    (h : (∃ i, v = .INT i) ∨ ∃ d, v = .DOUBLE d ∧ plainToken (fmt d) = true) :
    eBottle.fillStringCase fmt v = some ((eBottle.fillStringCase fmt v).getD []) ∧
    plainToken ((eBottle.fillStringCase fmt v).getD []) = true := by
  rcases h with ⟨i, rfl⟩ | ⟨d, rfl, hd⟩
  · exact ⟨rfl, plainToken_decimal i⟩
  · exact ⟨rfl, hd⟩

/-- Claim C23, as the code has it: the printed text of a whole-valued Double holds no `.`,
so the parser reads it back as an Int.  With `5.0` written `5`, the Bag that holds the Double
`5.0` prints as `5`, and `fromString` on that text gives the Bag that holds the Int 5. -/
theorem whole_double_counterexample :
    eBottle.toString fmtExamples (.mk [.DOUBLE 4617315517961601024]) = some [53] ∧
    eBottle.fromString atofExamples eBottle.empty [53] = some (.mk [.INT 5]) ∧
    eBottle.valid (.mk [.DOUBLE 4617315517961601024]) = true := by
  refine ⟨by decide, by decide, by decide⟩

/-- Claim C23, amended: for every Bag `b` whose elements are Ints and Doubles, each Double
with a printed text that is one token (not empty, without NUL, space and bracket),
`toString` gives a text and `fromString` of that text into an empty Bag gives a Bag with as
many elements as `b`; at an index where `b` has an Int it has that Int; at an index where
`b` has a Double it has what the atom rule makes of the printed text, which is a Double when
the text holds a `.` and does not begin with a byte in `'A'..'z'`, and an Int when the text
holds no `.` and does not begin with such a byte. -/
theorem number_kinds_round_trip (fmt : Nat → List Nat) (atof : List Nat → Nat) (b : eBottle)
    (hv : b.valid = true)
    (hnum : ∀ v ∈ b.values,
      (∃ i, v = .INT i) ∨ ∃ d, v = .DOUBLE d ∧ plainToken (fmt d) = true) :
    ∃ text r, eBottle.toString fmt b = some text ∧
      eBottle.fromString atof eBottle.empty text = some r ∧
      r.values.length = b.values.length ∧
      ∀ k,
        (∀ i, b.values.get? k = some (.INT i) → r.values.get? k = some (.INT i)) ∧
        (∀ d, b.values.get? k = some (.DOUBLE d) →
          r.values.get? k = some (atomValue atof (fmt d)) ∧
          (¬ (65 ≤ (fmt d).headD 0 ∧ (fmt d).headD 0 ≤ 122) →
            (46 ∈ fmt d → r.values.get? k = some (.DOUBLE (atof (fmt d)))) ∧
            (46 ∉ fmt d → r.values.get? k = some (.INT (atoi (fmt d)))))) := by
  have hm := List.mapM_option_some (eBottle.fillStringCase fmt)
    (fun v => (eBottle.fillStringCase fmt v).getD []) b.values
    (fun v hv => (eBottle.fillStringCase_number fmt v (hnum v hv)).1)
  have hp : ∀ t ∈ b.values.map (fun v => (eBottle.fillStringCase fmt v).getD []),
      plainToken t = true := by
    intro t ht
    obtain ⟨v, hv, rfl⟩ := List.mem_map.mp ht
    exact (eBottle.fillStringCase_number fmt v (hnum v hv)).2
  have hvalid : ∀ v ∈ b.values, v.valid = true := by
    cases b with
    | mk values =>
      rw [eBottle.valid] at hv
      rw [eBottle.values_mk]
      exact eBottle.elemsValid_mem values hv
  refine ⟨_, _, ?_, eBottle.fromString_plain_tokens atof _ hp, ?_, ?_⟩
  · rw [eBottle.toString_eq, hm]
    rfl
  · rw [eBottle.values_mk, List.length_map, List.length_map]
  · intro k
    rw [eBottle.values_mk, List.map_map]
    simp only [List.get?_eq_getElem?, List.getElem?_map]
    constructor
    · intro i hi
      rw [hi]
      have hr := hvalid _ (List.getElem?_mem hi)
      simp only [eValue.valid, decide_eq_true_eq] at hr
      show some (atomValue atof (decimal i)) = some (.INT i)
      rw [atomValue_decimal atof i hr.1 hr.2]
    · intro d hd
      rw [hd]
      refine ⟨rfl, fun hs => ⟨fun h46 => ?_, fun h46 => ?_⟩⟩
      · show some (atomValue atof (fmt d)) = some (.DOUBLE (atof (fmt d)))
        rw [atomValue, if_neg hs, if_pos h46]
      · show some (atomValue atof (fmt d)) = some (.INT (atoi (fmt d)))
        rw [atomValue, if_neg hs, if_neg h46]

/-- The Bag `7 0.5 5.0 -3` is made of Ints and of Doubles printed as one token: it prints as
`7 0.5 5 -3`, which parses to the Int 7, the Double `0.5`, the Int 5 and the Int -3. -/
theorem number_kinds_round_trip_witness :
    eBottle.valid (.mk [.INT 7, .DOUBLE 4602678819172646912, .DOUBLE 4617315517961601024,
      .INT (-3)]) = true ∧
    (∀ v ∈ (eBottle.mk [.INT 7, .DOUBLE 4602678819172646912, .DOUBLE 4617315517961601024,
        .INT (-3)]).values,
      (∃ i, v = .INT i) ∨ ∃ d, v = .DOUBLE d ∧ plainToken (fmtExamples d) = true) ∧
    (∃ text r, eBottle.toString fmtExamples (.mk [.INT 7, .DOUBLE 4602678819172646912,
        .DOUBLE 4617315517961601024, .INT (-3)]) = some text ∧
      eBottle.fromString atofExamples eBottle.empty text = some r ∧
      r.values.length = (eBottle.mk [.INT 7, .DOUBLE 4602678819172646912,
        .DOUBLE 4617315517961601024, .INT (-3)]).values.length ∧
      ∀ k,
        (∀ i, (eBottle.mk [.INT 7, .DOUBLE 4602678819172646912, .DOUBLE 4617315517961601024,
            .INT (-3)]).values.get? k = some (.INT i) → r.values.get? k = some (.INT i)) ∧
        (∀ d, (eBottle.mk [.INT 7, .DOUBLE 4602678819172646912, .DOUBLE 4617315517961601024,
            .INT (-3)]).values.get? k = some (.DOUBLE d) →
          r.values.get? k = some (atomValue atofExamples (fmtExamples d)) ∧
          (¬ (65 ≤ (fmtExamples d).headD 0 ∧ (fmtExamples d).headD 0 ≤ 122) →
            (46 ∈ fmtExamples d →
              r.values.get? k = some (.DOUBLE (atofExamples (fmtExamples d)))) ∧
            (46 ∉ fmtExamples d → r.values.get? k = some (.INT (atoi (fmtExamples d))))))) ∧
    eBottle.toString fmtExamples (.mk [.INT 7, .DOUBLE 4602678819172646912,
        .DOUBLE 4617315517961601024, .INT (-3)])
      = some [55, 32, 48, 46, 53, 32, 53, 32, 45, 51] ∧
    eBottle.fromString atofExamples eBottle.empty [55, 32, 48, 46, 53, 32, 53, 32, 45, 51]
      = some (.mk [.INT 7, .DOUBLE 4602678819172646912, .INT 5, .INT (-3)]) := by
  have h : ∀ v ∈ (eBottle.mk [.INT 7, .DOUBLE 4602678819172646912,
      .DOUBLE 4617315517961601024, .INT (-3)]).values,
      (∃ i, v = .INT i) ∨ ∃ d, v = .DOUBLE d ∧ plainToken (fmtExamples d) = true := by
    intro v hv
    rw [eBottle.values_mk] at hv
    simp only [List.mem_cons, List.mem_singleton, List.not_mem_nil, or_false] at hv
    rcases hv with rfl | rfl | rfl | rfl
    · exact Or.inl ⟨7, rfl⟩
    · exact Or.inr ⟨_, rfl, by decide⟩
    · exact Or.inr ⟨_, rfl, by decide⟩
    · exact Or.inl ⟨-3, rfl⟩
  exact ⟨by decide, h,
    number_kinds_round_trip fmtExamples atofExamples _ (by decide) h, by decide, by decide⟩

/-! ## The text round trip without blobs and doubles -/

theorem eValue.inFragment_string (s : List Nat) (h : (eValue.STRING s).inFragment = true) :
    s ≠ [] ∧ (65 ≤ s.headD 0 ∧ s.headD 0 ≤ 122) ∧ (∀ c ∈ s, c ≠ 32) ∧
    (∀ c ∈ s, isBracket c = false) := by
  simp only [eValue.inFragment, Bool.and_eq_true, Bool.not_eq_true', List.isEmpty_eq_false,
    decide_eq_true_eq, List.all_eq_true, bne_iff_ne, ne_eq] at h
  exact ⟨h.1.1, h.1.2, fun c hc => (h.2 c hc).1, fun c hc => (h.2 c hc).2⟩

theorem isBracket_of_letter (c : Nat) (h : 65 ≤ c ∧ c ≤ 122) : isBracket c = false := by
  simp only [isBracket, Bool.or_eq_false_iff, beq_eq_false_iff_ne]
  omega

mutual
theorem eValue.value_text_tokens (fmt : Nat → List Nat) : ∀ v : eValue, v.valid = true →
    v.inFragment = true →
    ∃ t, eBottle.fillStringCase fmt v = some t ∧ t.all (fun c => c != 0) = true ∧
      strtokAll (spaced t) = v.tokens
  | .INT i, _, _ => by
    obtain ⟨hne, hz, hs, hb, _⟩ := plainToken_spec _ (plainToken_decimal i)
    exact ⟨decimal i, rfl, hz, strtokAll_plain _ hne hs hb⟩
  | .DOUBLE _, _, hf => by simp [eValue.inFragment] at hf
  | .CHARP _, _, hf => by simp [eValue.inFragment] at hf
  | .BOTTLE q, hv, hf => by
    rw [eValue.valid] at hv
    rw [eValue.inFragment] at hf
    obtain ⟨t, h1, h2, h3⟩ := eBottle.bag_text_tokens fmt q hv hf
    refine ⟨40 :: (t ++ [41]), ?_, ?_, ?_⟩
    · rw [eBottle.fillStringCase, h1]
      rfl
    · rw [List.all_cons, List.all_append, h2]
      rfl
    · rw [strtokAll_paren, h3, eValue.tokens]
  | .STRING s, hv, hf => by
    obtain ⟨hne, _, hs, hb⟩ := eValue.inFragment_string s hf
    rw [eValue.valid] at hv
    have hz := all_ne_zero_of_valid s hv
    refine ⟨s, ?_, hz, strtokAll_plain s hne hs hb⟩
    rw [eBottle.fillStringCase, c_str_of_nulFree s hz]
theorem eBottle.bag_text_tokens (fmt : Nat → List Nat) : ∀ b : eBottle, b.valid = true →
    b.inFragment = true →
    ∃ t, eBottle.fillString fmt b = some t ∧ t.all (fun c => c != 0) = true ∧
      strtokAll (spaced t) = b.tokens
  | .mk values, hv, hf => by
    rw [eBottle.valid] at hv
    rw [eBottle.inFragment] at hf
    obtain ⟨ts, h1, h2, h3⟩ := eBottle.elems_text_tokens fmt values hv hf
    refine ⟨List.intercalate [32] ts, ?_, h2, ?_⟩
    · have e := eBottle.toString_eq fmt (.mk values)
      rw [eBottle.toString, eBottle.values_mk, h1] at e
      exact e
    · rw [h3, eBottle.tokens]
theorem eBottle.elems_text_tokens (fmt : Nat → List Nat) : ∀ vs : List eValue,
    eBottle.elemsValid vs = true → eBottle.elemsInFragment vs = true →
    ∃ ts, vs.mapM (eBottle.fillStringCase fmt) = some ts ∧
      (List.intercalate [32] ts).all (fun c => c != 0) = true ∧
      strtokAll (spaced (List.intercalate [32] ts)) = eBottle.elemsTokens vs
  | [], _, _ => ⟨[], rfl, rfl, rfl⟩
  | v :: rest, hv, hf => by
    simp only [eBottle.elemsValid, Bool.and_eq_true] at hv
    simp only [eBottle.elemsInFragment, Bool.and_eq_true] at hf
    obtain ⟨t, h1, h2, h3⟩ := eValue.value_text_tokens fmt v hv.1 hf.1
    obtain ⟨ts, g1, g2, g3⟩ := eBottle.elems_text_tokens fmt rest hv.2 hf.2
    refine ⟨t :: ts, ?_, all_ne_zero_intercalate_cons t ts h2 g2, ?_⟩
    · rw [List.mapM_cons, h1, g1]
      rfl
    · rw [strtokAll_intercalate_cons, h3, g3, eBottle.elemsTokens]
end

theorem eBottle.push_back_values (b : eBottle) (v : eValue) (rest : List eValue) :
    (b.push_back v).values ++ rest = b.values ++ v :: rest := by
  rw [eBottle.push_back, eBottle.values_mk, List.append_assoc, List.singleton_append]

mutual
theorem eValue.parse_tokens (atof : List Nat → Nat) : ∀ v : eValue, v.valid = true →
    v.inFragment = true →
    ∀ (b : eBottle) (Z : List (List Nat)) (r : eBottle × List (List Nat)),
    (∀ fuel, Z.length < fuel →
      eBottle.fromStrLoop atof fuel (b.push_back v) false [] Z = some r) →
    ∀ fuel, (v.tokens ++ Z).length < fuel →
      eBottle.fromStrLoop atof fuel b false [] (v.tokens ++ Z) = some r
  | .INT i, hv, _, b, Z, r, hr, fuel, hfuel => by
    simp only [eValue.valid, decide_eq_true_eq] at hv
    obtain ⟨_, hz, _, _, hb⟩ := plainToken_spec _ (plainToken_decimal i)
    simp only [eValue.tokens, List.singleton_append, List.length_cons] at hfuel ⊢
    obtain ⟨n, rfl⟩ : ∃ n, fuel = n + 1 := ⟨fuel - 1, by omega⟩
    rw [eBottle.fromStrLoop_atom atof n b [] _ Z hb hz, atomValue_decimal atof i hv.1 hv.2]
    exact hr n (by omega)
  | .DOUBLE _, _, hf, _, _, _, _, _, _ => by simp [eValue.inFragment] at hf
  | .CHARP _, _, hf, _, _, _, _, _, _ => by simp [eValue.inFragment] at hf
  | .BOTTLE q, hv, hf, b, Z, r, hr, fuel, hfuel => by
    rw [eValue.valid] at hv
    rw [eValue.inFragment] at hf
    simp only [eValue.tokens, List.cons_append, List.append_assoc, List.length_cons,
      List.length_append, List.length_nil] at hfuel ⊢
    obtain ⟨n, rfl⟩ : ∃ n, fuel = n + 1 := ⟨fuel - 1, by omega⟩
    rw [eBottle.fromStrLoop_cons_open atof n b false [] [40] rfl]
    have hq := eBottle.parse_bag_tokens atof q hv hf eBottle.empty ([41] :: Z) (q, Z)
      (fun m hm => by
        obtain ⟨k, rfl⟩ : ∃ k, m = k + 1 := ⟨m - 1, by omega⟩
        rw [eBottle.fromStrLoop_cons_close atof k _ false [] [41] rfl, eBottle.values_empty,
          List.nil_append, eBottle.mk_values])
      n (by simp only [List.length_append, List.length_cons]; omega)
    rw [List.nil_append, hq, Option.some_bind]
    exact hr n (by omega)
  | .STRING s, hv, hf, b, Z, r, hr, fuel, hfuel => by
    obtain ⟨_, hl, _, _⟩ := eValue.inFragment_string s hf
    rw [eValue.valid] at hv
    have hz := all_ne_zero_of_valid s hv
    simp only [eValue.tokens, List.singleton_append, List.length_cons] at hfuel ⊢
    obtain ⟨n, rfl⟩ : ∃ n, fuel = n + 1 := ⟨fuel - 1, by omega⟩
    have hav : atomValue atof s = .STRING s := by rw [atomValue, if_pos hl]
    rw [eBottle.fromStrLoop_atom atof n b [] s Z (isBracket_of_letter _ hl) hz, hav]
    exact hr n (by omega)
theorem eBottle.parse_bag_tokens (atof : List Nat → Nat) : ∀ q : eBottle, q.valid = true →
    q.inFragment = true →
    ∀ (b : eBottle) (Z : List (List Nat)) (r : eBottle × List (List Nat)),
    (∀ fuel, Z.length < fuel →
      eBottle.fromStrLoop atof fuel (.mk (b.values ++ q.values)) false [] Z = some r) →
    ∀ fuel, (q.tokens ++ Z).length < fuel →
      eBottle.fromStrLoop atof fuel b false [] (q.tokens ++ Z) = some r
  | .mk values, hv, hf, b, Z, r, hr, fuel, hfuel => by
    rw [eBottle.valid] at hv
    rw [eBottle.inFragment] at hf
    rw [eBottle.tokens] at hfuel ⊢
    rw [eBottle.values_mk] at hr
    exact eBottle.parse_elems_tokens atof values hv hf b Z r hr fuel hfuel
theorem eBottle.parse_elems_tokens (atof : List Nat → Nat) : ∀ vs : List eValue,
    eBottle.elemsValid vs = true → eBottle.elemsInFragment vs = true →
    ∀ (b : eBottle) (Z : List (List Nat)) (r : eBottle × List (List Nat)),
    (∀ fuel, Z.length < fuel →
      eBottle.fromStrLoop atof fuel (.mk (b.values ++ vs)) false [] Z = some r) →
    ∀ fuel, (eBottle.elemsTokens vs ++ Z).length < fuel →
      eBottle.fromStrLoop atof fuel b false [] (eBottle.elemsTokens vs ++ Z) = some r
  | [], _, _, b, Z, r, hr, fuel, hfuel => by
    rw [eBottle.elemsTokens, List.nil_append] at hfuel ⊢
    have h := hr fuel hfuel
    rw [List.append_nil, eBottle.mk_values] at h
    exact h
  | v :: rest, hv, hf, b, Z, r, hr, fuel, hfuel => by
    simp only [eBottle.elemsValid, Bool.and_eq_true] at hv
    simp only [eBottle.elemsInFragment, Bool.and_eq_true] at hf
    rw [eBottle.elemsTokens, List.append_assoc] at hfuel ⊢
    refine eValue.parse_tokens atof v hv.1 hf.1 b (eBottle.elemsTokens rest ++ Z) r ?_ fuel
      hfuel
    refine eBottle.parse_elems_tokens atof rest hv.2 hf.2 (b.push_back v) Z r ?_
    intro m hm
    rw [eBottle.push_back_values]
    exact hr m hm
end

/-- Claim C29: the text round trip on the fragment without blobs and doubles.  For every
Bag `b` built at any depth from Ints, nested Bags (empty ones too) and Strings that are not
empty, start with a byte in `'A'..'z'` and hold no space and none of `(`, `)`, `\x7b`,
`\x7d`, `toString` gives a text, and `fromString` of that text into an empty Bag gives `b`
itself. -/
theorem text_round_trip_fragment (fmt : Nat → List Nat) (atof : List Nat → Nat) (b : eBottle)
    (hv : b.valid = true) (hf : b.inFragment = true) :
    ∃ text, eBottle.toString fmt b = some text ∧
      eBottle.fromString atof eBottle.empty text = some b := by
  obtain ⟨t, h1, h2, h3⟩ := eBottle.bag_text_tokens fmt b hv hf
  refine ⟨t, h1, ?_⟩
  rw [eBottle.fromString_eq, c_str_of_nulFree t h2, h3]
  have h := eBottle.parse_bag_tokens atof b hv hf eBottle.empty [] (b, [])
    (fun m hm => by
      obtain ⟨k, rfl⟩ : ∃ k, m = k + 1 := ⟨m - 1, by omega⟩
      rw [eBottle.values_empty, List.nil_append, eBottle.mk_values]
      rfl)
    (b.tokens.length + 2) (by rw [List.append_nil]; omega)
  rw [List.append_nil] at h
  rw [h]
  rfl

/-- The Bag `5 ab (-3 ()) z` lies in the fragment: it prints as `5 ab (-3 ()) z`, and that
text parses to the same Bag. -/
theorem text_round_trip_fragment_witness :
    eBottle.valid (.mk [.INT 5, .STRING [97, 98],
      .BOTTLE (.mk [.INT (-3), .BOTTLE (.mk [])]), .STRING [122]]) = true ∧
    eBottle.inFragment (.mk [.INT 5, .STRING [97, 98],
      .BOTTLE (.mk [.INT (-3), .BOTTLE (.mk [])]), .STRING [122]]) = true ∧
    (∃ text, eBottle.toString fmtExamples (.mk [.INT 5, .STRING [97, 98],
        .BOTTLE (.mk [.INT (-3), .BOTTLE (.mk [])]), .STRING [122]]) = some text ∧
      eBottle.fromString atofExamples eBottle.empty text = some (.mk [.INT 5, .STRING [97, 98],
        .BOTTLE (.mk [.INT (-3), .BOTTLE (.mk [])]), .STRING [122]])) ∧
    eBottle.toString fmtExamples (.mk [.INT 5, .STRING [97, 98],
        .BOTTLE (.mk [.INT (-3), .BOTTLE (.mk [])]), .STRING [122]])
      = some [53, 32, 97, 98, 32, 40, 45, 51, 32, 40, 41, 41, 32, 122] :=
  ⟨by decide, by decide,
    text_round_trip_fragment fmtExamples atofExamples _ (by decide) (by decide), by decide⟩

/-! ## The receiver of the decoding calls -/

theorem Heap.copy_eq_opAssign : ∀ fuel : Nat,
    (∀ (h : Heap) (this p : Nat), Heap.copy fuel h this p = Heap.opAssign fuel h this p) ∧
    (∀ (h : Heap) (this p i : Nat),
      Heap.copyLoop fuel h this p i = Heap.assignLoop fuel h this p i)
  | 0 => ⟨fun _ _ _ => rfl, fun _ _ _ _ => rfl⟩
  | fuel + 1 => by
    obtain ⟨ih1, ih2⟩ := Heap.copy_eq_opAssign fuel
    constructor
    · intro h this p
      rw [Heap.copy, Heap.opAssign]
      simp only [ih2]
    · intro h this p i
      rw [Heap.copyLoop, Heap.assignLoop]
      simp only [ih1, ih2]

theorem Heap.opAssign_released : ∀ fuel : Nat, Heap.opAssign fuel heapTwoAssigned 7 0 = none
  | 0 => rfl
  | 1 => rfl
  | 2 => rfl
  | 3 => rfl
  | 4 => rfl
  | 5 => rfl
  | 6 => rfl
  | 7 => rfl
  | _ + 8 => rfl

theorem Heap.opAssign_owned : ∀ fuel : Nat, Heap.opAssign fuel heapTwo 0 3 = none
  | 0 => rfl
  | 1 => rfl
  | 2 => rfl
  | 3 => rfl
  | 4 => rfl
  | 5 => rfl
  | 6 => rfl
  | 7 => rfl
  | _ + 8 => rfl

/-- C12, the code on an existing destination.  `copy` and `operator=` give the same result
on every heap, and on the heap with the Bags `7 (8)` and `1 2` each of them, and the copy
constructor, leaves a destination that shows `7 (8)`, nothing of `1 2` remaining.  But both
start with `clear()`, which runs `delete toBinaryPointer` on a member that no method resets
and deletes the elements before the source is read.  After `toBinary(int *size)` on the
destination the first assignment releases the buffer; a second assignment onto the same
destination deletes it again and has no defined result.  A source that is a nested Bag of
the destination is released by `clear()` before the loop reads it, and there is no defined
result either. -/
theorem copy_onto_existing (fuel : Nat) (h : Heap) (this p : Nat) :
    Heap.copy fuel h this p = Heap.opAssign fuel h this p ∧
    Heap.bagAt 3 heapTwo 0 = some (.mk [.INT 7, .BOTTLE (.mk [.INT 8])]) ∧
    Heap.bagAt 3 heapTwo 7 = some (.mk [.INT 1, .INT 2]) ∧
    (Heap.opAssign 6 heapTwo 7 0).bind (fun k => Heap.bagAt 3 k 7)
      = some (.mk [.INT 7, .BOTTLE (.mk [.INT 8])]) ∧
    (Heap.copy 6 heapTwo 7 0).bind (fun k => Heap.bagAt 3 k 7)
      = some (.mk [.INT 7, .BOTTLE (.mk [.INT 8])]) ∧
    (Heap.copyCtor 6 heapTwo 0).bind (fun r => Heap.bagAt 3 r.1 r.2)
      = some (.mk [.INT 7, .BOTTLE (.mk [.INT 8])]) ∧
    (Heap.toBinary 3 heapTwo 7 (fun _ => 0)).map (fun r => r.2) = some heapTwoBuffer ∧
    Heap.opAssign 6 heapTwoBuffer 7 0 = some heapTwoAssigned ∧
    Heap.bagAt 3 heapTwoAssigned 7 = some (.mk [.INT 7, .BOTTLE (.mk [.INT 8])]) ∧
    Heap.opAssign fuel heapTwoAssigned 7 0 = none ∧
    Heap.copy fuel heapTwoAssigned 7 0 = none ∧
    Heap.bagAt 3 heapTwo 3 = some (.mk [.INT 8]) ∧
    Heap.opAssign fuel heapTwo 0 3 = none ∧
    Heap.copy fuel heapTwo 0 3 = none := by
  refine ⟨(Heap.copy_eq_opAssign fuel).1 h this p, by rfl, by rfl, by rfl, by rfl, by rfl,
    by rfl, by rfl, by rfl, Heap.opAssign_released fuel, ?_, by rfl, Heap.opAssign_owned fuel,
    ?_⟩
  · rw [(Heap.copy_eq_opAssign fuel).1]
    exact Heap.opAssign_released fuel
  · rw [(Heap.copy_eq_opAssign fuel).1]
    exact Heap.opAssign_owned fuel

/-! ## Reading into a receiver whose buffer was released -/

theorem Heap.clear_released : ∀ fuel : Nat, Heap.clear fuel heapTwoAssigned 7 = none
  | 0 => rfl
  | 1 => rfl
  | 2 => rfl
  | 3 => rfl
  | 4 => rfl
  | 5 => rfl
  | 6 => rfl
  | 7 => rfl
  | _ + 8 => rfl

set_option maxRecDepth 8192 in
/-- C20, the code on a receiver whose buffer was released before: `read` starts with
`clear()`, and `clear()` runs `delete toBinaryPointer` on a member that no method resets.  On
a receiver whose `toBinaryPointer` is `NULL`, or points at the live buffer of
`toBinary(int *size)`, `read` on the frame written for the Bag `eb1` of `main` returns `true`
and leaves `eb1`, nothing of the seed Bag remaining; `clear()` leaves the member pointing at
the released buffer; and every later `read`, on any source, deletes that buffer a second
time and has no defined result.  On the heap, the eBottle at 7 is in that state after
`toBinary(int *size)` and one `clear()`, and `clear()` on it has no defined result. -/
theorem read_after_released_scratch (depth fuel : Nat) (c : eBottle)
    (connection : ConnectionReader) :
    (∃ frame : List Nat,
      eb1.write (fun _ => 0) [] = some (true, frame, eb1) ∧
      seedBag.read 2 .null ⟨frame ++ [7], false⟩ = some (true, eb1, ⟨[7], false⟩) ∧
      seedBag.read 2 .live ⟨frame ++ [7], false⟩ = some (true, eb1, ⟨[7], false⟩)) ∧
    c.clear .live = some (eBottle.empty, .released) ∧
    c.read depth .released connection = none ∧
    (Heap.toBinary 3 heapTwo 7 (fun _ => 0)).map (fun r => r.2) = some heapTwoBuffer ∧
    Heap.opAssign 6 heapTwoBuffer 7 0 = some heapTwoAssigned ∧
    Heap.clear fuel heapTwoAssigned 7 = none := by
  refine ⟨⟨int32Bytes (eb1.wireSize : Int) ++ eb1.wire, ?_, ?_, ?_⟩, rfl, rfl, by rfl, by rfl,
    Heap.clear_released fuel⟩
  · have h := eBottle.write_eq eb1 (by decide) (fun _ => 0) []
    simpa using h
  · exact eBottle.read_frame eb1 seedBag (by decide) (by decide) 2 (by decide) [7] false .null
      (by decide)
  · exact eBottle.read_frame eb1 seedBag (by decide) (by decide) 2 (by decide) [7] false .live
      (by decide)
